import Mathlib

/-!
# sshash: parser / super-k-mer partitioner

A shallow embedding of `include/util.hpp` and `include/builder/parse_file.hpp`.

Conventions of the embedding:

* `uint64_t` values are natural numbers, reduced modulo `2^64` wherever the
  C++ arithmetic can wrap; `kmer_t` (`__uint128_t`) values are reduced modulo
  `2^128`.
* A `char` is the natural number of its byte value; a `std::string` is a list
  of such bytes.
* The template parameter `Hasher` of the minimizer selector is a parameter
  `hash : Nat → Nat → Nat` taking the packed m-mer and the seed; its result is
  read as a `uint64_t`. `parse_file` uses the default `murmurhash2_64`, which
  calls the external `pthash::MurmurHash2_64`, the parameter `murmur`; on
  concrete inputs it is `MurmurHash2_64`, the function the spec names.
* `assert` statements are not part of the embedding: it is the program with
  assertions compiled out.
-/

namespace sshash

/-! ## Constants (`namespace constants`) -/

/-- The modulus of `uint64_t` arithmetic. -/
def two64 : Nat := 2 ^ 64

/-- The modulus of `kmer_t = __uint128_t` arithmetic. -/
def two128 : Nat := 2 ^ 128

/-- `constants::max_k = sizeof(kmer_t) * 4 - 1`. -/
def max_k : Nat := 16 * 4 - 1

/-- `constants::max_m`. -/
def max_m : Nat := 31

/-- `constants::invalid_uint64 = uint64_t(-1)`. -/
def invalid_uint64 : Nat := 2 ^ 64 - 1

/-! ## Alphabet codec (`namespace util`) -/

/-- `char_to_uint(c) = (c >> 1) & 3`. -/
def char_to_uint (c : Nat) : Nat := (c >>> 1) &&& 3

/-- `uint64_to_char(x) = nucleotides[x]` with `nucleotides = {'A','C','T','G'}`
(the access is guarded by `assert(x <= 3)`; outside the table the model returns 0). -/
def uint64_to_char (x : Nat) : Nat := [65, 67, 84, 71].getD x 0

/-- `string_to_uint_kmer_no_reverse(str, k)`:
`x = 0; for (i = 0; i != k; ++i) x += char_to_uint(str[i]) << (2 * i);`
in `kmer_t` arithmetic. `str` is the text starting at the pointer; reading past
its end yields the terminating 0 byte. -/
def string_to_uint_kmer_no_reverse (str : List Nat) (k : Nat) : Nat :=
  (List.range k).foldl
    (fun x i => (x + (char_to_uint (str.getD i 0) <<< (2 * i)) % two128) % two128) 0

/-- `__builtin_bswap64`: reverses the order of the eight bytes of a 64-bit word. -/
def bswap64 (x : Nat) : Nat :=
  ((x &&& 0xff) <<< 56) ||| (((x >>> 8) &&& 0xff) <<< 48) |||
  (((x >>> 16) &&& 0xff) <<< 40) ||| (((x >>> 24) &&& 0xff) <<< 32) |||
  (((x >>> 32) &&& 0xff) <<< 24) ||| (((x >>> 40) &&& 0xff) <<< 16) |||
  (((x >>> 48) &&& 0xff) <<< 8) ||| ((x >>> 56) &&& 0xff)

/-- `compute_reverse_complement(uint64_t x, uint64_t size)`. The argument is a
`uint64_t`, so a wider value is truncated at the call. The final shift amount
`64 - 2 * size` is computed in `uint64_t`; the function asserts `size <= 32`. -/
def compute_reverse_complement (x size : Nat) : Nat :=
  let x := x % two64
  let res := bswap64 (x ^^^ 0xaaaaaaaaaaaaaaaa)
  let c1 := 0x0f0f0f0f0f0f0f0f
  let c2 := 0x3333333333333333
  let res := (((res &&& c1) <<< 4) % two64) ||| ((res &&& ((c1 <<< 4) % two64)) >>> 4)
  let res := (((res &&& c2) <<< 2) % two64) ||| ((res &&& ((c2 <<< 2) % two64)) >>> 2)
  res >>> ((64 + two64 - (2 * size) % two64) % two64)

/-! ## Minimizer selector -/

/-- The `uint64_t` hash of a packed m-mer. -/
def hash64 (hash : Nat → Nat → Nat) (x seed : Nat) : Nat := hash x seed % two64

/-- The body of the loop of `compute_minimizer_pos`, run `n` more times from
index `i` with the current (shifted) `kmer` and the running
`min_hash`, `minimizer`, `pos`. -/
def minimizer_pos_loop (hash : Nat → Nat → Nat) (seed mask : Nat) :
    Nat → Nat → Nat → Nat → Nat → Nat → Nat × Nat
  | 0, _, _, _, minimizer, pos => (minimizer, pos)
  | n + 1, i, kmer, min_hash, minimizer, pos =>
    let sub_kmer := kmer &&& mask
    let h := hash64 hash sub_kmer seed
    if h < min_hash then
      minimizer_pos_loop hash seed mask n (i + 1) (kmer >>> 2) h sub_kmer i
    else
      minimizer_pos_loop hash seed mask n (i + 1) (kmer >>> 2) min_hash minimizer pos

/-- `compute_minimizer_pos<Hasher>(kmer, k, m, seed)`. The loop
`for (i = 0; i != k - m + 1; ++i)` runs `k - m + 1` (in `uint64_t`) times; the
returned pair is `std::pair<uint64_t, uint64_t>`, so the minimizer is truncated
to 64 bits. -/
def compute_minimizer_pos (hash : Nat → Nat → Nat) (kmer k m seed : Nat) : Nat × Nat :=
  let mask := ((1 <<< (2 * m)) % two128 + two128 - 1) % two128
  let n := (k + two64 - m + 1) % two64
  let r := minimizer_pos_loop hash seed mask n 0 (kmer % two128) invalid_uint64 (two128 - 1) 0
  (r.1 % two64, r.2)

/-- `murmurhash2_64::hash(kmer_t x, seed)` for the 128-bit `kmer_t`: the two
64-bit halves are hashed with `pthash::MurmurHash2_64` (external, the parameter
`murmur`, read as a `uint64_t`) and the results are xor-ed. -/
def murmurhash2_64_hash (murmur : Nat → Nat → Nat) (x seed : Nat) : Nat :=
  let low := x % two64
  let high := (x >>> 64) % two64
  (murmur low seed % two64) ^^^ (murmur high seed % two64)

/-- Modelled from the spec: `pthash::MurmurHash2_64(key, 8, seed)` on one
8-byte little-endian word, the "seeded 64-bit MurmurHash2" of §4.3 whose input
"is a single 64-bit word" (the function is external to the sources): the
published MurmurHash64A for one block and no tail bytes, in `uint64_t`
arithmetic. -/
def MurmurHash2_64 (x seed : Nat) : Nat :=
  let m := 0xc6a4a7935bd1e995
  let h := (seed % two64) ^^^ ((8 * m) % two64)
  let k := ((x % two64) * m) % two64
  let k := k ^^^ (k >>> 47)
  let k := (k * m) % two64
  let h := h ^^^ k
  let h := (h * m) % two64
  let h := h ^^^ (h >>> 47)
  let h := (h * m) % two64
  h ^^^ (h >>> 47)

/-! ## Build configuration and parser data -/

/-- `build_configuration`, restricted to the fields `parse_file` reads. -/
structure build_configuration where
  k : Nat
  m : Nat
  seed : Nat
  canonical_parsing : Bool
  weighted : Bool

/-- Modelled from the spec: an entry of `minimizers_tuples` (the tuple
writer is defined outside the embedded headers): the triple
`(minimizer, offset, num_kmers_in_super_kmer)`. -/
structure minimizer_tuple where
  minimizer : Nat
  offset : Nat
  num_kmers_in_super_kmer : Nat
deriving DecidableEq, Repr

/-- Modelled from the spec: `compact_string_pool::builder`, defined outside
the embedded headers (§4.4): a buffer of 2-bit codes (`strings`), the current base offset,
the `pieces` boundaries and the counter of appended super-k-mers. `appended`
records the arguments `(bases, glue)` of every `append` call, in call order. -/
structure pool_builder where
  k : Nat
  offset : Nat
  num_super_kmers : Nat
  pieces : List Nat
  strings : List Nat
  appended : List (List Nat × Bool)
deriving DecidableEq, Repr

/-- Modelled from the spec: `compact_string_pool::builder::builder(k)`: an empty pool. -/
def pool_builder.init (k : Nat) : pool_builder :=
  { k := k, offset := 0, num_super_kmers := 0, pieces := [], strings := [], appended := [] }

/-- Modelled from the spec: `compact_string_pool::builder::append(string, size, glue)`.
When `glue` is false the current base offset is recorded into `pieces` and
`string[0..size)` is encoded at the cursor. When `glue` is true the first
`k - 1` bases are the ones the previous super-k-mer ended with, and only
`string[k - 1..size)` is encoded: the gluing rule "avoids duplicating the
(k-1)-base overlap" (§1), glued offsets "overlap by exactly k - 1 bases with
the previous super-k-mer's tail" (§3), and the pool of the scenario `ACGTACGT`
of §8 has 8 bases; the sentence of §4.4 that overlaps are duplicated
contradicts these. The base offset becomes the number of bases of the pool and
`num_super_kmers` grows by one. -/
def pool_builder.append (b : pool_builder) (string : List Nat) (size : Nat) (glue : Bool) :
    pool_builder :=
  let shared := if glue then b.k - 1 else 0
  { b with
    pieces := if glue then b.pieces else b.pieces ++ [b.offset]
    strings := b.strings ++ ((string.take size).drop shared).map char_to_uint
    offset := b.offset + (size - shared)
    num_super_kmers := b.num_super_kmers + 1
    appended := b.appended ++ [(string.take size, glue)] }

/-- Modelled from the spec: `compact_string_pool::builder::finalize()` (§4.4):
pushes the final sentinel boundary at the current base offset. -/
def pool_builder.finalize (b : pool_builder) : pool_builder :=
  { b with pieces := b.pieces ++ [b.offset] }

/-- Modelled from the spec: `weights::builder`, defined outside the embedded
headers (§4.8): the weights fed by `eat`, the intervals pushed by
`push_weight_interval`, and the argument of `finalize` once it was called. -/
structure weights_builder where
  eaten : List Nat
  intervals : List (Nat × Nat)
  finalized : Option Nat
deriving DecidableEq, Repr

/-- Modelled from the spec: `weights::builder::init()`. -/
def weights_builder.init : weights_builder :=
  { eaten := [], intervals := [], finalized := none }

/-- Modelled from the spec: `weights::builder::eat(weight)`. -/
def weights_builder.eat (w : weights_builder) (weight : Nat) : weights_builder :=
  { w with eaten := w.eaten ++ [weight] }

/-- Modelled from the spec: `weights::builder::push_weight_interval(value, length)`. -/
def weights_builder.push_weight_interval (w : weights_builder) (value length : Nat) :
    weights_builder :=
  { w with intervals := w.intervals ++ [(value, length)] }

/-- Modelled from the spec: `weights::builder::finalize(num_kmers)`. -/
def weights_builder.finalize (w : weights_builder) (num_kmers : Nat) : weights_builder :=
  { w with finalized := some num_kmers }

/-- The exceptions `parse_file` can throw, and `fuel_exhausted`, the value of
the loop model when its fuel runs out before the stream ends. -/
inductive parse_error where
  | does_not_fit
  | parse_runtime_error
  | file_is_malformed
  | fuel_exhausted
deriving DecidableEq, Repr

/-- The variables of `parse_file`: the fields of `parse_data` (`num_kmers`,
`minimizers`, `weights_builder`; `strings` is built from `builder` at the end)
and the locals captured by the two lambdas. `begin_`/`end_` are `begin`/`end`;
`prev_pos` is the local of the loop body. Indices into `sequence` and the
counters that grow with the input are plain naturals (a `std::string` holds
fewer than `2^64` bytes). -/
structure parse_state where
  num_kmers : Nat
  minimizers : List minimizer_tuple
  weights_builder : weights_builder
  builder : pool_builder
  sequence : List Nat
  prev_minimizer : Nat
  prev_pos : Nat
  begin_ : Nat
  end_ : Nat
  num_sequences : Nat
  num_bases : Nat
  glue : Bool
  seq_len : Nat
  sum_of_weights : Nat
  weight_value : Nat
  weight_length : Nat
deriving DecidableEq, Repr

/-! ## Input stream -/

/-- A `std::istream` over a text: the lines still to be read (the text split at
the newline character; the last element is what follows the last newline) and
the `eofbit`. -/
structure istream where
  lines : List (List Nat)
  eof : Bool
deriving DecidableEq, Repr

/-- `std::getline(is, str)`. If the stream is no longer good the sentry fails
and `str` is left untouched. Otherwise `str` is erased and filled with the next
line; reading the last line hits the end of the text and sets `eofbit`. -/
def getline (is : istream) (str : List Nat) : istream × List Nat :=
  if is.eof then (is, str)
  else
    match is.lines with
    | [] => ({ lines := [], eof := true }, [])
    | [l] => ({ lines := [], eof := true }, l)
    | l :: rest => ({ lines := rest, eof := false }, l)

/-! ## Header parsing helpers -/

/-- `std::string::npos`. -/
def npos : Nat := 2 ^ 64 - 1

/-- `sequence.find_first_of(c, i)`: the index of the first `c` at or after
position `i`, or `npos`. -/
def find_first_of (s : List Nat) (c i : Nat) : Nat :=
  if (s.drop i).indexOf c < (s.drop i).length then i + (s.drop i).indexOf c else npos

/-- `isspace` in the "C" locale. -/
def isspace (c : Nat) : Bool := c == 32 || (9 ≤ c && c ≤ 13)

/-- `isdigit`. -/
def isdigit (c : Nat) : Bool := 48 ≤ c && c ≤ 57

/-- The value of a string of decimal digits, most significant digit first. -/
def decimal_value (ds : List Nat) : Nat := ds.foldl (fun a d => a * 10 + (d - 48)) 0

/-- `std::strtoull(p, nullptr, 10)` on the text at `p`: leading white space is
skipped, an optional sign is read, then the longest run of decimal digits; a
value that does not fit yields `ULLONG_MAX`, a leading minus negates the value
in `unsigned long long`, and no digits yield 0. -/
def strtoull (s : List Nat) : Nat :=
  let s1 := s.dropWhile isspace
  let neg := s1.head? == some 45
  let s2 := if s1.head? == some 45 || s1.head? == some 43 then s1.drop 1 else s1
  let v := decimal_value (s2.takeWhile isdigit)
  if two64 ≤ v then two64 - 1
  else if neg then (two64 - v) % two64
  else v

/-- Modelled from the spec: `expect(got, expected)` (the helper is defined
outside the embedded headers): any deviation fails with a parse error. -/
def expect (got expected : Nat) : Except parse_error Unit :=
  if got = expected then .ok () else .error .parse_runtime_error

/-! ## `parse_file` -/

/-- What the weight loop of `parse_header` does with a weight it has read: the
weight is fed to the builder, added to `sum_of_weights`, and the pending run
`(weight_value, weight_length)` is extended, or pushed as an interval (unless
its value is `invalid_uint64`) and replaced by a new run. -/
def eat_weight (st : parse_state) (weight : Nat) : parse_state :=
  let st := { st with
    weights_builder := st.weights_builder.eat weight
    sum_of_weights := (st.sum_of_weights + weight) % two64 }
  if weight = st.weight_value then
    { st with weight_length := st.weight_length + 1 }
  else
    let st :=
      if st.weight_value ≠ invalid_uint64 then
        { st with weights_builder :=
            st.weights_builder.push_weight_interval st.weight_value st.weight_length }
      else st
    { st with weight_value := weight, weight_length := 1 }

/-- One iteration of the weight loop of `parse_header` at cursor `i`:
a weight is read with `strtoull` and handled, and the cursor moves behind the
next blank (`find_first_of(' ', i) + 1`, which wraps to 0 when there is none). -/
def weights_step (st : parse_state) (i : Nat) : parse_state × Nat :=
  (eat_weight st (strtoull (st.sequence.drop i)),
   (find_first_of st.sequence 32 i + 1) % two64)

/-- The loop `for (j = 0; j != seq_len - k + 1; ++j)` of `parse_header`, run
for the given number of iterations. -/
def weights_loop : Nat → parse_state → Nat → parse_state
  | 0, st, _ => st
  | n + 1, st, i => weights_loop n (weights_step st i).1 (weights_step st i).2

/-- The lambda `parse_header` of `parse_file`, applied to the header line held
in `sequence`. `sequence[i]` at or past the end reads the terminating 0 byte.
The bound `seq_len - k + 1` of the weight loop is computed in `uint64_t`. -/
def parse_header (cfg : build_configuration) (st : parse_state) :
    Except parse_error parse_state :=
  if st.sequence.isEmpty then .ok st
  else do
    expect (st.sequence.getD 0 0) 62
    let i := find_first_of st.sequence 32 0
    if i = npos then throw parse_error.parse_runtime_error
    let i := i + 1
    expect (st.sequence.getD (i + 0) 0) 76
    expect (st.sequence.getD (i + 1) 0) 78
    expect (st.sequence.getD (i + 2) 0) 58
    expect (st.sequence.getD (i + 3) 0) 105
    expect (st.sequence.getD (i + 4) 0) 58
    let i := i + 5
    let j := find_first_of st.sequence 32 i
    if j = npos then throw parse_error.parse_runtime_error
    let seq_len := strtoull (st.sequence.drop i)
    let i := j + 1
    expect (st.sequence.getD (i + 0) 0) 97
    expect (st.sequence.getD (i + 1) 0) 98
    expect (st.sequence.getD (i + 2) 0) 58
    expect (st.sequence.getD (i + 3) 0) 90
    expect (st.sequence.getD (i + 4) 0) 58
    let i := i + 5
    pure (weights_loop ((seq_len + two64 - cfg.k % two64 + 1) % two64)
      { st with seq_len := seq_len } i)

/-- The lambda `append_super_kmer` of `parse_file`. `nbytes` is
`sizeof(num_kmers_in_super_kmer_uint_type)`, the width of the count field of a
tuple (the type is declared outside the embedded headers). -/
def append_super_kmer (cfg : build_configuration) (nbytes : Nat) (st : parse_state) :
    parse_state :=
  if st.sequence.isEmpty ∨ st.prev_minimizer = invalid_uint64 ∨ st.begin_ = st.end_ then st
  else
    let super_kmer := st.sequence.drop st.begin_
    let size := (st.end_ - st.begin_) + cfg.k - 1
    let num_kmers_in_super_kmer := st.end_ - st.begin_
    let t : minimizer_tuple :=
      { minimizer := st.prev_minimizer
        offset := st.builder.offset
        num_kmers_in_super_kmer := num_kmers_in_super_kmer % 2 ^ (nbytes * 8) }
    let builder := st.builder.append super_kmer size st.glue
    let t :=
      if st.glue then { t with offset := (t.offset + two64 - (cfg.k - 1) % two64) % two64 }
      else t
    { st with minimizers := st.minimizers ++ [t], builder := builder, glue := true }

/-- The selection step of the k-mer loop of `parse_file` (the call of
`compute_minimizer_pos` and the `canonical_parsing` block): the pair
`(minimizer, pos)` the partitioning decision is taken on. -/
def select_minimizer (hash : Nat → Nat → Nat) (cfg : build_configuration) (uint_kmer : Nat) :
    Nat × Nat :=
  let r := compute_minimizer_pos hash uint_kmer cfg.k cfg.m cfg.seed
  if cfg.canonical_parsing then
    let uint_kmer_rc := compute_reverse_complement uint_kmer cfg.k
    let rc := compute_minimizer_pos hash uint_kmer_rc cfg.k cfg.m cfg.seed
    if rc.1 < r.1 then (rc.1, (cfg.k + two64 - (rc.2 + cfg.m) % two64) % two64)
    else r
  else r

/-- The body of the loop `while (end != sequence.size() - k + 1)` of `parse_file`. -/
def kmer_step (hash : Nat → Nat → Nat) (cfg : build_configuration) (nbytes : Nat)
    (st : parse_state) : parse_state :=
  let kmer := st.sequence.drop st.end_
  let uint_kmer := string_to_uint_kmer_no_reverse kmer cfg.k
  let r := select_minimizer hash cfg uint_kmer
  let minimizer := r.1
  let pos := r.2
  let st :=
    if st.prev_minimizer = invalid_uint64 then
      { st with prev_minimizer := minimizer, prev_pos := (pos + 1) % two64 }
    else st
  let st :=
    if minimizer ≠ st.prev_minimizer ∨ (pos + 1) % two64 ≠ st.prev_pos then
      let st := append_super_kmer cfg nbytes st
      { st with begin_ := st.end_, prev_minimizer := minimizer, glue := true }
    else st
  { st with num_kmers := st.num_kmers + 1, end_ := st.end_ + 1, prev_pos := pos }

/-- The loop `while (end != sequence.size() - k + 1)` of `parse_file`, with fuel. -/
def kmers_loop (hash : Nat → Nat → Nat) (cfg : build_configuration) (nbytes : Nat) :
    Nat → parse_state → Option parse_state
  | 0, st => if st.end_ = st.sequence.length - cfg.k + 1 then some st else none
  | fuel + 1, st =>
    if st.end_ = st.sequence.length - cfg.k + 1 then some st
    else kmers_loop hash cfg nbytes fuel (kmer_step hash cfg nbytes st)

/-- The resets at the start of a sequence of length at least `k` in the main
loop of `parse_file`: `++num_sequences`, `begin = 0`, `end = 0`, `glue = false`,
`prev_minimizer = prev_pos = invalid_uint64`, `num_bases += sequence.size()`. -/
def start_sequence (st : parse_state) : parse_state :=
  { st with
    num_sequences := st.num_sequences + 1
    begin_ := 0
    end_ := 0
    glue := false
    prev_minimizer := invalid_uint64
    prev_pos := invalid_uint64
    num_bases := st.num_bases + st.sequence.length }

/-- The part of the body of the main loop of `parse_file` that follows the
second `getline`: the DNA line is in `sequence`. -/
def parse_sequence (hash : Nat → Nat → Nat) (cfg : build_configuration) (nbytes : Nat)
    (st : parse_state) : Except parse_error parse_state :=
  if st.sequence.length < cfg.k then .ok st
  else
    let st := start_sequence st
    if cfg.weighted ∧ st.seq_len ≠ st.sequence.length then .error .file_is_malformed
    else
      match kmers_loop hash cfg nbytes (st.sequence.length - cfg.k + 1) st with
      | none => .error .fuel_exhausted
      | some st => .ok (append_super_kmer cfg nbytes st)

/-- The main loop `while (!is.eof())` of `parse_file`, with fuel. -/
def parse_loop (hash : Nat → Nat → Nat) (cfg : build_configuration) (nbytes : Nat) :
    Nat → istream → parse_state → Except parse_error parse_state
  | 0, is, st => if is.eof then .ok st else .error .fuel_exhausted
  | fuel + 1, is, st =>
    if is.eof then .ok st
    else
      let r1 := getline is st.sequence
      let st := { st with sequence := r1.2 }
      match (if cfg.weighted then parse_header cfg st else .ok st) with
      | .error e => .error e
      | .ok st =>
        let r2 := getline r1.1 st.sequence
        let st := { st with sequence := r2.2 }
        match parse_sequence hash cfg nbytes st with
        | .error e => .error e
        | .ok st => parse_loop hash cfg nbytes fuel r2.1 st

/-- The state of `parse_file` before the main loop, for a fresh `parse_data`. -/
def parse_state.init (cfg : build_configuration) : parse_state :=
  { num_kmers := 0
    minimizers := []
    weights_builder := weights_builder.init
    builder := pool_builder.init cfg.k
    sequence := []
    prev_minimizer := invalid_uint64
    prev_pos := invalid_uint64
    begin_ := 0
    end_ := 0
    num_sequences := 0
    num_bases := 0
    glue := false
    seq_len := 0
    sum_of_weights := 0
    weight_value := invalid_uint64
    weight_length := 0 }

/-- `parse_file(is, data, build_config)` on a fresh `parse_data`, the stream
being given by its lines. The result is the final state: `data.strings` is
built from the finalized `builder`, whose fields stand for it. -/
def parse_file (murmur : Nat → Nat → Nat) (nbytes : Nat) (lines : List (List Nat))
    (cfg : build_configuration) : Except parse_error parse_state :=
  let max_num_kmers_in_super_kmer := (cfg.k + two64 - cfg.m % two64 + 1) % two64
  if (1 <<< (nbytes * 8)) % two64 ≤ max_num_kmers_in_super_kmer then .error .does_not_fit
  else
    match parse_loop (murmurhash2_64_hash murmur) cfg nbytes (lines.length + 1)
        { lines := lines, eof := false } (parse_state.init cfg) with
    | .error e => .error e
    | .ok st =>
      let st := { st with builder := st.builder.finalize }
      if cfg.weighted then
        let wb := st.weights_builder.push_weight_interval st.weight_value st.weight_length
        .ok { st with weights_builder := wb.finalize st.num_kmers }
      else .ok st

/-! ## Inputs made of header/sequence pairs -/

/-- The lines of an input made of `(header, sequence)` records. -/
def lines_of_records : List (List Nat × List Nat) → List (List Nat)
  | [] => []
  | r :: rs => r.1 :: r.2 :: lines_of_records rs

/-- The text of an input made of records: its lines, followed by an empty last
line when the text ends with a newline. -/
def input_lines (rs : List (List Nat × List Nat)) (final_newline : Bool) : List (List Nat) :=
  lines_of_records rs ++ (if final_newline then [[]] else [])

/-- The number of k-mers of a sequence line of length `len`. -/
def num_kmers_of (k len : Nat) : Nat := if k ≤ len then len - k + 1 else 0

/-- One iteration of the main loop of `parse_file` on a record: the header
line is read into `sequence` (and parsed when `weighted`), then the sequence
line is read and processed. -/
def parse_record (hash : Nat → Nat → Nat) (cfg : build_configuration) (nbytes : Nat)
    (r : List Nat × List Nat) (st : parse_state) : Except parse_error parse_state :=
  match (if cfg.weighted then parse_header cfg { st with sequence := r.1 }
         else .ok { st with sequence := r.1 }) with
  | .error e => .error e
  | .ok st => parse_sequence hash cfg nbytes { st with sequence := r.2 }

/-- The iterations of the main loop of `parse_file` on a list of records. -/
def parse_records (hash : Nat → Nat → Nat) (cfg : build_configuration) (nbytes : Nat) :
    List (List Nat × List Nat) → parse_state → Except parse_error parse_state
  | [], st => .ok st
  | r :: rs, st =>
    match parse_record hash cfg nbytes r st with
    | .error e => .error e
    | .ok st => parse_records hash cfg nbytes rs st

/-! ## Super-k-mer runs -/

/-- The pair `(minimizer, pos)` the selection step yields for the k-mer that
starts at index `j` of the sequence `s`. -/
def sel_at (hash : Nat → Nat → Nat) (cfg : build_configuration) (s : List Nat) (j : Nat) :
    Nat × Nat :=
  select_minimizer hash cfg (string_to_uint_kmer_no_reverse (s.drop j) cfg.k)

/-- Consecutive non-empty runs `(begin, end)` of k-mer indices leading from
index `a` to index `b`. -/
def runs_chain : Nat → List (Nat × Nat) → Nat → Prop
  | a, [], b => a = b
  | a, r :: rs, b => r.1 = a ∧ a < r.2 ∧ runs_chain r.2 rs b

/-- The effect of one emission of `append_super_kmer` for the run `r` of the
sequence `s` on the pool builder and on the list of tuples; the minimizer of
the tuple is `prev_minimizer`, the one selected for the last k-mer of the run. -/
def emit_run (hash : Nat → Nat → Nat) (cfg : build_configuration) (nbytes : Nat) (s : List Nat)
    (acc : pool_builder × List minimizer_tuple) (r : Nat × Nat) :
    pool_builder × List minimizer_tuple :=
  (acc.1.append (s.drop r.1) (r.2 - r.1 + cfg.k - 1) (decide (r.1 ≠ 0)),
   acc.2 ++ [{ minimizer := (sel_at hash cfg s (r.2 - 1)).1
               offset := if r.1 = 0 then acc.1.offset
                         else (acc.1.offset + two64 - (cfg.k - 1) % two64) % two64
               num_kmers_in_super_kmer := (r.2 - r.1) % 2 ^ (nbytes * 8) }])

/-- The emissions for a list of runs of the sequence `s`, in order. -/
def emit_runs (hash : Nat → Nat → Nat) (cfg : build_configuration) (nbytes : Nat) (s : List Nat)
    (acc : pool_builder × List minimizer_tuple) (runs : List (Nat × Nat)) :
    pool_builder × List minimizer_tuple :=
  runs.foldl (emit_run hash cfg nbytes s) acc

/-! ## Concrete inputs -/

/-- A stand-in for the external `pthash::MurmurHash2_64` on small words: the
word itself, reduced modulo 1024. -/
def example_murmur : Nat → Nat → Nat := fun x _ => x % 1024

/-- The configuration `k = 5`, `m = 3`, `seed = 1`, not canonical, not weighted. -/
def example_cfg : build_configuration :=
  { k := 5, m := 3, seed := 1, canonical_parsing := false, weighted := false }

/-- The records `>s1 / ACGTACGTACGT`, `>s0 / ACG`, `>s2 / TTTTTACGT`. -/
def example_records : List (List Nat × List Nat) :=
  [([62, 115, 49], [65, 67, 71, 84, 65, 67, 71, 84, 65, 67, 71, 84]),
   ([62, 115, 48], [65, 67, 71]),
   ([62, 115, 50], [84, 84, 84, 84, 84, 65, 67, 71, 84])]

/-- The record `> / ACA`. -/
def aca_records : List (List Nat × List Nat) := [([62], [65, 67, 65])]

/-! ## Well-formed weighted inputs -/

/-- A non-empty string of decimal digits. -/
def is_number (ds : List Nat) : Prop := ds ≠ [] ∧ ∀ c ∈ ds, isdigit c = true

/-- The strings of a list, separated by single blanks. -/
def join_blank : List (List Nat) → List Nat
  | [] => []
  | [d] => d
  | d :: d' :: ds => d ++ 32 :: join_blank (d' :: ds)

/-- A record of a weighted input: the id, the digits of the declared length,
the digits of each weight, and the sequence line. -/
structure weighted_record where
  id : List Nat
  length_digits : List Nat
  weight_digits : List (List Nat)
  sequence : List Nat

/-- The header line `>[id] LN:i:[seq_len] ab:Z:[weight_seq]` of a weighted record. -/
def weighted_record.header (w : weighted_record) : List Nat :=
  (62 :: w.id ++ [32]) ++ ([76, 78, 58, 105, 58] ++ (w.length_digits ++
    32 :: ([97, 98, 58, 90, 58] ++ join_blank w.weight_digits)))

/-- The weights of a weighted record. -/
def weighted_record.weights (w : weighted_record) : List Nat :=
  w.weight_digits.map decimal_value

/-- The `(header, sequence)` pair of lines of a weighted record. -/
def weighted_record.lines (w : weighted_record) : List Nat × List Nat :=
  (w.header, w.sequence)

/-- A weighted record is well formed for k-mer length `k`: the id holds no
blank, the declared length is a number equal to the length of the sequence,
there are `seq_len - k + 1` weights, each a number below `2^64 - 1` (the value
`strtoull` also returns on overflow and `parse_file` reserves for "no weight
yet"), and the two lines are strings of fewer than `2^64 - 1` bytes. -/
def weighted_record.well_formed (k : Nat) (w : weighted_record) : Prop :=
  32 ∉ w.id ∧ is_number w.length_digits ∧
  decimal_value w.length_digits = w.sequence.length ∧
  (∀ d ∈ w.weight_digits, is_number d ∧ decimal_value d < 2 ^ 64 - 1) ∧
  w.weight_digits.length + k = w.sequence.length + 1 ∧
  w.header.length < 2 ^ 64 - 1 ∧ w.sequence.length < 2 ^ 64 - 1

/-- The weights a list of `(value, length)` intervals stands for: each value
repeated length times, in order. -/
def expand_intervals (l : List (Nat × Nat)) : List Nat :=
  (l.map (fun p => List.replicate p.2 p.1)).flatten

/-- The configuration `k = 2`, `m = 1`, `seed = 1`, not canonical, weighted. -/
def example_weighted_cfg : build_configuration :=
  { k := 2, m := 1, seed := 1, canonical_parsing := false, weighted := true }

/-- The weighted record `>1 LN:i:1 ab:Z:` / `A`, whose sequence is shorter than `k = 3`. -/
def short_weighted_record : weighted_record :=
  { id := [49]
    length_digits := [49]
    weight_digits := []
    sequence := [65] }

/-- The configuration `k = 3`, `m = 1`, `seed = 1`, not canonical, weighted. -/
def short_weighted_cfg : build_configuration :=
  { k := 3, m := 1, seed := 1, canonical_parsing := false, weighted := true }

/-! ## Natural-layout packing, validation and the reverse complement of a string -/

/-- `string_to_uint_kmer(str, k)`:
`x = 0; for (i = 0; i != k; ++i) { x <<= 2; x += char_to_uint(str[i]); }`
in `kmer_t` arithmetic. -/
def string_to_uint_kmer (str : List Nat) (k : Nat) : Nat :=
  (List.range k).foldl
    (fun x i => ((x <<< 2) % two128 + char_to_uint (str.getD i 0)) % two128) 0

/-- The table `canonicalize_basepair_forward_map[256]`:
A -> A, C -> C, G -> G, T -> T, the rest maps to zero. -/
def canonicalize_basepair_forward_map : List Nat :=
  [
   0, 0, 0, 0, 0, 0, 0, 0, 0, 0, 0, 0, 0, 0, 0, 0, 0, 0, 0, 0, 0, 0, 0, 0, 0, 0, 0, 0, 0,
   0, 0, 0, 0, 0, 0, 0, 0, 0, 0, 0, 0, 0, 0, 0, 0, 0, 0, 0, 0, 0, 0, 0, 0, 0, 0, 0, 0, 0,
   0, 0, 0, 0, 0, 0, 0, 65, 0, 67, 0, 0, 0, 71, 0, 0, 0, 0, 0, 0, 0, 0, 0, 0, 0, 0, 84, 0, 0,
   0, 0, 0, 0, 0, 0, 0, 0, 0, 0, 0, 0, 0, 0, 0, 0, 0, 0, 0, 0, 0, 0, 0, 0, 0, 0, 0, 0, 0,
   0, 0, 0, 0, 0, 0, 0, 0, 0, 0, 0, 0, 0, 0, 0, 0, 0, 0, 0, 0, 0, 0, 0, 0, 0, 0, 0, 0, 0,
   0, 0, 0, 0, 0, 0, 0, 0, 0, 0, 0, 0, 0, 0, 0, 0, 0, 0, 0, 0, 0, 0, 0, 0, 0, 0, 0, 0, 0,
   0, 0, 0, 0, 0, 0, 0, 0, 0, 0, 0, 0, 0, 0, 0, 0, 0, 0, 0, 0, 0, 0, 0, 0, 0, 0, 0, 0, 0,
   0, 0, 0, 0, 0, 0, 0, 0, 0, 0, 0, 0, 0, 0, 0, 0, 0, 0, 0, 0, 0, 0, 0, 0, 0, 0, 0, 0, 0,
   0, 0, 0, 0, 0, 0, 0, 0, 0, 0, 0, 0, 0, 0, 0, 0, 0, 0, 0, 0, 0, 0, 0, 0
  ]

/-- The table `canonicalize_basepair_reverse_map[256]`:
A -> T, C -> G, G -> C, T -> A, the rest maps to zero. -/
def canonicalize_basepair_reverse_map : List Nat :=
  [
   0, 0, 0, 0, 0, 0, 0, 0, 0, 0, 0, 0, 0, 0, 0, 0, 0, 0, 0, 0, 0, 0, 0, 0, 0, 0, 0, 0, 0,
   0, 0, 0, 0, 0, 0, 0, 0, 0, 0, 0, 0, 0, 0, 0, 0, 0, 0, 0, 0, 0, 0, 0, 0, 0, 0, 0, 0, 0,
   0, 0, 0, 0, 0, 0, 0, 84, 0, 71, 0, 0, 0, 67, 0, 0, 0, 0, 0, 0, 0, 0, 0, 0, 0, 0, 65, 0, 0,
   0, 0, 0, 0, 0, 0, 0, 0, 0, 0, 0, 0, 0, 0, 0, 0, 0, 0, 0, 0, 0, 0, 0, 0, 0, 0, 0, 0, 0,
   0, 0, 0, 0, 0, 0, 0, 0, 0, 0, 0, 0, 0, 0, 0, 0, 0, 0, 0, 0, 0, 0, 0, 0, 0, 0, 0, 0, 0,
   0, 0, 0, 0, 0, 0, 0, 0, 0, 0, 0, 0, 0, 0, 0, 0, 0, 0, 0, 0, 0, 0, 0, 0, 0, 0, 0, 0, 0,
   0, 0, 0, 0, 0, 0, 0, 0, 0, 0, 0, 0, 0, 0, 0, 0, 0, 0, 0, 0, 0, 0, 0, 0, 0, 0, 0, 0, 0,
   0, 0, 0, 0, 0, 0, 0, 0, 0, 0, 0, 0, 0, 0, 0, 0, 0, 0, 0, 0, 0, 0, 0, 0, 0, 0, 0, 0, 0,
   0, 0, 0, 0, 0, 0, 0, 0, 0, 0, 0, 0, 0, 0, 0, 0, 0, 0, 0, 0, 0, 0, 0, 0
  ]

/-- The conversion `int c = str[i]` of a `char` holding the byte `b`. Whether
`char` is signed is left to the implementation: where it is, the bytes from 128
on are negative. -/
def char_to_int (char_is_signed : Bool) (b : Nat) : Int :=
  if char_is_signed && decide (128 ≤ b) then (b : Int) - 256 else (b : Int)

/-- The read `table[c]` of a table with an `int` index: `none` when the index
is outside the table, where the read is undefined. -/
def table_at (table : List Nat) (c : Int) : Option Nat :=
  if 0 ≤ c then table.get? c.toNat else none

/-- The loop of `is_valid(str, size)` from index `i` on, for `n` more bytes. -/
def is_valid_loop (char_is_signed : Bool) (str : List Nat) : Nat → Nat → Option Bool
  | 0, _ => some true
  | n + 1, i =>
    match table_at canonicalize_basepair_forward_map (char_to_int char_is_signed (str.getD i 0)) with
    | none => none
    | some v => if v = 0 then some false else is_valid_loop char_is_signed str n (i + 1)

/-- `is_valid(char const* str, uint64_t size)`:
`for (i = 0; i != size; ++i) { int c = str[i]; if (map[c] == 0) return false; } return true;`
The result is `none` when a read falls outside the table. -/
def is_valid (char_is_signed : Bool) (str : List Nat) (size : Nat) : Option Bool :=
  is_valid_loop char_is_signed str size 0

/-- `compute_reverse_complement(char const* input, char* output, uint64_t size)`:
`for (i = 0; i != size; ++i) { int c = input[i]; output[size - i - 1] = map[c]; }`
on the buffer `output`, which is returned; `none` when a read falls outside
the table. -/
def compute_reverse_complement_str (char_is_signed : Bool) (input output : List Nat)
    (size : Nat) : Option (List Nat) :=
  (List.range size).foldl
    (fun out i =>
      match out, table_at canonicalize_basepair_reverse_map
          (char_to_int char_is_signed (input.getD i 0)) with
      | some o, some v => some (o.set (size - i - 1) v)
      | _, _ => none)
    (some output)

/-- The complement of a base, as the comment on
`canonicalize_basepair_reverse_map` states it: A -> T, C -> G, G -> C, T -> A. -/
def complement_base (c : Nat) : Nat :=
  if c = 65 then 84 else if c = 67 then 71 else if c = 71 then 67 else if c = 84 then 65 else 0

/-! ## The checks of `parse_header` -/

/-- The header line `s` passes every check of `parse_header`: the first byte is
`>`, a blank is found, `LN:i:` follows it, a blank is found behind that, and
`ab:Z:` follows this second blank. -/
def header_accepted (s : List Nat) : Prop :=
  s.getD 0 0 = 62 ∧ find_first_of s 32 0 ≠ npos ∧
  s.getD (find_first_of s 32 0 + 1 + 0) 0 = 76 ∧
  s.getD (find_first_of s 32 0 + 1 + 1) 0 = 78 ∧
  s.getD (find_first_of s 32 0 + 1 + 2) 0 = 58 ∧
  s.getD (find_first_of s 32 0 + 1 + 3) 0 = 105 ∧
  s.getD (find_first_of s 32 0 + 1 + 4) 0 = 58 ∧
  find_first_of s 32 (find_first_of s 32 0 + 1 + 5) ≠ npos ∧
  s.getD (find_first_of s 32 (find_first_of s 32 0 + 1 + 5) + 1 + 0) 0 = 97 ∧
  s.getD (find_first_of s 32 (find_first_of s 32 0 + 1 + 5) + 1 + 1) 0 = 98 ∧
  s.getD (find_first_of s 32 (find_first_of s 32 0 + 1 + 5) + 1 + 2) 0 = 58 ∧
  s.getD (find_first_of s 32 (find_first_of s 32 0 + 1 + 5) + 1 + 3) 0 = 90 ∧
  s.getD (find_first_of s 32 (find_first_of s 32 0 + 1 + 5) + 1 + 4) 0 = 58

/-- The captured variables of `parse_file` when the lambda `parse_header`
is left, by its end, by its `return` or by an exception of `expect` or of a
failed search: the declared length is stored once the second blank is found,
and weights are handled only in the loop behind the last check. -/
def parse_header_state (cfg : build_configuration) (st : parse_state) : parse_state :=
  if st.sequence.isEmpty then st
  else if st.sequence.getD 0 0 ≠ 62 then st
  else
    let i := find_first_of st.sequence 32 0
    if i = npos then st
    else
      let i := i + 1
      if st.sequence.getD (i + 0) 0 ≠ 76 then st
      else if st.sequence.getD (i + 1) 0 ≠ 78 then st
      else if st.sequence.getD (i + 2) 0 ≠ 58 then st
      else if st.sequence.getD (i + 3) 0 ≠ 105 then st
      else if st.sequence.getD (i + 4) 0 ≠ 58 then st
      else
        let i := i + 5
        let j := find_first_of st.sequence 32 i
        if j = npos then st
        else
          let seq_len := strtoull (st.sequence.drop i)
          let st := { st with seq_len := seq_len }
          let i := j + 1
          if st.sequence.getD (i + 0) 0 ≠ 97 then st
          else if st.sequence.getD (i + 1) 0 ≠ 98 then st
          else if st.sequence.getD (i + 2) 0 ≠ 58 then st
          else if st.sequence.getD (i + 3) 0 ≠ 90 then st
          else if st.sequence.getD (i + 4) 0 ≠ 58 then st
          else
            let i := i + 5
            weights_loop ((seq_len + two64 - cfg.k % two64 + 1) % two64) st i

/-- A header line that deviates from the format before its weights: its first
byte is not `>`, or it holds no blank, or the text behind its first blank does
not start with `LN:i:`, or there is no blank behind the declared length (the
text that follows `LN:i:`), or the text behind that blank does not start with
`ab:Z:`. -/
def header_malformed (s : List Nat) : Prop :=
  s.getD 0 0 ≠ 62 ∨ 32 ∉ s ∨
  ¬ ([76, 78, 58, 105, 58] <+: s.drop (s.indexOf 32 + 1)) ∨
  32 ∉ s.drop (s.indexOf 32 + 1 + 5) ∨
  ¬ ([97, 98, 58, 90, 58] <+:
      s.drop (s.indexOf 32 + 1 + 5 + (s.drop (s.indexOf 32 + 1 + 5)).indexOf 32 + 1))

/-- The weighted record `>1 LN:i:2 ab:Z:` / `A`: the declared length 2 is not
the length of the sequence, which is shorter than `k = 3`. -/
def mismatch_short_record : weighted_record :=
  { id := [49]
    length_digits := [50]
    weight_digits := []
    sequence := [65] }

/-- A weighted record cut down to the weights `parse_header` reads: the first
`seq_len - k + 1` items of its `ab:Z:` field. -/
def weighted_record.truncated (k : Nat) (w : weighted_record) : weighted_record :=
  { w with weight_digits := w.weight_digits.take (w.sequence.length + 1 - k) }

/-- The weighted record `>1 LN:i:6 ab:Z:2 2 2 3 3 7` / `ACGTAC`: six integers
where `k = 2` asks for five. -/
def extra_weight_record : weighted_record :=
  { id := [49]
    length_digits := [54]
    weight_digits := [[50], [50], [50], [51], [51], [55]]
    sequence := [65, 67, 71, 84, 65, 67] }

/-- The weighted record `>1 LN:i:6 ab:Z:2 2` / `ACGTAC`: two integers where
`k = 2` asks for five. -/
def missing_weight_record : weighted_record :=
  { id := [49]
    length_digits := [54]
    weight_digits := [[50], [50]]
    sequence := [65, 67, 71, 84, 65, 67] }

/-- The record `>s / ACGTn`, whose sequence ends with a lowercase letter. -/
def lowercase_records : List (List Nat × List Nat) :=
  [([62, 115], [65, 67, 71, 84, 110])]

/-! ## The minimizer without its position, and unpacking -/

/-- The body of the loop of `compute_minimizer`, run `n` more times with the
current (shifted) `kmer` and the running `min_hash` and `minimizer`. -/
def minimizer_loop (hash : Nat → Nat → Nat) (seed mask : Nat) :
    Nat → Nat → Nat → Nat → Nat
  | 0, _, _, minimizer => minimizer
  | n + 1, kmer, min_hash, minimizer =>
    let sub_kmer := kmer &&& mask
    let h := hash64 hash sub_kmer seed
    if h < min_hash then
      minimizer_loop hash seed mask n (kmer >>> 2) h sub_kmer
    else
      minimizer_loop hash seed mask n (kmer >>> 2) min_hash minimizer

/-- `compute_minimizer<Hasher>(kmer, k, m, seed)`. The loop
`for (i = 0; i != k - m + 1; ++i)` runs `k - m + 1` (in `uint64_t`) times; the
function returns a `uint64_t`, so the minimizer is truncated to 64 bits. -/
def compute_minimizer (hash : Nat → Nat → Nat) (kmer k m seed : Nat) : Nat :=
  let mask := ((1 <<< (2 * m)) % two128 + two128 - 1) % two128
  let n := (k + two64 - m + 1) % two64
  minimizer_loop hash seed mask n (kmer % two128) invalid_uint64 (two128 - 1) % two64

/-- `uint_kmer_to_string_no_reverse(kmer_t x, char* str, uint64_t k)`:
`for (i = 0; i != k; ++i) { str[i] = uint64_to_char(x & 3); x >>= 2; }`
on the buffer `str`, which is returned. -/
def uint_kmer_to_string_no_reverse_into (x : Nat) (str : List Nat) (k : Nat) : List Nat :=
  ((List.range k).foldl
    (fun (p : List Nat × Nat) i => (p.1.set i (uint64_to_char (p.2 &&& 3)), p.2 >>> 2))
    (str, x)).1

/-- `uint_kmer_to_string_no_reverse(kmer_t x, uint64_t k)`: a string resized
to `k` is filled. -/
def uint_kmer_to_string_no_reverse (x k : Nat) : List Nat :=
  uint_kmer_to_string_no_reverse_into x (List.replicate k 0) k

/-- `uint_kmer_to_string(kmer_t x, char* str, uint64_t k)`:
`for (int i = k - 1; i >= 0; --i) { str[i] = uint64_to_char(x & 3); x >>= 2; }`
on the buffer `str`, which is returned; the `j`-th iteration writes the index
`k - 1 - j` (`k` fits an `int`). -/
def uint_kmer_to_string_into (x : Nat) (str : List Nat) (k : Nat) : List Nat :=
  ((List.range k).foldl
    (fun (p : List Nat × Nat) j => (p.1.set (k - 1 - j) (uint64_to_char (p.2 &&& 3)), p.2 >>> 2))
    (str, x)).1

/-- `uint_kmer_to_string(kmer_t x, uint64_t k)`: a string resized to `k` is filled. -/
def uint_kmer_to_string (x k : Nat) : List Nat :=
  uint_kmer_to_string_into x (List.replicate k 0) k

/-! ## Emitted pairs and tuple offsets -/

/-- The pairs `(tuple, append call)` emitted for the sequence line `s` from
k-mer `b` on: the first append holds the bases `s[b, e + k - 1)` of the k-mers
`[b, e)` for some `e > b`, it is glued unless `b = 0`, and the other pairs do
the same from k-mer `e` on. -/
def appends_of_sequence (k : Nat) (s : List Nat) :
    Nat → List (minimizer_tuple × (List Nat × Bool)) → Prop
  | _, [] => True
  | b, p :: ps =>
    ∃ e, b < e ∧ e + k - 1 ≤ s.length ∧
      p.2.1 = (s.drop b).take (e - b + k - 1) ∧ p.2.2 = decide (b ≠ 0) ∧
      appends_of_sequence k s e ps

/-- The pool builder `b` after the append calls of the pairs `l`, in order. -/
def pool_after (b : pool_builder) (l : List (minimizer_tuple × (List Nat × Bool))) :
    pool_builder :=
  l.foldl (fun b p => b.append p.2.1 p.2.1.length p.2.2) b

/-- The tuple offsets along the pairs `(tuple, append call)` in emission order,
`b` being the pool builder before the first append: the tuple of an append that
is not glued records the base offset of `b`; at a glued append the base offset
of `b` is greater than `k - 1` and the tuple records that offset minus `k - 1`;
the other pairs do the same on the builder after the append. -/
def offsets_sound (k : Nat) : pool_builder → List (minimizer_tuple × (List Nat × Bool)) → Prop
  | _, [] => True
  | b, p :: ps =>
    (if p.2.2 then k - 1 < b.offset ∧ p.1.offset = b.offset - (k - 1)
     else p.1.offset = b.offset) ∧
    offsets_sound k (b.append p.2.1 p.2.1.length p.2.2) ps

/-! ## Inputs that meet the reserved value -/

/-- The 31-mer `ATAGGCCCCAGTGGCCATCCTACTCGCCCCA`, whose hash at seed 2 is the
reserved value `2^64 - 1`. -/
def reserved_31mer : List Nat :=
  [65, 84, 65, 71, 71, 67, 67, 67, 67, 65, 71, 84, 71, 71, 67, 67, 65, 84, 67, 67, 84, 65,
   67, 84, 67, 71, 67, 67, 67, 67, 65]

/-- The configuration `k = m = 31`, `seed = 2`, not canonical, not weighted. -/
def reserved_cfg : build_configuration :=
  { k := 31, m := 31, seed := 2, canonical_parsing := false, weighted := false }

/-- The record `> / ATAGGCCCCAGTGGCCATCCTACTCGCCCCA`. -/
def reserved_records : List (List Nat × List Nat) := [([62], reserved_31mer)]

/-- The record `> / ATAGGCCCCAGTGGCCATCCTACTCGCCCCAA` (the 31-mer, then `A`). -/
def reserved_a_records : List (List Nat × List Nat) := [([62], reserved_31mer ++ [65])]

/-- The record `> / CATAGGCCCCAGTGGCCATCCTACTCGCCCCA` (`C`, then the 31-mer). -/
def c_reserved_records : List (List Nat × List Nat) := [([62], 67 :: reserved_31mer)]

/-- The record `>s1 / ACGTACGT` of the first scenario of §8. -/
def scenario_records : List (List Nat × List Nat) :=
  [([62, 115, 49], [65, 67, 71, 84, 65, 67, 71, 84])]

theorem minimizer_pos_loop_spec (hash : Nat → Nat → Nat) (seed mask : Nat) :
    ∀ (n i kmer min_hash minimizer pos : Nat),
      (minimizer_pos_loop hash seed mask n i kmer min_hash minimizer pos = (minimizer, pos) ∧
        ∀ j, j < n → min_hash ≤ hash64 hash ((kmer >>> (2 * j)) &&& mask) seed) ∨
      (∃ j, j < n ∧
        minimizer_pos_loop hash seed mask n i kmer min_hash minimizer pos
          = ((kmer >>> (2 * j)) &&& mask, i + j) ∧
        hash64 hash ((kmer >>> (2 * j)) &&& mask) seed < min_hash ∧
        (∀ t, t < n → hash64 hash ((kmer >>> (2 * j)) &&& mask) seed
            ≤ hash64 hash ((kmer >>> (2 * t)) &&& mask) seed) ∧
        (∀ t, t < j → hash64 hash ((kmer >>> (2 * j)) &&& mask) seed
            < hash64 hash ((kmer >>> (2 * t)) &&& mask) seed)) := by
  intro n
  induction n with
  | zero =>
    intro i kmer min_hash minimizer pos
    left
    exact ⟨rfl, fun j hj => absurd hj (Nat.not_lt_zero j)⟩
  | succ n ih =>
    intro i kmer min_hash minimizer pos
    have hsh : ∀ j, (kmer >>> 2) >>> (2 * j) = kmer >>> (2 * (j + 1)) := by
      intro j
      rw [← Nat.shiftRight_add]
      congr 1
      omega
    have h0 : kmer >>> (2 * 0) = kmer := by simp
    by_cases hlt : hash64 hash (kmer &&& mask) seed < min_hash
    · have hstep : minimizer_pos_loop hash seed mask (n + 1) i kmer min_hash minimizer pos
          = minimizer_pos_loop hash seed mask n (i + 1) (kmer >>> 2)
              (hash64 hash (kmer &&& mask) seed) (kmer &&& mask) i := by
        simp [minimizer_pos_loop, hlt]
      rw [hstep]
      rcases ih (i + 1) (kmer >>> 2) (hash64 hash (kmer &&& mask) seed) (kmer &&& mask) i with
        ⟨hr, hall⟩ | ⟨j, hj, hr, hjlt, hmin, hfirst⟩
      · right
        refine ⟨0, Nat.succ_pos n, ?_, ?_, ?_, ?_⟩
        · rw [hr, h0]; rfl
        · rw [h0]; exact hlt
        · intro t ht
          rw [h0]
          cases t with
          | zero => rw [h0]
          | succ t =>
            have := hall t (by omega)
            rwa [hsh] at this
        · intro t ht
          exact absurd ht (Nat.not_lt_zero t)
      · right
        simp only [hsh] at hr hjlt hmin hfirst
        refine ⟨j + 1, by omega, ?_, ?_, ?_, ?_⟩
        · rw [hr]
          congr 1
          omega
        · exact Nat.lt_trans hjlt hlt
        · intro t ht
          cases t with
          | zero => rw [h0]; exact Nat.le_of_lt hjlt
          | succ t => exact hmin t (by omega)
        · intro t ht
          cases t with
          | zero => rw [h0]; exact hjlt
          | succ t => exact hfirst t (by omega)
    · have hstep : minimizer_pos_loop hash seed mask (n + 1) i kmer min_hash minimizer pos
          = minimizer_pos_loop hash seed mask n (i + 1) (kmer >>> 2) min_hash minimizer pos := by
        simp [minimizer_pos_loop, hlt]
      rw [hstep]
      have hge : min_hash ≤ hash64 hash (kmer &&& mask) seed := Nat.le_of_not_lt hlt
      rcases ih (i + 1) (kmer >>> 2) min_hash minimizer pos with
        ⟨hr, hall⟩ | ⟨j, hj, hr, hjlt, hmin, hfirst⟩
      · left
        refine ⟨hr, ?_⟩
        intro t ht
        cases t with
        | zero => rw [h0]; exact hge
        | succ t =>
          have := hall t (by omega)
          rwa [hsh] at this
      · right
        simp only [hsh] at hr hjlt hmin hfirst
        refine ⟨j + 1, by omega, ?_, hjlt, ?_, ?_⟩
        · rw [hr]
          congr 1
          omega
        · intro t ht
          cases t with
          | zero => rw [h0]; exact Nat.le_trans (Nat.le_of_lt hjlt) hge
          | succ t => exact hmin t (by omega)
        · intro t ht
          cases t with
          | zero => rw [h0]; exact Nat.lt_of_lt_of_le hjlt hge
          | succ t => exact hfirst t (by omega)

theorem mask_eq (m : Nat) (hm : 2 * m < 128) :
    ((1 <<< (2 * m)) % two128 + two128 - 1) % two128 = 2 ^ (2 * m) - 1 := by
  have h1 : (1 <<< (2 * m)) = 2 ^ (2 * m) := by simp [Nat.shiftLeft_eq]
  have h2 : 2 ^ (2 * m) < two128 := by
    unfold two128
    exact Nat.pow_lt_pow_right (by norm_num) hm
  have h3 : 0 < 2 ^ (2 * m) := (by positivity)
  rw [h1, Nat.mod_eq_of_lt h2]
  have : 2 ^ (2 * m) + two128 - 1 = (2 ^ (2 * m) - 1) + two128 := by omega
  rw [this, Nat.add_mod_right, Nat.mod_eq_of_lt (by omega)]

theorem four_pow (m : Nat) : (4 : Nat) ^ m = 2 ^ (2 * m) := by
  rw [pow_mul]; norm_num

theorem loop_count (k m : Nat) (hm : 1 ≤ m) (hmk : m ≤ k) (hk : k < two64) :
    (k + two64 - m + 1) % two64 = k - m + 1 := by
  unfold two64 at *
  have : k + 2 ^ 64 - m + 1 = (k - m + 1) + 2 ^ 64 := by omega
  rw [this, Nat.add_mod_right, Nat.mod_eq_of_lt (by omega)]

theorem compute_minimizer_pos_spec (hash : Nat → Nat → Nat) (kmer k m seed : Nat)
    (hm : 1 ≤ m) (hmk : m ≤ k) (hk : k < 2 ^ 64) (hm31 : m ≤ 31) (hkmer : kmer < 2 ^ 128)
    (hsome : ∃ j, j ≤ k - m ∧ hash64 hash ((kmer >>> (2 * j)) % 4 ^ m) seed < 2 ^ 64 - 1) :
    (compute_minimizer_pos hash kmer k m seed).2 ≤ k - m ∧
    (compute_minimizer_pos hash kmer k m seed).1
      = (kmer >>> (2 * (compute_minimizer_pos hash kmer k m seed).2)) % 4 ^ m ∧
    (compute_minimizer_pos hash kmer k m seed).1 < 4 ^ m ∧
    (∀ j, j ≤ k - m → hash64 hash (compute_minimizer_pos hash kmer k m seed).1 seed
        ≤ hash64 hash ((kmer >>> (2 * j)) % 4 ^ m) seed) ∧
    (∀ j, j < (compute_minimizer_pos hash kmer k m seed).2 →
        hash64 hash (compute_minimizer_pos hash kmer k m seed).1 seed
        < hash64 hash ((kmer >>> (2 * j)) % 4 ^ m) seed) := by
  have hmask := mask_eq m (by omega)
  have hn := loop_count k m hm hmk (by unfold two64; omega)
  have hkm : kmer % two128 = kmer := Nat.mod_eq_of_lt hkmer
  have hand : ∀ x, x &&& (2 ^ (2 * m) - 1) = x % 4 ^ m := by
    intro x; rw [Nat.and_pow_two_sub_one_eq_mod, four_pow]
  have h4 : (4 : Nat) ^ m ≤ 4 ^ 31 := Nat.pow_le_pow_right (by norm_num) hm31
  have hlt64 : ∀ x, x % 4 ^ m < two64 := by
    intro x
    have : x % 4 ^ m < 4 ^ m := Nat.mod_lt _ ((by positivity))
    have h431 : (4 : Nat) ^ 31 < two64 := by unfold two64; norm_num
    omega
  unfold compute_minimizer_pos
  simp only [hmask, hn, hkm]
  rcases minimizer_pos_loop_spec hash seed (2 ^ (2 * m) - 1) (k - m + 1) 0 kmer
      invalid_uint64 (two128 - 1) 0 with ⟨_, hall⟩ | ⟨j, hj, hr, hjlt, hmin, hfirst⟩
  · exfalso
    obtain ⟨j, hj, hjl⟩ := hsome
    have := hall j (by omega)
    rw [hand] at this
    unfold invalid_uint64 at this
    omega
  · simp only [hand] at hr hjlt hmin hfirst
    rw [hr]
    simp only [Nat.zero_add]
    rw [Nat.mod_eq_of_lt (hlt64 _)]
    refine ⟨by omega, rfl, Nat.mod_lt _ ((by positivity)), ?_, ?_⟩
    · intro t ht
      exact hmin t (by omega)
    · intro t ht
      exact hfirst t ht

/-! ## The main loop on records -/

theorem lines_of_records_length (rs : List (List Nat × List Nat)) :
    (lines_of_records rs).length = 2 * rs.length := by
  induction rs with
  | nil => rfl
  | cons r rs ih => simp [lines_of_records, ih]; omega

theorem parse_sequence_short (hash : Nat → Nat → Nat) (cfg : build_configuration)
    (nbytes : Nat) (st : parse_state) (h : st.sequence.length < cfg.k) :
    parse_sequence hash cfg nbytes st = .ok st := by
  simp [parse_sequence, h]

theorem parse_loop_eof (hash : Nat → Nat → Nat) (cfg : build_configuration)
    (nbytes fuel : Nat) (ls : List (List Nat)) (st : parse_state) :
    parse_loop hash cfg nbytes fuel { lines := ls, eof := true } st = .ok st := by
  cases fuel <;> simp [parse_loop]

theorem parse_header_empty (cfg : build_configuration) (st : parse_state)
    (h : st.sequence = []) : parse_header cfg st = .ok st := by
  simp [parse_header, h]

/-- The last iteration of the main loop, on what follows the final newline. -/
theorem parse_loop_tail (hash : Nat → Nat → Nat) (cfg : build_configuration)
    (nbytes fuel : Nat) (st : parse_state) (hk : 1 ≤ cfg.k) (nl : Bool) :
    parse_loop hash cfg nbytes (fuel + 1)
      { lines := if nl then [[]] else [], eof := false } st
      = .ok { st with sequence := [] } := by
  have hseq : parse_sequence hash cfg nbytes { st with sequence := [] }
      = .ok { st with sequence := [] } :=
    parse_sequence_short hash cfg nbytes _ (by simpa using hk)
  have hhead : (if cfg.weighted then parse_header cfg { st with sequence := [] }
      else .ok { st with sequence := [] }) = .ok { st with sequence := [] } := by
    split
    · exact parse_header_empty cfg _ rfl
    · rfl
  cases nl <;> simp [parse_loop, getline, hhead, hseq, parse_loop_eof]

theorem parse_loop_step (hash : Nat → Nat → Nat) (cfg : build_configuration)
    (nbytes f : Nat) (h s : List Nat) (rest : List (List Nat)) (st : parse_state) :
    parse_loop hash cfg nbytes (f + 1) { lines := h :: s :: rest, eof := false } st
      = match parse_record hash cfg nbytes (h, s) st with
        | .error e => .error e
        | .ok st' =>
          parse_loop hash cfg nbytes f
            (if rest = [] then { lines := [], eof := true } else { lines := rest, eof := false })
            st' := by
  unfold parse_record
  rw [parse_loop]
  simp only [getline, Bool.false_eq_true, if_false]
  cases hh : (if cfg.weighted then parse_header cfg { st with sequence := h }
         else Except.ok { st with sequence := h }) with
  | error e => simp
  | ok st1 =>
    simp only
    cases hs : parse_sequence hash cfg nbytes { st1 with sequence := s } with
    | error e => cases rest <;> simp [hs]
    | ok st2 => cases rest <;> simp [hs]

theorem parse_loop_records (hash : Nat → Nat → Nat) (cfg : build_configuration)
    (nbytes : Nat) (hk : 1 ≤ cfg.k) (nl : Bool) :
    ∀ (rs : List (List Nat × List Nat)) (fuel : Nat) (st : parse_state),
      rs.length + 1 ≤ fuel →
      parse_loop hash cfg nbytes fuel { lines := input_lines rs nl, eof := false } st
        = (parse_records hash cfg nbytes rs st).map
            (fun st' => if nl || rs.isEmpty then { st' with sequence := [] } else st') := by
  intro rs
  induction rs with
  | nil =>
    intro fuel st hf
    obtain ⟨f, rfl⟩ : ∃ f, fuel = f + 1 := ⟨fuel - 1, by simp at hf; omega⟩
    have := parse_loop_tail hash cfg nbytes f st hk nl
    simp [input_lines, lines_of_records, parse_records, Except.map]
    simpa [input_lines] using this
  | cons r rs ih =>
    intro fuel st hf
    obtain ⟨f, rfl⟩ : ∃ f, fuel = f + 1 := ⟨fuel - 1, by simp at hf; omega⟩
    have hf' : rs.length + 1 ≤ f := by simp at hf; omega
    have hl : input_lines (r :: rs) nl = r.1 :: r.2 :: input_lines rs nl := by
      simp [input_lines, lines_of_records]
    rw [hl, parse_loop_step]
    have hr : (r.1, r.2) = r := rfl
    rw [hr]
    simp only [parse_records]
    cases hp : parse_record hash cfg nbytes r st with
    | error e => simp [Except.map]
    | ok st' =>
      simp only
      by_cases hrest : input_lines rs nl = []
      · have hrs : rs = [] := by
          cases rs with
          | nil => rfl
          | cons a b => simp [input_lines, lines_of_records] at hrest
        have hnl : nl = false := by
          subst hrs
          cases nl with
          | false => rfl
          | true => simp [input_lines, lines_of_records] at hrest
        subst hrs hnl
        simp [hrest, parse_loop_eof, parse_records, Except.map]
      · rw [if_neg hrest, ih f st' hf']
        cases hq : parse_records hash cfg nbytes rs st' with
        | error e => simp [Except.map]
        | ok st'' =>
          simp only [Except.map]
          cases rs with
          | nil =>
            have hnl : nl = true := by
              cases nl with
              | true => rfl
              | false => simp [input_lines, lines_of_records] at hrest
            simp [hnl]
          | cons a b => simp

/-! ## Frame properties -/

section frame
variable (hash : Nat → Nat → Nat) (cfg : build_configuration) (nbytes : Nat)

@[simp] theorem append_super_kmer_sequence (st : parse_state) :
    (append_super_kmer cfg nbytes st).sequence = st.sequence := by
  unfold append_super_kmer; split <;> rfl

@[simp] theorem append_super_kmer_num_kmers (st : parse_state) :
    (append_super_kmer cfg nbytes st).num_kmers = st.num_kmers := by
  unfold append_super_kmer; split <;> rfl

@[simp] theorem append_super_kmer_end (st : parse_state) :
    (append_super_kmer cfg nbytes st).end_ = st.end_ := by
  unfold append_super_kmer; split <;> rfl

@[simp] theorem append_super_kmer_num_sequences (st : parse_state) :
    (append_super_kmer cfg nbytes st).num_sequences = st.num_sequences := by
  unfold append_super_kmer; split <;> rfl

@[simp] theorem kmer_step_sequence (st : parse_state) :
    (kmer_step hash cfg nbytes st).sequence = st.sequence := by
  unfold kmer_step
  simp only
  split <;> split <;> simp

@[simp] theorem kmer_step_end (st : parse_state) :
    (kmer_step hash cfg nbytes st).end_ = st.end_ + 1 := by
  unfold kmer_step
  simp only
  split <;> split <;> simp

@[simp] theorem kmer_step_num_kmers (st : parse_state) :
    (kmer_step hash cfg nbytes st).num_kmers = st.num_kmers + 1 := by
  unfold kmer_step
  simp only
  split <;> split <;> simp

@[simp] theorem kmer_step_num_sequences (st : parse_state) :
    (kmer_step hash cfg nbytes st).num_sequences = st.num_sequences := by
  unfold kmer_step
  simp only
  split <;> split <;> simp

@[simp] theorem iterate_kmer_step_sequence (n : Nat) (st : parse_state) :
    ((kmer_step hash cfg nbytes)^[n] st).sequence = st.sequence := by
  induction n generalizing st with
  | zero => rfl
  | succ n ih => rw [Function.iterate_succ_apply, ih, kmer_step_sequence]

@[simp] theorem iterate_kmer_step_end (n : Nat) (st : parse_state) :
    ((kmer_step hash cfg nbytes)^[n] st).end_ = st.end_ + n := by
  induction n generalizing st with
  | zero => rfl
  | succ n ih => rw [Function.iterate_succ_apply, ih, kmer_step_end]; omega

@[simp] theorem iterate_kmer_step_num_kmers (n : Nat) (st : parse_state) :
    ((kmer_step hash cfg nbytes)^[n] st).num_kmers = st.num_kmers + n := by
  induction n generalizing st with
  | zero => rfl
  | succ n ih => rw [Function.iterate_succ_apply, ih, kmer_step_num_kmers]; omega

@[simp] theorem iterate_kmer_step_num_sequences (n : Nat) (st : parse_state) :
    ((kmer_step hash cfg nbytes)^[n] st).num_sequences = st.num_sequences := by
  induction n generalizing st with
  | zero => rfl
  | succ n ih => rw [Function.iterate_succ_apply, ih, kmer_step_num_sequences]

/-- The k-mer loop leaves through its exit test after exactly as many
iterations as there are k-mers left. -/
theorem kmers_loop_eq_iterate (fuel : Nat) (st : parse_state)
    (h : st.end_ + fuel = st.sequence.length - cfg.k + 1) :
    kmers_loop hash cfg nbytes fuel st = some ((kmer_step hash cfg nbytes)^[fuel] st) := by
  induction fuel generalizing st with
  | zero => simp [kmers_loop] ; omega
  | succ n ih =>
    have hne : st.end_ ≠ st.sequence.length - cfg.k + 1 := by omega
    rw [kmers_loop, if_neg hne, Function.iterate_succ_apply]
    apply ih
    simp
    omega

end frame

/-- What the weight code may change: the weight builder, the pending run and the
sum of weights. -/
theorem eat_weight_frame (st : parse_state) (w : Nat) :
    ∃ wb sw wv wl, eat_weight st w = { st with
      weights_builder := wb, sum_of_weights := sw, weight_value := wv, weight_length := wl } := by
  unfold eat_weight
  simp only
  split
  · exact ⟨_, _, _, _, rfl⟩
  · split
    · exact ⟨_, _, _, _, rfl⟩
    · exact ⟨_, _, _, _, rfl⟩

theorem weights_step_frame (st : parse_state) (i : Nat) :
    ∃ wb sw wv wl, (weights_step st i).1 = { st with
      weights_builder := wb, sum_of_weights := sw, weight_value := wv, weight_length := wl } :=
  eat_weight_frame st _

theorem weights_loop_frame (n : Nat) (st : parse_state) (i : Nat) :
    ∃ wb sw wv wl, weights_loop n st i = { st with
      weights_builder := wb, sum_of_weights := sw, weight_value := wv, weight_length := wl } := by
  induction n generalizing st i with
  | zero => exact ⟨_, _, _, _, rfl⟩
  | succ n ih =>
    rw [weights_loop]
    obtain ⟨wb, sw, wv, wl, h1⟩ := weights_step_frame st i
    obtain ⟨wb', sw', wv', wl', h2⟩ := ih (weights_step st i).1 (weights_step st i).2
    rw [h2, h1]
    exact ⟨_, _, _, _, rfl⟩

theorem parse_header_cases (cfg : build_configuration) (st st' : parse_state)
    (h : parse_header cfg st = .ok st') :
    st' = st ∨ ∃ n sl i, st' = weights_loop n { st with seq_len := sl } i := by
  unfold parse_header at h
  split at h
  · left; injection h with h; exact h.symm
  · right
    simp only [bind, Except.bind, expect, pure, Except.pure, throw, throwThe,
      MonadExceptOf.throw] at h
    repeat' split at h
    all_goals first
      | (injection h with h; exact ⟨_, _, _, h.symm⟩)
      | cases h

theorem parse_header_frame (cfg : build_configuration) (st st' : parse_state)
    (h : parse_header cfg st = .ok st') :
    ∃ wb sw wv wl sl, st' = { st with
      weights_builder := wb, sum_of_weights := sw, weight_value := wv, weight_length := wl,
      seq_len := sl } := by
  rcases parse_header_cases cfg st st' h with rfl | ⟨n, sl, i, rfl⟩
  · exact ⟨_, _, _, _, _, rfl⟩
  · obtain ⟨wb, sw, wv, wl, h1⟩ := weights_loop_frame n { st with seq_len := sl } i
    rw [h1]
    exact ⟨_, _, _, _, _, rfl⟩

/-! ## The number of k-mers -/

section
variable (hash : Nat → Nat → Nat) (cfg : build_configuration) (nbytes : Nat)

/-- The processing of a sequence line with at least `k` bases. -/
theorem parse_sequence_long (st : parse_state) (h : cfg.k ≤ st.sequence.length) :
    parse_sequence hash cfg nbytes st
      = if cfg.weighted ∧ st.seq_len ≠ st.sequence.length then .error .file_is_malformed
        else .ok (append_super_kmer cfg nbytes
          ((kmer_step hash cfg nbytes)^[st.sequence.length - cfg.k + 1] (start_sequence st))) := by
  have hlt : ¬ st.sequence.length < cfg.k := by omega
  have hloop := kmers_loop_eq_iterate hash cfg nbytes (st.sequence.length - cfg.k + 1)
    (start_sequence st) (by simp [start_sequence])
  unfold parse_sequence
  rw [if_neg hlt]
  simp only
  have e1 : (start_sequence st).seq_len = st.seq_len := rfl
  have e2 : (start_sequence st).sequence = st.sequence := rfl
  rw [e1, e2, hloop]

theorem parse_sequence_num_kmers (st st' : parse_state)
    (h : parse_sequence hash cfg nbytes st = .ok st') :
    st'.num_kmers = st.num_kmers + num_kmers_of cfg.k st.sequence.length := by
  by_cases hk : cfg.k ≤ st.sequence.length
  · rw [parse_sequence_long hash cfg nbytes st hk] at h
    split at h
    · cases h
    · injection h with h
      subst h
      simp [num_kmers_of, hk, start_sequence]
      omega
  · rw [parse_sequence_short hash cfg nbytes st (by omega)] at h
    injection h with h
    subst h
    simp [num_kmers_of, hk]

theorem parse_record_num_kmers (r : List Nat × List Nat) (st st' : parse_state)
    (h : parse_record hash cfg nbytes r st = .ok st') :
    st'.num_kmers = st.num_kmers + num_kmers_of cfg.k r.2.length := by
  unfold parse_record at h
  split at h
  · cases h
  · rename_i st1 hh
    have := parse_sequence_num_kmers hash cfg nbytes _ _ h
    simp only at this
    rw [this]
    split at hh
    · obtain ⟨wb, sw, wv, wl, sl, e⟩ := parse_header_frame cfg _ _ hh
      rw [e]
    · injection hh with hh
      rw [← hh]

theorem parse_records_num_kmers (rs : List (List Nat × List Nat)) (st st' : parse_state)
    (h : parse_records hash cfg nbytes rs st = .ok st') :
    st'.num_kmers
      = st.num_kmers + (rs.map (fun r => num_kmers_of cfg.k r.2.length)).sum := by
  induction rs generalizing st with
  | nil =>
    simp only [parse_records] at h
    injection h with h
    subst h
    simp
  | cons r rs ih =>
    simp only [parse_records] at h
    split at h
    · cases h
    · rename_i st1 h1
      rw [ih st1 h, parse_record_num_kmers hash cfg nbytes r st st1 h1]
      simp
      omega

theorem parse_sequence_unweighted (hw : cfg.weighted = false) (st : parse_state) :
    ∃ st', parse_sequence hash cfg nbytes st = .ok st' := by
  by_cases hk : cfg.k ≤ st.sequence.length
  · rw [parse_sequence_long hash cfg nbytes st hk]
    simp [hw]
  · exact ⟨st, parse_sequence_short hash cfg nbytes st (by omega)⟩

theorem parse_records_unweighted (hw : cfg.weighted = false)
    (rs : List (List Nat × List Nat)) (st : parse_state) :
    ∃ st', parse_records hash cfg nbytes rs st = .ok st' := by
  induction rs generalizing st with
  | nil => exact ⟨st, rfl⟩
  | cons r rs ih =>
    simp only [parse_records, parse_record, hw]
    obtain ⟨st1, h1⟩ := parse_sequence_unweighted hash cfg nbytes hw
      { ({ st with sequence := r.1 } : parse_state) with sequence := r.2 }
    simp only [Bool.false_eq_true, if_false]
    rw [h1]
    exact ih st1

end

/-- The state `parse_file` returns, in terms of the state the main loop leaves
after the records of the input. -/
theorem parse_file_ok (murmur : Nat → Nat → Nat) (nbytes : Nat)
    (rs : List (List Nat × List Nat)) (nl : Bool) (cfg : build_configuration)
    (hk : 1 ≤ cfg.k) (st : parse_state)
    (h : parse_file murmur nbytes (input_lines rs nl) cfg = .ok st) :
    (cfg.k + two64 - cfg.m % two64 + 1) % two64 < (1 <<< (nbytes * 8)) % two64 ∧
    ∃ st1 seq, parse_records (murmurhash2_64_hash murmur) cfg nbytes rs (parse_state.init cfg)
        = .ok st1 ∧
      st = { st1 with
        sequence := seq
        builder := st1.builder.finalize
        weights_builder :=
          if cfg.weighted then
            (st1.weights_builder.push_weight_interval st1.weight_value
              st1.weight_length).finalize st1.num_kmers
          else st1.weights_builder } := by
  unfold parse_file at h
  simp only at h
  split at h
  · cases h
  · rename_i hfit
    refine ⟨by omega, ?_⟩
    have hfuel : rs.length + 1 ≤ (input_lines rs nl).length + 1 := by
      simp [input_lines, lines_of_records_length]; omega
    rw [parse_loop_records _ cfg nbytes hk nl rs _ _ hfuel] at h
    cases hp : parse_records (murmurhash2_64_hash murmur) cfg nbytes rs (parse_state.init cfg) with
    | error e => rw [hp] at h; simp [Except.map] at h
    | ok st1 =>
      rw [hp] at h
      simp only [Except.map] at h
      refine ⟨st1, (if (nl || rs.isEmpty) = true then [] else st1.sequence), rfl, ?_⟩
      split at h
      · injection h with h
        rw [← h]
        split <;> simp_all
      · injection h with h
        rw [← h]
        split <;> simp_all

/-- Conversely `parse_file` returns when the configuration check passes and
the main loop goes through all records. -/
theorem parse_file_returns (murmur : Nat → Nat → Nat) (nbytes : Nat)
    (rs : List (List Nat × List Nat)) (nl : Bool) (cfg : build_configuration)
    (hk : 1 ≤ cfg.k)
    (hfit : (cfg.k + two64 - cfg.m % two64 + 1) % two64 < (1 <<< (nbytes * 8)) % two64)
    (st1 : parse_state)
    (h : parse_records (murmurhash2_64_hash murmur) cfg nbytes rs (parse_state.init cfg)
        = .ok st1) :
    ∃ st, parse_file murmur nbytes (input_lines rs nl) cfg = .ok st := by
  have hfuel : rs.length + 1 ≤ (input_lines rs nl).length + 1 := by
    simp [input_lines, lines_of_records_length]; omega
  unfold parse_file
  simp only
  rw [if_neg (by omega), parse_loop_records _ cfg nbytes hk nl rs _ _ hfuel, h]
  simp only [Except.map]
  split <;> exact ⟨_, rfl⟩

/-! ## The k-mer loop -/

section
variable (hash : Nat → Nat → Nat) (cfg : build_configuration) (nbytes : Nat)

theorem runs_chain_snoc (a b e : Nat) (runs : List (Nat × Nat))
    (h : runs_chain a runs b) (hbe : b < e) : runs_chain a (runs ++ [(b, e)]) e := by
  induction runs generalizing a with
  | nil =>
    simp only [runs_chain] at h
    subst h
    simp [runs_chain, hbe]
  | cons r rs ih =>
    simp only [runs_chain] at h
    simp only [List.cons_append, runs_chain]
    exact ⟨h.1, h.2.1, ih _ h.2.2⟩

theorem emit_runs_snoc (s : List Nat) (acc : pool_builder × List minimizer_tuple)
    (runs : List (Nat × Nat)) (r : Nat × Nat) :
    emit_runs hash cfg nbytes s acc (runs ++ [r])
      = emit_run hash cfg nbytes s (emit_runs hash cfg nbytes s acc runs) r := by
  simp [emit_runs, List.foldl_append]

/-- An emission of `append_super_kmer` that is not a no-op. -/
theorem append_super_kmer_active (st : parse_state) (hs : st.sequence ≠ [])
    (hp : st.prev_minimizer ≠ invalid_uint64) (hbe : st.begin_ ≠ st.end_) :
    append_super_kmer cfg nbytes st = { st with
      minimizers := st.minimizers ++
        [{ minimizer := st.prev_minimizer
           offset := if st.glue then (st.builder.offset + two64 - (cfg.k - 1) % two64) % two64
                     else st.builder.offset
           num_kmers_in_super_kmer := (st.end_ - st.begin_) % 2 ^ (nbytes * 8) }]
      builder := st.builder.append (st.sequence.drop st.begin_)
        (st.end_ - st.begin_ + cfg.k - 1) st.glue
      glue := true } := by
  unfold append_super_kmer
  have : ¬ (st.sequence.isEmpty ∨ st.prev_minimizer = invalid_uint64 ∨ st.begin_ = st.end_) := by
    simp [hs, hp, hbe, List.isEmpty_iff]
  rw [if_neg this]
  cases hg : st.glue <;> simp [hg]

theorem kmer_step_first (st : parse_state) (hp : st.prev_minimizer = invalid_uint64) :
    kmer_step hash cfg nbytes st = { st with
      prev_minimizer := (sel_at hash cfg st.sequence st.end_).1
      prev_pos := (sel_at hash cfg st.sequence st.end_).2
      num_kmers := st.num_kmers + 1
      end_ := st.end_ + 1 } := by
  unfold kmer_step
  simp [hp, sel_at]

theorem kmer_step_continue (st : parse_state) (hp : st.prev_minimizer ≠ invalid_uint64)
    (h1 : (sel_at hash cfg st.sequence st.end_).1 = st.prev_minimizer)
    (h2 : ((sel_at hash cfg st.sequence st.end_).2 + 1) % two64 = st.prev_pos) :
    kmer_step hash cfg nbytes st = { st with
      prev_pos := (sel_at hash cfg st.sequence st.end_).2
      num_kmers := st.num_kmers + 1
      end_ := st.end_ + 1 } := by
  unfold kmer_step
  unfold sel_at at h1 h2 ⊢
  simp [hp, h1, h2]

theorem kmer_step_break (st : parse_state) (hp : st.prev_minimizer ≠ invalid_uint64)
    (h : (sel_at hash cfg st.sequence st.end_).1 ≠ st.prev_minimizer ∨
      ((sel_at hash cfg st.sequence st.end_).2 + 1) % two64 ≠ st.prev_pos) :
    kmer_step hash cfg nbytes st = { append_super_kmer cfg nbytes st with
      begin_ := st.end_
      prev_minimizer := (sel_at hash cfg st.sequence st.end_).1
      glue := true
      prev_pos := (sel_at hash cfg st.sequence st.end_).2
      num_kmers := st.num_kmers + 1
      end_ := st.end_ + 1 } := by
  unfold kmer_step
  unfold sel_at at h
  simp only [if_neg hp]
  rw [if_pos h]
  simp [sel_at]

end

/-! ## Subtraction in `uint64_t` -/

theorem sub64_eq (a b : Nat) (hb : b ≤ a) (ha : a < 2 ^ 64) :
    (a + two64 - b % two64) % two64 = a - b := by
  unfold two64
  rw [Nat.mod_eq_of_lt (show b < 2 ^ 64 by omega)]
  have e2 : a + 2 ^ 64 - b = (a - b) + 2 ^ 64 := by omega
  rw [e2, Nat.add_mod_right, Nat.mod_eq_of_lt (by omega)]

/-! ## Lists of runs, and the records of an input -/

section
variable (hash : Nat → Nat → Nat) (cfg : build_configuration) (nbytes : Nat)

theorem emit_runs_cons (s : List Nat) (acc : pool_builder × List minimizer_tuple)
    (r : Nat × Nat) (runs : List (Nat × Nat)) :
    emit_runs hash cfg nbytes s acc (r :: runs)
      = emit_runs hash cfg nbytes s (emit_run hash cfg nbytes s acc r) runs := rfl

/-- The main loop on records, seen through a list-valued observation `O` of
the state to which every record appends a group `g` with `R r g`. -/
theorem parse_records_lift {α : Type} (O : parse_state → List α)
    (R : List Nat × List Nat → List α → Prop) (P : parse_state → Prop) :
    ∀ (rs : List (List Nat × List Nat)),
      (∀ r ∈ rs, ∀ st st', P st → parse_record hash cfg nbytes r st = .ok st' →
        P st' ∧ ∃ g, O st' = O st ++ g ∧ R r g) →
      ∀ st st', P st → parse_records hash cfg nbytes rs st = .ok st' →
        P st' ∧ ∃ groups, O st' = O st ++ groups.flatten ∧ List.Forall₂ R rs groups := by
  intro rs
  induction rs with
  | nil =>
    intro _ st st' hP h
    simp only [parse_records] at h
    injection h with h
    subst h
    exact ⟨hP, [], by simp, List.Forall₂.nil⟩
  | cons r rs ih =>
    intro hstep st st' hP h
    simp only [parse_records] at h
    split at h
    · cases h
    · rename_i st1 h1
      obtain ⟨hP1, g, hg1, hg2⟩ := hstep r (List.mem_cons_self _ _) st st1 hP h1
      obtain ⟨hP', groups, hgs1, hgs2⟩ :=
        ih (fun x hx => hstep x (List.mem_cons_of_mem _ hx)) st1 st' hP1 h
      refine ⟨hP', g :: groups, ?_, List.Forall₂.cons hg2 hgs2⟩
      rw [hgs1, hg1]
      simp

end

/-! ## The configuration check -/

theorem check_of_fit (cfg : build_configuration) (nbytes : Nat)
    (hm : 1 ≤ cfg.m) (hmk : cfg.m ≤ cfg.k) (hk : cfg.k ≤ 63)
    (hn1 : 1 ≤ nbytes) (hn7 : nbytes ≤ 7) :
    (cfg.k + two64 - cfg.m % two64 + 1) % two64 < (1 <<< (nbytes * 8)) % two64 := by
  unfold two64
  rw [Nat.mod_eq_of_lt (show cfg.m < 2 ^ 64 by omega)]
  have e : cfg.k + 2 ^ 64 - cfg.m + 1 = (cfg.k - cfg.m + 1) + 2 ^ 64 := by omega
  rw [e, Nat.add_mod_right, Nat.mod_eq_of_lt (by omega)]
  have h2 : 256 ≤ (1 <<< (nbytes * 8)) % 2 ^ 64 := by
    interval_cases nbytes <;> decide
  omega

/-! ## Claim on the k-mer count -/

/-- C1: for every input of header/sequence line pairs and every configuration
with `1 ≤ m ≤ k ≤ 63` (the count field of a tuple being 1 to 7 bytes wide), the
`num_kmers` left by `parse_file` is the sum, over the sequence lines of length
`L ≥ k`, of `L - k + 1`; lines shorter than `k` add nothing. Without weights
`parse_file` does return on every such input. -/
theorem C1_parse_file_num_kmers (murmur : Nat → Nat → Nat) (nbytes : Nat)
    (rs : List (List Nat × List Nat)) (nl : Bool) (cfg : build_configuration)
    (hm : 1 ≤ cfg.m) (hmk : cfg.m ≤ cfg.k) (hk : cfg.k ≤ 63)
    (hn1 : 1 ≤ nbytes) (hn7 : nbytes ≤ 7) :
    (∀ st, parse_file murmur nbytes (input_lines rs nl) cfg = .ok st →
      st.num_kmers = (rs.map (fun r => num_kmers_of cfg.k r.2.length)).sum) ∧
    (cfg.weighted = false →
      ∃ st, parse_file murmur nbytes (input_lines rs nl) cfg = .ok st) := by
  constructor
  · intro st h
    obtain ⟨_, st1, seq, hp, hst⟩ := parse_file_ok murmur nbytes rs nl cfg (by omega) st h
    have := parse_records_num_kmers _ cfg nbytes rs _ st1 hp
    rw [hst]
    simpa [parse_state.init] using this
  · intro hw
    obtain ⟨st1, h1⟩ := parse_records_unweighted (murmurhash2_64_hash murmur) cfg nbytes hw rs
      (parse_state.init cfg)
    exact parse_file_returns murmur nbytes rs nl cfg (by omega)
      (check_of_fit cfg nbytes hm hmk hk hn1 hn7) st1 h1

/-- C1 at `k = 5`, `m = 3` on the records of lengths 12, 3 and 9: 8 + 0 + 5 k-mers. -/
theorem C1_parse_file_num_kmers_witness :
    ∃ st, parse_file example_murmur 1 (input_lines example_records true) example_cfg = .ok st ∧
      st.num_kmers = 13 :=
  ⟨_, rfl, (C1_parse_file_num_kmers example_murmur 1 example_records true example_cfg
    (by decide) (by decide) (by decide) (by decide) (by decide)).1 _ rfl⟩

/-! ## The reverse complement of a packed k-mer -/

theorem testBit_ff (j : Nat) : Nat.testBit 0xff j = decide (j < 8) :=
  Nat.testBit_two_pow_sub_one 8 j

theorem testBit_aa : ∀ j < 64, Nat.testBit 0xaaaaaaaaaaaaaaaa j = decide (j % 2 = 1) := by
  decide

theorem testBit_c1 : ∀ j < 64, Nat.testBit 0x0f0f0f0f0f0f0f0f j = decide (j % 8 < 4) := by
  decide

theorem testBit_c2 : ∀ j < 64, Nat.testBit 0x3333333333333333 j = decide (j % 4 < 2) := by
  decide

/-- The bits of `__builtin_bswap64`. -/
theorem bswap64_testBit (y : Nat) : ∀ i < 64,
    (bswap64 y).testBit i = y.testBit (8 * (7 - i / 8) + i % 8) := by
  intro i hi
  interval_cases i <;>
    simp only [bswap64, Nat.testBit_or, Nat.testBit_and, Nat.testBit_shiftLeft,
      Nat.testBit_shiftRight, testBit_ff] <;>
    simp

/-- The bits of the nibble swap inside each byte. -/
theorem swap4_testBit (r : Nat) : ∀ i < 64,
    ((((r &&& 0x0f0f0f0f0f0f0f0f) <<< 4) % 2 ^ 64) |||
      ((r &&& ((0x0f0f0f0f0f0f0f0f <<< 4) % 2 ^ 64)) >>> 4)).testBit i
      = r.testBit (if i % 8 < 4 then i + 4 else i - 4) := by
  intro i hi
  interval_cases i <;>
    simp only [Nat.testBit_or, Nat.testBit_and, Nat.testBit_shiftLeft,
      Nat.testBit_shiftRight, Nat.testBit_mod_two_pow] <;>
    simp [testBit_c1]

/-- The bits of the swap of the two nucleotides inside each nibble. -/
theorem swap2_testBit (r : Nat) : ∀ i < 64,
    ((((r &&& 0x3333333333333333) <<< 2) % 2 ^ 64) |||
      ((r &&& ((0x3333333333333333 <<< 2) % 2 ^ 64)) >>> 2)).testBit i
      = r.testBit (if i % 4 < 2 then i + 2 else i - 2) := by
  intro i hi
  interval_cases i <;>
    simp only [Nat.testBit_or, Nat.testBit_and, Nat.testBit_shiftLeft,
      Nat.testBit_shiftRight, Nat.testBit_mod_two_pow] <;>
    simp [testBit_c2]

theorem swap2_testBit_high (r i : Nat) (hi : 64 ≤ i) :
    ((((r &&& 0x3333333333333333) <<< 2) % 2 ^ 64) |||
      ((r &&& ((0x3333333333333333 <<< 2) % 2 ^ 64)) >>> 2)).testBit i = false := by
  simp only [Nat.testBit_or, Nat.testBit_and, Nat.testBit_shiftRight, Nat.testBit_mod_two_pow]
  have h1 : decide (i < 64) = false := by simp; omega
  have h2 : decide (2 + i < 64) = false := by simp; omega
  rw [h1, h2]
  simp

/-- The bits of `compute_reverse_complement(x, size)` for `size ≤ 32`: the
2-bit groups of the low 64 bits of `x` below `size` in reverse order, each
with its high bit flipped. -/
theorem compute_reverse_complement_testBit (x size : Nat) (hs : size ≤ 32) (i : Nat) :
    (compute_reverse_complement x size).testBit i
      = (decide (i < 2 * size) &&
          ((x % 2 ^ 64).testBit (2 * (size - 1 - i / 2) + i % 2) != decide (i % 2 = 1))) := by
  have hsh : (64 + two64 - (2 * size) % two64) % two64 = 64 - 2 * size := by
    unfold two64
    rw [Nat.mod_eq_of_lt (show 2 * size < 2 ^ 64 by omega)]
    have : 64 + 2 ^ 64 - 2 * size = (64 - 2 * size) + 2 ^ 64 := by omega
    rw [this, Nat.add_mod_right, Nat.mod_eq_of_lt (by omega)]
  unfold compute_reverse_complement
  simp only [hsh]
  unfold two64
  rw [Nat.testBit_shiftRight]
  by_cases hi : i < 2 * size
  · have hj : 64 - 2 * size + i < 64 := by omega
    rw [swap2_testBit _ _ hj]
    have hj2 : (if (64 - 2 * size + i) % 4 < 2 then 64 - 2 * size + i + 2
        else 64 - 2 * size + i - 2) < 64 := by split <;> omega
    rw [swap4_testBit _ _ hj2]
    have hj3 : (if (if (64 - 2 * size + i) % 4 < 2 then 64 - 2 * size + i + 2
        else 64 - 2 * size + i - 2) % 8 < 4 then
          (if (64 - 2 * size + i) % 4 < 2 then 64 - 2 * size + i + 2
            else 64 - 2 * size + i - 2) + 4
        else (if (64 - 2 * size + i) % 4 < 2 then 64 - 2 * size + i + 2
            else 64 - 2 * size + i - 2) - 4) < 64 := by
      split <;> split <;> omega
    rw [bswap64_testBit _ _ hj3, Nat.testBit_xor]
    have hidx : (8 * (7 - (if (if (64 - 2 * size + i) % 4 < 2 then 64 - 2 * size + i + 2
        else 64 - 2 * size + i - 2) % 8 < 4 then
          (if (64 - 2 * size + i) % 4 < 2 then 64 - 2 * size + i + 2
            else 64 - 2 * size + i - 2) + 4
        else (if (64 - 2 * size + i) % 4 < 2 then 64 - 2 * size + i + 2
            else 64 - 2 * size + i - 2) - 4) / 8) +
        (if (if (64 - 2 * size + i) % 4 < 2 then 64 - 2 * size + i + 2
        else 64 - 2 * size + i - 2) % 8 < 4 then
          (if (64 - 2 * size + i) % 4 < 2 then 64 - 2 * size + i + 2
            else 64 - 2 * size + i - 2) + 4
        else (if (64 - 2 * size + i) % 4 < 2 then 64 - 2 * size + i + 2
            else 64 - 2 * size + i - 2) - 4) % 8)
        = 2 * (size - 1 - i / 2) + i % 2 := by
      split <;> split <;> omega
    rw [hidx, testBit_aa _ (by omega)]
    have hpar : (2 * (size - 1 - i / 2) + i % 2) % 2 = i % 2 := by omega
    simp [hi, hpar]
  · rw [swap2_testBit_high _ _ (by omega)]
    simp [hi]

theorem compute_reverse_complement_lt (x size : Nat) (hs : size ≤ 32) :
    compute_reverse_complement x size < 4 ^ size := by
  rw [four_pow]
  apply Nat.lt_pow_two_of_testBit
  intro i hi
  rw [compute_reverse_complement_testBit x size hs]
  have : decide (i < 2 * size) = false := by simp; omega
  rw [this]
  rfl

/-- On packed k-mers of at most 32 bases `compute_reverse_complement` is an involution. -/
theorem compute_reverse_complement_involutive (x size : Nat) (hs : size ≤ 32)
    (hx : x < 4 ^ size) :
    compute_reverse_complement (compute_reverse_complement x size) size = x := by
  have h64 : (4 : Nat) ^ size ≤ 2 ^ 64 := by
    rw [four_pow]; exact Nat.pow_le_pow_right (by norm_num) (by omega)
  have hy := compute_reverse_complement_lt x size hs
  apply Nat.eq_of_testBit_eq
  intro i
  rw [compute_reverse_complement_testBit _ size hs,
    Nat.mod_eq_of_lt (show compute_reverse_complement x size < 2 ^ 64 by omega),
    compute_reverse_complement_testBit x size hs,
    Nat.mod_eq_of_lt (show x < 2 ^ 64 by omega)]
  by_cases hi : i < 2 * size
  · have h1 : 2 * (size - 1 - i / 2) + i % 2 < 2 * size := by omega
    have h2 : 2 * (size - 1 - (2 * (size - 1 - i / 2) + i % 2) / 2)
        + (2 * (size - 1 - i / 2) + i % 2) % 2 = i := by omega
    have h3 : (2 * (size - 1 - i / 2) + i % 2) % 2 = i % 2 := by omega
    rw [h2, h3]
    simp [hi, h1]
  · have : x.testBit i = false := by
      apply Nat.testBit_lt_two_pow
      calc x < 4 ^ size := hx
        _ = 2 ^ (2 * size) := four_pow size
        _ ≤ 2 ^ i := Nat.pow_le_pow_right (by norm_num) (by omega)
    simp [hi, this]

/-- The position `compute_minimizer_pos` returns is at most `k - m`, whatever the hasher. -/
theorem compute_minimizer_pos_pos_le (hash : Nat → Nat → Nat) (kmer k m seed : Nat)
    (hm : 1 ≤ m) (hmk : m ≤ k) (hk : k < 2 ^ 64) :
    (compute_minimizer_pos hash kmer k m seed).2 ≤ k - m := by
  have hn := loop_count k m hm hmk (by unfold two64; omega)
  unfold compute_minimizer_pos
  simp only [hn]
  rcases minimizer_pos_loop_spec hash seed
      (((1 <<< (2 * m)) % two128 + two128 - 1) % two128) (k - m + 1) 0 (kmer % two128)
      invalid_uint64 (two128 - 1) 0 with ⟨hr, _⟩ | ⟨j, hj, hr, _⟩
  · rw [hr]; exact Nat.zero_le _
  · rw [hr]; simp only [Nat.zero_add]; omega

/-! ## Claims on the selection step -/

/-- C6, as stated for every hasher, fails for a hasher that returns `2^64 - 1`
on every m-mer: no m-mer is ever selected and `compute_minimizer_pos` returns
the initial `kmer_t(-1)` truncated to 64 bits, which is no m-mer of the k-mer
(`k = m = 1`, k-mer `A`). -/
theorem C6_compute_minimizer_pos_counterexample :
    compute_minimizer_pos (fun _ _ => 2 ^ 64 - 1) 0 1 1 0 = (2 ^ 64 - 1, 0) ∧
    ¬ ((compute_minimizer_pos (fun _ _ => 2 ^ 64 - 1) 0 1 1 0).1 < 4 ^ 1) := by
  decide

/-- C6 (amended): for every hasher, seed, packed k-mer and lengths with
`1 ≤ m ≤ k ≤ 63` and `m ≤ 31` such that at least one m-mer of the k-mer has a
hash below `2^64 - 1`, `compute_minimizer_pos` returns `(mm, pos)` with
`pos ≤ k - m`, `mm` the m-mer of the k-mer at position `pos` (the bits
`[2 pos, 2 pos + 2 m)`, hence `mm < 4^m`), `hash(mm)` at most the hash of every
m-mer of the k-mer, and `pos` the smallest position whose m-mer attains that
minimum. -/
theorem C6_compute_minimizer_pos (hash : Nat → Nat → Nat) (kmer k m seed : Nat)
    (hm : 1 ≤ m) (hmk : m ≤ k) (hk : k ≤ 63) (hm31 : m ≤ 31) (hkmer : kmer < 2 ^ 128)
    (hsome : ∃ j, j ≤ k - m ∧ hash64 hash ((kmer >>> (2 * j)) % 4 ^ m) seed < 2 ^ 64 - 1) :
    (compute_minimizer_pos hash kmer k m seed).2 ≤ k - m ∧
    (compute_minimizer_pos hash kmer k m seed).1
      = (kmer >>> (2 * (compute_minimizer_pos hash kmer k m seed).2)) % 4 ^ m ∧
    (compute_minimizer_pos hash kmer k m seed).1 < 4 ^ m ∧
    (∀ j, j ≤ k - m → hash64 hash (compute_minimizer_pos hash kmer k m seed).1 seed
        ≤ hash64 hash ((kmer >>> (2 * j)) % 4 ^ m) seed) ∧
    (∀ j, j < (compute_minimizer_pos hash kmer k m seed).2 →
        hash64 hash (compute_minimizer_pos hash kmer k m seed).1 seed
        < hash64 hash ((kmer >>> (2 * j)) % 4 ^ m) seed) :=
  compute_minimizer_pos_spec hash kmer k m seed hm hmk (by omega) hm31 hkmer hsome

/-- C6 (amended) at the k-mer `GTC` (packed 27), `k = 3`, `m = 2`, with the
m-mer code as its own hash: the m-mers are `GT = 11` and `TC = 6`, and the
selector returns `(6, 1)`. -/
theorem C6_compute_minimizer_pos_witness :
    compute_minimizer_pos (fun x _ => x) 27 3 2 1 = (6, 1) ∧
    (compute_minimizer_pos (fun x _ => x) 27 3 2 1).1
      = (27 >>> (2 * (compute_minimizer_pos (fun x _ => x) 27 3 2 1).2)) % 4 ^ 2 :=
  ⟨by decide, (C6_compute_minimizer_pos (fun x _ => x) 27 3 2 1 (by decide) (by decide)
    (by decide) (by decide) (by norm_num) ⟨0, by decide, by decide⟩).2.1⟩

/-- C7, as stated, fails when the forward and the reverse-complement minimizer
have the same code: for `k = 3`, `m = 1`, `x = ATA` (packed 8) and its reverse
complement `y = TAT` (packed 34), with a hasher under which `A` has a smaller
hash than `T`, the selection step yields `(A, 0)` for `x` and `(A, 1)` for `y`,
not `(A, k - (0 + m)) = (A, 2)`. -/
theorem C7_canonical_symmetry_counterexample :
    compute_reverse_complement 8 3 = 34 ∧
    select_minimizer (murmurhash2_64_hash (fun x _ => x))
      { k := 3, m := 1, seed := 0, canonical_parsing := true, weighted := false } 8 = (0, 0) ∧
    select_minimizer (murmurhash2_64_hash (fun x _ => x))
      { k := 3, m := 1, seed := 0, canonical_parsing := true, weighted := false } 34
        ≠ (0, 3 - (0 + 1)) := by
  decide

/-- C7 (amended): in canonical mode with `1 ≤ m ≤ k ≤ 32`, for every hasher,
every valid k-mer `x` and its reverse complement `y`, the selection step yields
the same minimizer for `x` and for `y`; and when the minimizer candidates of
the two strands differ, a position `pos` for `x` goes with the position
`k - (pos + m)` for `y`. -/
theorem C7_canonical_symmetry (hash : Nat → Nat → Nat) (cfg : build_configuration) (x : Nat)
    (hc : cfg.canonical_parsing = true)
    (hm : 1 ≤ cfg.m) (hmk : cfg.m ≤ cfg.k) (hk : cfg.k ≤ 32) (hx : x < 4 ^ cfg.k) :
    (select_minimizer hash cfg (compute_reverse_complement x cfg.k)).1
      = (select_minimizer hash cfg x).1 ∧
    ((compute_minimizer_pos hash x cfg.k cfg.m cfg.seed).1
        ≠ (compute_minimizer_pos hash (compute_reverse_complement x cfg.k)
            cfg.k cfg.m cfg.seed).1 →
      (select_minimizer hash cfg (compute_reverse_complement x cfg.k)).2
        = cfg.k - ((select_minimizer hash cfg x).2 + cfg.m)) := by
  have hinv := compute_reverse_complement_involutive x cfg.k hk hx
  have hpf := compute_minimizer_pos_pos_le hash x cfg.k cfg.m cfg.seed hm hmk (by omega)
  have hpr := compute_minimizer_pos_pos_le hash (compute_reverse_complement x cfg.k)
    cfg.k cfg.m cfg.seed hm hmk (by omega)
  unfold select_minimizer
  simp only [hc, if_true, hinv]
  generalize compute_minimizer_pos hash x cfg.k cfg.m cfg.seed = f at *
  generalize compute_minimizer_pos hash (compute_reverse_complement x cfg.k)
    cfg.k cfg.m cfg.seed = r at *
  rcases Nat.lt_trichotomy r.1 f.1 with h | h | h
  · have h' : ¬ f.1 < r.1 := by omega
    simp only [h, h', if_true, if_false]
    refine ⟨trivial, fun _ => ?_⟩
    rw [sub64_eq _ _ (by omega) (by omega)]
    omega
  · have h1 : ¬ f.1 < r.1 := by omega
    have h2 : ¬ r.1 < f.1 := by omega
    simp only [h1, h2, if_false]
    exact ⟨h, fun hne => absurd h.symm hne⟩
  · have h' : ¬ r.1 < f.1 := by omega
    simp only [h, h', if_true, if_false]
    refine ⟨trivial, fun _ => ?_⟩
    rw [sub64_eq _ _ (by omega) (by omega)]

/-- C7 (amended) at `k = 3`, `m = 1`, `x = AAC` (packed 16): the strands `AAC`
and `GTT` give the minimizer `A` at position 0, resp. at `k - (0 + m) = 2`. -/
theorem C7_canonical_symmetry_witness :
    (select_minimizer (murmurhash2_64_hash (fun x _ => x))
      { k := 3, m := 1, seed := 0, canonical_parsing := true, weighted := false }
      (compute_reverse_complement 16 3)).2
      = 3 - ((select_minimizer (murmurhash2_64_hash (fun x _ => x))
      { k := 3, m := 1, seed := 0, canonical_parsing := true, weighted := false } 16).2 + 1) :=
  (C7_canonical_symmetry (murmurhash2_64_hash (fun x _ => x))
    { k := 3, m := 1, seed := 0, canonical_parsing := true, weighted := false } 16
    rfl (by decide) (by decide) (by decide) (by decide)).2 (by decide)

/-! ## Chains of runs -/

theorem runs_chain_bounds : ∀ (runs : List (Nat × Nat)) (a b : Nat), runs_chain a runs b →
    a ≤ b ∧ ∀ r ∈ runs, a ≤ r.1 ∧ r.1 < r.2 ∧ r.2 ≤ b := by
  intro runs
  induction runs with
  | nil =>
    intro a b h
    simp only [runs_chain] at h
    exact ⟨by omega, by simp⟩
  | cons r rs ih =>
    intro a b h
    simp only [runs_chain] at h
    obtain ⟨h1, h2, h3⟩ := h
    obtain ⟨e1, e2⟩ := ih _ _ h3
    refine ⟨by omega, ?_⟩
    intro x hx
    rcases List.mem_cons.1 hx with hx | hx
    · subst hx; exact ⟨by omega, by omega, e1⟩
    · have := e2 x hx
      exact ⟨by omega, this.2.1, this.2.2⟩

/-! ## The weights of a header -/

theorem isdigit_not_space (c : Nat) (h : isdigit c = true) : isspace c = false ∧ c ≠ 45 ∧
    c ≠ 43 ∧ c ≠ 32 := by
  unfold isdigit at h
  unfold isspace
  simp only [Bool.and_eq_true, decide_eq_true_eq] at h
  refine ⟨?_, by omega, by omega, by omega⟩
  simp only [Bool.or_eq_false_iff, Bool.and_eq_false_iff, decide_eq_false_iff_not, beq_eq_false_iff_ne]
  omega

theorem takeWhile_append_stop (p : Nat → Bool) (ds rest : List Nat)
    (hds : ∀ c ∈ ds, p c = true)
    (hrest : rest = [] ∨ ∃ c t, rest = c :: t ∧ p c = false) :
    (ds ++ rest).takeWhile p = ds := by
  induction ds with
  | nil =>
    rcases hrest with rfl | ⟨c, t, rfl, hc⟩
    · rfl
    · simp [List.takeWhile, hc]
  | cons d ds ih =>
    have hd := hds d (List.mem_cons_self _ _)
    simp only [List.cons_append, List.takeWhile_cons, hd, if_true]
    rw [ih (fun c hc => hds c (List.mem_cons_of_mem _ hc))]

/-- `strtoull` reads a number that is followed by nothing or by a non-digit. -/
theorem strtoull_number (ds rest : List Nat) (hn : is_number ds)
    (hv : decimal_value ds < 2 ^ 64)
    (hrest : rest = [] ∨ ∃ c t, rest = c :: t ∧ isdigit c = false) :
    strtoull (ds ++ rest) = decimal_value ds := by
  obtain ⟨hne, hd⟩ := hn
  obtain ⟨d, ds', rfl⟩ := List.exists_cons_of_ne_nil hne
  have hd0 := isdigit_not_space d (hd d (List.mem_cons_self _ _))
  have htw := takeWhile_append_stop isdigit (d :: ds') rest hd hrest
  unfold strtoull
  simp only [List.cons_append, List.dropWhile_cons, hd0.1, Bool.false_eq_true, if_false,
    List.head?_cons]
  have h1 : (some d == some 45) = false := by simp [hd0.2.1]
  have h2 : (some d == some 43) = false := by simp [hd0.2.2.1]
  simp only [h1, h2, Bool.or_false, Bool.false_eq_true, if_false]
  rw [← List.cons_append, htw]
  unfold two64
  rw [if_neg (by omega)]

theorem find_first_of_drop (s d rest : List Nat) (c i : Nat)
    (h : s.drop i = d ++ c :: rest) (hc : c ∉ d) :
    find_first_of s c i = i + d.length := by
  unfold find_first_of
  have hidx : (s.drop i).indexOf c = d.length := by
    rw [h, List.indexOf_append_of_not_mem hc]
    simp
  rw [hidx, if_pos]
  rw [h]
  simp

@[simp] theorem eat_weight_sequence (st : parse_state) (w : Nat) :
    (eat_weight st w).sequence = st.sequence := by
  obtain ⟨wb, sw, wv, wl, h⟩ := eat_weight_frame st w
  rw [h]

theorem is_number_no_blank (d : List Nat) (h : is_number d) : 32 ∉ d := by
  intro hm
  exact (isdigit_not_space 32 (h.2 32 hm)).2.2.2 rfl

/-- The weight loop on the text of the weights: each weight is read and handled in turn. -/
theorem weights_loop_numbers :
    ∀ (dws : List (List Nat)) (st : parse_state) (i : Nat),
      st.sequence.drop i = join_blank dws →
      (∀ d ∈ dws, is_number d ∧ decimal_value d < 2 ^ 64) →
      st.sequence.length < 2 ^ 64 - 1 →
      weights_loop dws.length st i = (dws.map decimal_value).foldl eat_weight st := by
  intro dws
  induction dws with
  | nil => intro st i _ _ _; rfl
  | cons d ds ih =>
    intro st i hdrop hnum hlen
    have hd := hnum d (List.mem_cons_self _ _)
    cases ds with
    | nil =>
      simp only [join_blank] at hdrop
      simp only [List.length_singleton, weights_loop, weights_step, List.map_cons, List.map_nil,
        List.foldl_cons, List.foldl_nil]
      rw [hdrop]
      have := strtoull_number d [] hd.1 hd.2 (Or.inl rfl)
      rw [List.append_nil] at this
      rw [this]
    | cons d' ds' =>
      simp only [join_blank] at hdrop
      have hw : strtoull (st.sequence.drop i) = decimal_value d := by
        rw [hdrop]
        exact strtoull_number d _ hd.1 hd.2 (Or.inr ⟨32, _, rfl, by decide⟩)
      have hf : find_first_of st.sequence 32 i = i + d.length :=
        find_first_of_drop st.sequence d _ 32 i hdrop (is_number_no_blank d hd.1)
      have hil : i + d.length < st.sequence.length := by
        have := congrArg List.length hdrop
        simp only [List.length_drop, List.length_append, List.length_cons] at this
        omega
      have hmod : (i + d.length + 1) % two64 = i + d.length + 1 := by
        unfold two64; exact Nat.mod_eq_of_lt (by omega)
      rw [List.length_cons, weights_loop]
      simp only [weights_step, hw, hf, hmod, List.map_cons, List.foldl_cons]
      have hdrop' : (eat_weight st (decimal_value d)).sequence.drop (i + d.length + 1)
          = join_blank (d' :: ds') := by
        rw [eat_weight_sequence]
        have e : i + d.length + 1 = i + (d.length + 1) := by omega
        rw [e, ← List.drop_drop, hdrop]
        simp
      rw [ih (eat_weight st (decimal_value d)) (i + d.length + 1) hdrop'
        (fun x hx => hnum x (List.mem_cons_of_mem _ hx)) (by rw [eat_weight_sequence]; exact hlen)]
      simp

/-- The run-length state of the weight code: the intervals pushed so far and
the pending run stand for the weights eaten so far, and a pending run whose
value is `invalid_uint64` is empty. -/
theorem eat_weight_run_length (st : parse_state) (w : Nat) (hw : w < 2 ^ 64 - 1)
    (h1 : expand_intervals st.weights_builder.intervals
      ++ List.replicate st.weight_length st.weight_value = st.weights_builder.eaten)
    (h2 : st.weight_value = invalid_uint64 → st.weight_length = 0) :
    expand_intervals (eat_weight st w).weights_builder.intervals
      ++ List.replicate (eat_weight st w).weight_length (eat_weight st w).weight_value
      = st.weights_builder.eaten ++ [w] ∧
    (eat_weight st w).weights_builder.eaten = st.weights_builder.eaten ++ [w] ∧
    ((eat_weight st w).weight_value = invalid_uint64 → (eat_weight st w).weight_length = 0) := by
  have hwi : w ≠ invalid_uint64 := by unfold invalid_uint64; omega
  unfold eat_weight
  simp only
  by_cases he : w = st.weight_value
  · rw [if_pos he]
    simp only [weights_builder.eat]
    refine ⟨?_, trivial, fun hv => absurd (he.trans hv) hwi⟩
    rw [← h1, List.replicate_succ', he]
    simp
  · rw [if_neg he]
    by_cases hv : st.weight_value = invalid_uint64
    · have hl := h2 hv
      simp only [hv, ne_eq, not_true_eq_false, if_false, weights_builder.eat]
      refine ⟨?_, trivial, fun hv' => absurd hv' hwi⟩
      rw [← h1, hl]
      simp
    · simp only [ne_eq, hv, not_false_eq_true, if_true, weights_builder.eat,
        weights_builder.push_weight_interval]
      refine ⟨?_, trivial, fun hv' => absurd hv' hwi⟩
      rw [← h1]
      simp [expand_intervals]

theorem foldl_eat_weight_run_length :
    ∀ (ws : List Nat) (st : parse_state), (∀ w ∈ ws, w < 2 ^ 64 - 1) →
      expand_intervals st.weights_builder.intervals
        ++ List.replicate st.weight_length st.weight_value = st.weights_builder.eaten →
      (st.weight_value = invalid_uint64 → st.weight_length = 0) →
      expand_intervals (ws.foldl eat_weight st).weights_builder.intervals
        ++ List.replicate (ws.foldl eat_weight st).weight_length
            (ws.foldl eat_weight st).weight_value
        = st.weights_builder.eaten ++ ws ∧
      (ws.foldl eat_weight st).weights_builder.eaten = st.weights_builder.eaten ++ ws ∧
      ((ws.foldl eat_weight st).weight_value = invalid_uint64 →
        (ws.foldl eat_weight st).weight_length = 0) := by
  intro ws
  induction ws with
  | nil => intro st _ h1 h2; exact ⟨by simpa using h1, by simp, h2⟩
  | cons w ws ih =>
    intro st hw h1 h2
    obtain ⟨e1, e2, e3⟩ := eat_weight_run_length st w (hw w (List.mem_cons_self _ _)) h1 h2
    have := ih (eat_weight st w) (fun x hx => hw x (List.mem_cons_of_mem _ hx))
      (by rw [e1, e2]) e3
    simp only [List.foldl_cons]
    rw [e2] at this
    simpa using this

theorem getD_append_at (pre mid : List Nat) (n t : Nat) (hn : n = pre.length + t) :
    (pre ++ mid).getD n 0 = mid.getD t 0 := by
  subst hn
  rw [List.getD_append_right _ _ _ _ (by omega)]
  simp

theorem drop_append_at (pre mid : List Nat) (n : Nat) (hn : n = pre.length) :
    (pre ++ mid).drop n = mid := by
  subst hn
  simp

theorem expect_self (c : Nat) : expect c c = .ok () := by simp [expect]

/-- `parse_header` on a header of the format `>[id] LN:i:[seq_len] ab:Z:[weight_seq]`:
the declared length is read and the weight loop is run `seq_len - k + 1` (in
`uint64_t`) times from the start of the weights. -/
theorem parse_header_format (cfg : build_configuration) (w : weighted_record)
    (st : parse_state) (hid : 32 ∉ w.id) (hLn : is_number w.length_digits)
    (hLv : decimal_value w.length_digits < 2 ^ 64) (hlen : w.header.length < 2 ^ 64 - 1)
    (hs : st.sequence = w.header) :
    parse_header cfg st
      = .ok (weights_loop ((decimal_value w.length_digits + two64 - cfg.k % two64 + 1) % two64)
          { st with seq_len := decimal_value w.length_digits }
          (w.id.length + 1 + 1 + 5 + w.length_digits.length + 1 + 5)) ∧
    w.header.drop (w.id.length + 1 + 1 + 5 + w.length_digits.length + 1 + 5)
      = join_blank w.weight_digits := by
  -- the header, cut at the positions the parser visits
  have hH1 : w.header = (62 :: w.id) ++ 32 :: ([76, 78, 58, 105, 58] ++ (w.length_digits ++
      32 :: ([97, 98, 58, 90, 58] ++ join_blank w.weight_digits))) := by
    simp [weighted_record.header]
  have hH2 : w.header = (62 :: w.id ++ [32]) ++ ([76, 78, 58, 105, 58] ++ (w.length_digits ++
      32 :: ([97, 98, 58, 90, 58] ++ join_blank w.weight_digits))) := rfl
  have hH3 : w.header = (62 :: w.id ++ [32] ++ [76, 78, 58, 105, 58]) ++ (w.length_digits ++
      32 :: ([97, 98, 58, 90, 58] ++ join_blank w.weight_digits)) := by
    simp [weighted_record.header]
  have hH4 : w.header = (62 :: w.id ++ [32] ++ [76, 78, 58, 105, 58] ++ w.length_digits ++ [32])
      ++ ([97, 98, 58, 90, 58] ++ join_blank w.weight_digits) := by
    simp [weighted_record.header]
  have hH5 : w.header = (62 :: w.id ++ [32] ++ [76, 78, 58, 105, 58] ++ w.length_digits ++ [32]
      ++ [97, 98, 58, 90, 58]) ++ join_blank w.weight_digits := by
    simp [weighted_record.header]
  have hne : w.header.isEmpty = false := by rw [hH1]; rfl
  have h0 : w.header.getD 0 0 = 62 := by rw [hH1]; rfl
  have hf1 : find_first_of w.header 32 0 = w.id.length + 1 := by
    have := find_first_of_drop w.header (62 :: w.id) _ 32 0 (by rw [List.drop_zero]; exact hH1)
      (by simp only [List.mem_cons]; rintro (h | h); · omega
          · exact hid h)
    simpa using this
  have hL : ∀ t, w.header.getD (w.id.length + 1 + 1 + t) 0
      = ([76, 78, 58, 105, 58] ++ (w.length_digits ++
      32 :: ([97, 98, 58, 90, 58] ++ join_blank w.weight_digits))).getD t 0 := by
    intro t
    rw [hH2]
    exact getD_append_at _ _ _ t (by simp)
  have hd2 : w.header.drop (w.id.length + 1 + 1 + 5) = w.length_digits ++
      32 :: ([97, 98, 58, 90, 58] ++ join_blank w.weight_digits) := by
    rw [hH3]
    exact drop_append_at _ _ _ (by simp)
  have hf2 : find_first_of w.header 32 (w.id.length + 1 + 1 + 5)
      = w.id.length + 1 + 1 + 5 + w.length_digits.length :=
    find_first_of_drop w.header _ _ 32 _ hd2 (is_number_no_blank _ hLn)
  have hsl : strtoull (w.header.drop (w.id.length + 1 + 1 + 5))
      = decimal_value w.length_digits := by
    rw [hd2]
    exact strtoull_number _ _ hLn hLv (Or.inr ⟨32, _, rfl, by decide⟩)
  have hA : ∀ t, w.header.getD (w.id.length + 1 + 1 + 5 + w.length_digits.length + 1 + t) 0
      = ([97, 98, 58, 90, 58] ++ join_blank w.weight_digits).getD t 0 := by
    intro t
    rw [hH4]
    exact getD_append_at _ _ _ t (by simp; omega)
  have hd3 : w.header.drop (w.id.length + 1 + 1 + 5 + w.length_digits.length + 1 + 5)
      = join_blank w.weight_digits := by
    rw [hH5]
    exact drop_append_at _ _ _ (by simp; omega)
  have hnp1 : ¬ (w.id.length + 1 = npos) := by
    have : w.id.length < w.header.length := by rw [hH1]; simp; omega
    unfold npos; omega
  have hnp2 : ¬ (w.id.length + 1 + 1 + 5 + w.length_digits.length = npos) := by
    have : w.id.length + w.length_digits.length + 7 < w.header.length := by
      rw [hH4]; simp; omega
    unfold npos; omega
  have hL0 : w.header.getD (w.id.length + 1 + 1 + 0) 0 = 76 := (hL 0).trans rfl
  have hL1 : w.header.getD (w.id.length + 1 + 1 + 1) 0 = 78 := (hL 1).trans rfl
  have hL2 : w.header.getD (w.id.length + 1 + 1 + 2) 0 = 58 := (hL 2).trans rfl
  have hL3 : w.header.getD (w.id.length + 1 + 1 + 3) 0 = 105 := (hL 3).trans rfl
  have hL4 : w.header.getD (w.id.length + 1 + 1 + 4) 0 = 58 := (hL 4).trans rfl
  have hA0 : w.header.getD (w.id.length + 1 + 1 + 5 + w.length_digits.length + 1 + 0) 0 = 97 :=
    (hA 0).trans rfl
  have hA1 : w.header.getD (w.id.length + 1 + 1 + 5 + w.length_digits.length + 1 + 1) 0 = 98 :=
    (hA 1).trans rfl
  have hA2 : w.header.getD (w.id.length + 1 + 1 + 5 + w.length_digits.length + 1 + 2) 0 = 58 :=
    (hA 2).trans rfl
  have hA3 : w.header.getD (w.id.length + 1 + 1 + 5 + w.length_digits.length + 1 + 3) 0 = 90 :=
    (hA 3).trans rfl
  have hA4 : w.header.getD (w.id.length + 1 + 1 + 5 + w.length_digits.length + 1 + 4) 0 = 58 :=
    (hA 4).trans rfl
  unfold parse_header
  simp only [hs, hne, Bool.false_eq_true, if_false]
  simp only [h0, hf1, hL0, hL1, hL2, hL3, hL4, hf2, hsl, hA0, hA1, hA2, hA3, hA4, hnp1, hnp2,
    expect_self, bind, Except.bind, if_false, pure, Except.pure]
  exact ⟨trivial, hd3⟩

/-- `parse_header` on the header of a well-formed weighted record: the declared
length is read and the weights are handled in turn. -/
theorem parse_header_well_formed (cfg : build_configuration) (w : weighted_record)
    (st : parse_state) (hwf : w.well_formed cfg.k) (hk : cfg.k < 2 ^ 64)
    (hs : st.sequence = w.header) :
    parse_header cfg st
      = .ok (w.weights.foldl eat_weight { st with seq_len := w.sequence.length }) := by
  obtain ⟨hid, hLn, hLv, hws, hcnt, hlen, hslen⟩ := hwf
  obtain ⟨hp, hd3⟩ := parse_header_format cfg w st hid hLn (by omega) hlen hs
  have hn : (w.sequence.length + two64 - cfg.k % two64 + 1) % two64 = w.weight_digits.length := by
    unfold two64
    rw [Nat.mod_eq_of_lt hk]
    have e : w.sequence.length + 2 ^ 64 - cfg.k + 1 = w.weight_digits.length + 2 ^ 64 := by omega
    rw [e, Nat.add_mod_right, Nat.mod_eq_of_lt (by omega)]
  have hloop := weights_loop_numbers w.weight_digits
    { st with seq_len := w.sequence.length }
    (w.id.length + 1 + 1 + 5 + w.length_digits.length + 1 + 5) (by rw [← hd3, hs])
    (fun d hd => ⟨(hws d hd).1, by have := (hws d hd).2; omega⟩) (by rw [hs]; exact hlen)
  rw [hp, hLv, hn, hloop]
  rfl

section
variable (hash : Nat → Nat → Nat) (cfg : build_configuration) (nbytes : Nat)

theorem append_super_kmer_frame (st : parse_state) :
    ∃ mins b g, append_super_kmer cfg nbytes st
      = { st with minimizers := mins, builder := b, glue := g } := by
  unfold append_super_kmer
  split
  · exact ⟨_, _, _, rfl⟩
  · exact ⟨_, _, _, rfl⟩

/-- What the k-mer loop may change: the k-mer count, the tuples, the pool
builder and the variables of the partitioning. -/
theorem kmer_step_frame (st : parse_state) :
    ∃ nk mins b pm pp bg en g, kmer_step hash cfg nbytes st
      = { st with num_kmers := nk, minimizers := mins, builder := b, prev_minimizer := pm,
                  prev_pos := pp, begin_ := bg, end_ := en, glue := g } := by
  unfold kmer_step
  simp only
  split <;> split
  all_goals first
    | exact ⟨_, _, _, _, _, _, _, _, rfl⟩
    | (rename_i h1 h2
       obtain ⟨mins, b, g, e⟩ := append_super_kmer_frame cfg nbytes _
       rw [e]
       exact ⟨_, _, _, _, _, _, _, _, rfl⟩)

theorem iterate_kmer_step_frame (n : Nat) (st : parse_state) :
    ∃ nk mins b pm pp bg en g, (kmer_step hash cfg nbytes)^[n] st
      = { st with num_kmers := nk, minimizers := mins, builder := b, prev_minimizer := pm,
                  prev_pos := pp, begin_ := bg, end_ := en, glue := g } := by
  induction n with
  | zero => exact ⟨_, _, _, _, _, _, _, _, rfl⟩
  | succ n ih =>
    rw [Function.iterate_succ_apply']
    obtain ⟨nk, mins, b, pm, pp, bg, en, g, e⟩ := ih
    obtain ⟨nk', mins', b', pm', pp', bg', en', g', e'⟩ :=
      kmer_step_frame hash cfg nbytes ((kmer_step hash cfg nbytes)^[n] st)
    rw [e', e]
    exact ⟨_, _, _, _, _, _, _, _, rfl⟩

/-- The processing of a sequence line leaves the weight variables alone. -/
theorem parse_sequence_weights (st st' : parse_state)
    (h : parse_sequence hash cfg nbytes st = .ok st') :
    st'.weights_builder = st.weights_builder ∧ st'.weight_value = st.weight_value ∧
    st'.weight_length = st.weight_length ∧ st'.seq_len = st.seq_len := by
  by_cases hk : cfg.k ≤ st.sequence.length
  · rw [parse_sequence_long hash cfg nbytes st hk] at h
    split at h
    · cases h
    · injection h with h
      obtain ⟨nk, mins, b, pm, pp, bg, en, g, e⟩ := iterate_kmer_step_frame hash cfg nbytes
        (st.sequence.length - cfg.k + 1) (start_sequence st)
      obtain ⟨mins', b', g', e'⟩ := append_super_kmer_frame cfg nbytes
        ((kmer_step hash cfg nbytes)^[st.sequence.length - cfg.k + 1] (start_sequence st))
      rw [e', e] at h
      rw [← h]
      exact ⟨rfl, rfl, rfl, rfl⟩
  · rw [parse_sequence_short hash cfg nbytes st (by omega)] at h
    injection h with h
    rw [← h]
    exact ⟨rfl, rfl, rfl, rfl⟩

theorem foldl_eat_weight_frame (ws : List Nat) (st : parse_state) :
    ∃ wb sw wv wl, ws.foldl eat_weight st = { st with
      weights_builder := wb, sum_of_weights := sw, weight_value := wv, weight_length := wl } := by
  induction ws generalizing st with
  | nil => exact ⟨_, _, _, _, rfl⟩
  | cons w ws ih =>
    obtain ⟨wb, sw, wv, wl, e⟩ := eat_weight_frame st w
    obtain ⟨wb', sw', wv', wl', e'⟩ := ih (eat_weight st w)
    rw [List.foldl_cons, e', e]
    exact ⟨_, _, _, _, rfl⟩

/-- A well-formed weighted record goes through the main loop, and the weight
variables are those left by handling its weights in turn. -/
theorem parse_record_weights (w : weighted_record) (st : parse_state)
    (hw : cfg.weighted = true) (hk : cfg.k < 2 ^ 64) (hwf : w.well_formed cfg.k) :
    ∃ st', parse_record hash cfg nbytes w.lines st = .ok st' ∧
      st'.weights_builder = (w.weights.foldl eat_weight
        { st with sequence := w.header, seq_len := w.sequence.length }).weights_builder ∧
      st'.weight_value = (w.weights.foldl eat_weight
        { st with sequence := w.header, seq_len := w.sequence.length }).weight_value ∧
      st'.weight_length = (w.weights.foldl eat_weight
        { st with sequence := w.header, seq_len := w.sequence.length }).weight_length := by
  have hh := parse_header_well_formed cfg w { st with sequence := w.header } hwf hk rfl
  obtain ⟨wb, sw, wv, wl, e⟩ := foldl_eat_weight_frame w.weights
    { ({ st with sequence := w.header } : parse_state) with seq_len := w.sequence.length }
  generalize hsth : w.weights.foldl eat_weight
    { ({ st with sequence := w.header } : parse_state) with seq_len := w.sequence.length }
    = sth at *
  have hsl : sth.seq_len = w.sequence.length := by rw [e]
  have hps : ∃ st', parse_sequence hash cfg nbytes { sth with sequence := w.sequence }
      = .ok st' := by
    by_cases hkl : cfg.k ≤ w.sequence.length
    · rw [parse_sequence_long hash cfg nbytes _ hkl]
      simp only [hsl, ne_eq, not_true_eq_false, and_false, if_false]
      exact ⟨_, rfl⟩
    · exact ⟨_, parse_sequence_short hash cfg nbytes _ (by simpa using hkl)⟩
  obtain ⟨st', hst'⟩ := hps
  obtain ⟨f1, f2, f3, _⟩ := parse_sequence_weights hash cfg nbytes _ _ hst'
  refine ⟨st', ?_, f1, f2, f3⟩
  unfold parse_record
  simp only [hw, if_true, weighted_record.lines, hh]
  exact hst'

/-- A well-formed weighted record goes through the main loop, its weights are
handled in turn, and the intervals pushed so far and the pending run go on
standing for the weights eaten so far. -/
theorem parse_record_well_formed (w : weighted_record) (st : parse_state)
    (hw : cfg.weighted = true) (hk : cfg.k < 2 ^ 64) (hwf : w.well_formed cfg.k)
    (h1 : expand_intervals st.weights_builder.intervals
      ++ List.replicate st.weight_length st.weight_value = st.weights_builder.eaten)
    (h2 : st.weight_value = invalid_uint64 → st.weight_length = 0) :
    ∃ st', parse_record hash cfg nbytes w.lines st = .ok st' ∧
      expand_intervals st'.weights_builder.intervals
        ++ List.replicate st'.weight_length st'.weight_value = st'.weights_builder.eaten ∧
      (st'.weight_value = invalid_uint64 → st'.weight_length = 0) ∧
      st'.weights_builder.eaten = st.weights_builder.eaten ++ w.weights := by
  obtain ⟨e1, e2, e3⟩ := foldl_eat_weight_run_length w.weights
    { st with sequence := w.header, seq_len := w.sequence.length }
    (fun x hx => by
      obtain ⟨d, hd, rfl⟩ := List.mem_map.1 hx
      exact (hwf.2.2.2.1 d hd).2) h1 h2
  obtain ⟨st', hst', f1, f2, f3⟩ := parse_record_weights hash cfg nbytes w st hw hk hwf
  refine ⟨st', hst', ?_, ?_, ?_⟩
  · rw [f1, f2, f3]; exact e1.trans e2.symm
  · rw [f2, f3]; exact e3
  · rw [f1]; exact e2

end

/-! ## Claims on the weights -/

theorem expand_intervals_length (l : List (Nat × Nat)) :
    (expand_intervals l).length = (l.map (fun p => p.2)).sum := by
  induction l with
  | nil => rfl
  | cons p l ih =>
    simp only [expand_intervals, List.map_cons, List.flatten_cons, List.length_append,
      List.length_replicate, List.sum_cons] at ih ⊢
    rw [ih]

theorem expand_intervals_snoc (l : List (Nat × Nat)) (v n : Nat) :
    expand_intervals (l ++ [(v, n)]) = expand_intervals l ++ List.replicate n v := by
  simp [expand_intervals]

section
variable (hash : Nat → Nat → Nat) (cfg : build_configuration) (nbytes : Nat)

/-- The main loop on well-formed weighted records. -/
theorem parse_records_well_formed (hw : cfg.weighted = true) (hk : cfg.k < 2 ^ 64) :
    ∀ (wrs : List weighted_record) (st : parse_state),
      (∀ w ∈ wrs, w.well_formed cfg.k) →
      expand_intervals st.weights_builder.intervals
        ++ List.replicate st.weight_length st.weight_value = st.weights_builder.eaten →
      (st.weight_value = invalid_uint64 → st.weight_length = 0) →
      ∃ st', parse_records hash cfg nbytes (wrs.map weighted_record.lines) st = .ok st' ∧
        expand_intervals st'.weights_builder.intervals
          ++ List.replicate st'.weight_length st'.weight_value = st'.weights_builder.eaten ∧
        st'.weights_builder.eaten
          = st.weights_builder.eaten ++ (wrs.map weighted_record.weights).flatten := by
  intro wrs
  induction wrs with
  | nil => intro st _ h1 _; exact ⟨st, rfl, h1, by simp⟩
  | cons w wrs ih =>
    intro st hwf h1 h2
    obtain ⟨st1, hp, e1, e2, e3⟩ := parse_record_well_formed hash cfg nbytes w st hw hk
      (hwf w (List.mem_cons_self _ _)) h1 h2
    obtain ⟨st', hp', e1', e3'⟩ := ih st1 (fun x hx => hwf x (List.mem_cons_of_mem _ hx)) e1 e2
    refine ⟨st', ?_, e1', ?_⟩
    · simp only [List.map_cons, parse_records, hp]
      exact hp'
    · rw [e3', e3]
      simp

theorem well_formed_num_kmers (w : weighted_record) (k : Nat) (hwf : w.well_formed k) :
    num_kmers_of k w.sequence.length = w.weights.length := by
  have := hwf.2.2.2.2.1
  unfold num_kmers_of weighted_record.weights
  rw [List.length_map]
  split <;> omega

end

theorem eat_weight_eaten (st : parse_state) (w : Nat) :
    (eat_weight st w).weights_builder.eaten = st.weights_builder.eaten ++ [w] := by
  unfold eat_weight
  simp only
  split
  · rfl
  · split <;> rfl

/-- Every iteration of the weight loop feeds one weight to the weight builder. -/
theorem weights_loop_eaten_length (n : Nat) (st : parse_state) (i : Nat) :
    (weights_loop n st i).weights_builder.eaten.length
      = st.weights_builder.eaten.length + n := by
  induction n generalizing st i with
  | zero => rfl
  | succ n ih =>
    rw [weights_loop, ih]
    simp only [weights_step, eat_weight_eaten, List.length_append, List.length_singleton]
    omega

/-- After a weight has been handled the pending run is not empty. -/
theorem eat_weight_length_pos (st : parse_state) (w : Nat) :
    1 ≤ (eat_weight st w).weight_length := by
  unfold eat_weight
  simp only
  split
  · exact Nat.le_add_left 1 _
  · exact Nat.le_refl 1

/-- After at least one iteration of the weight loop the pending run is not empty. -/
theorem weights_loop_length_pos (n : Nat) (st : parse_state) (i : Nat)
    (h : 0 < n ∨ 1 ≤ st.weight_length) : 1 ≤ (weights_loop n st i).weight_length := by
  induction n generalizing st i with
  | zero =>
    rcases h with h | h
    · exact absurd h (Nat.lt_irrefl 0)
    · exact h
  | succ n ih =>
    rw [weights_loop]
    exact ih _ _ (Or.inr (eat_weight_length_pos _ _))

/-- In weighted mode a record whose sequence is shorter than `k` leaves what
`parse_header` made of its header. -/
theorem parse_record_weighted_short (hash : Nat → Nat → Nat) (cfg : build_configuration)
    (nbytes : Nat) (r : List Nat × List Nat) (st sth : parse_state)
    (hw : cfg.weighted = true) (hs : r.2.length < cfg.k)
    (hp : parse_header cfg { st with sequence := r.1 } = .ok sth) :
    parse_record hash cfg nbytes r st = .ok { sth with sequence := r.2 } := by
  unfold parse_record
  rw [if_pos hw, hp]
  exact parse_sequence_short hash cfg nbytes _ hs

/-- C10 fails in weighted mode. On the record `>1 LN:i:1 ab:Z:` / `A` with
`k = 3` the sequence is shorter than `k` and no k-mer is counted, but the header
is parsed before the length test: the bound `seq_len - k + 1` of the weight loop
wraps to `2^64 - 1` and that many weights are fed to the weight builder, whereas
the empty input feeds none and pushes the single interval `(invalid_uint64, 0)`. -/
theorem C10_short_record_feeds_weights :
    ∃ st st0,
      parse_file example_murmur 1 (input_lines [short_weighted_record.lines] true)
        short_weighted_cfg = .ok st ∧
      parse_file example_murmur 1 (input_lines [] true) short_weighted_cfg = .ok st0 ∧
      st0.num_kmers = 0 ∧ st0.weights_builder.eaten = [] ∧
      st0.weights_builder.intervals = [(invalid_uint64, 0)] ∧
      st.num_kmers = 0 ∧ st.weights_builder.eaten.length = 2 ^ 64 - 1 ∧
      st.weights_builder.intervals ≠ st0.weights_builder.intervals := by
  have hsth : ∃ sth, parse_header short_weighted_cfg
      { parse_state.init short_weighted_cfg with sequence := short_weighted_record.header }
        = .ok sth ∧ sth.weights_builder.eaten.length = 2 ^ 64 - 1 ∧
        1 ≤ sth.weight_length := by
    obtain ⟨hp, _⟩ := parse_header_format short_weighted_cfg short_weighted_record
      { parse_state.init short_weighted_cfg with sequence := short_weighted_record.header }
      (by decide) (by unfold is_number; decide) (by decide) (by decide) rfl
    have hn : (decimal_value short_weighted_record.length_digits + two64
        - short_weighted_cfg.k % two64 + 1) % two64 = 2 ^ 64 - 1 := by decide
    rw [hn] at hp
    have hN : 0 < 2 ^ 64 - 1 := by decide
    generalize (2 ^ 64 - 1 : Nat) = N at hp hN ⊢
    refine ⟨_, hp, ?_, weights_loop_length_pos N _ _ (Or.inl hN)⟩
    rw [weights_loop_eaten_length]
    exact Nat.zero_add N
  obtain ⟨sth, hp, hlen, hpos⟩ := hsth
  have hrec : parse_records (murmurhash2_64_hash example_murmur) short_weighted_cfg 1
      [short_weighted_record.lines] (parse_state.init short_weighted_cfg)
      = .ok { sth with sequence := short_weighted_record.sequence } := by
    have h := parse_record_weighted_short (murmurhash2_64_hash example_murmur)
      short_weighted_cfg 1 short_weighted_record.lines (parse_state.init short_weighted_cfg) sth
      rfl (by decide) hp
    unfold parse_records
    rw [h]
    rfl
  obtain ⟨st, hst⟩ := parse_file_returns example_murmur 1 [short_weighted_record.lines] true
    short_weighted_cfg (by decide) (by decide) _ hrec
  obtain ⟨_, st1, seq, hp1, hst1⟩ := parse_file_ok example_murmur 1 _ true short_weighted_cfg
    (by decide) st hst
  have hk := parse_records_num_kmers _ _ _ _ _ _ hp1
  rw [hrec] at hp1
  injection hp1 with hp1
  refine ⟨st, _, hst, rfl, rfl, rfl, rfl, ?_, ?_, ?_⟩
  · rw [hst1]
    exact hk
  · rw [hst1, ← hp1]
    exact hlen
  · rw [hst1, ← hp1]
    intro he
    have hl := congrArg List.getLast? he
    have hi : (sth.weights_builder.intervals ++ [(sth.weight_value, sth.weight_length)]).getLast?
        = some (invalid_uint64, 0) := hl
    rw [List.getLast?_append, List.getLast?_singleton] at hi
    have hi2 : sth.weight_length = 0 := by
      simp only [Option.or, Option.some.injEq, Prod.mk.injEq] at hi
      exact hi.2
    omega

/-! ## The alphabet codec -/

/-- C16: `char_to_uint` computes `(c >> 1) & 3`, maps `A`, `C`, `T`, `G` to
0, 1, 2, 3 and returns a value of at most 3 for every byte, and
`uint64_to_char` is its inverse on the alphabet: `uint64_to_char(char_to_uint(c)) = c`
for `c` in `{A, C, G, T}` and `char_to_uint(uint64_to_char(x)) = x` for `x ≤ 3`. -/
theorem C16_char_codec :
    (∀ c, char_to_uint c = (c >>> 1) &&& 3) ∧
    char_to_uint 65 = 0 ∧ char_to_uint 67 = 1 ∧ char_to_uint 84 = 2 ∧ char_to_uint 71 = 3 ∧
    (∀ c, char_to_uint c ≤ 3) ∧
    (∀ c, c ∈ [65, 67, 71, 84] → uint64_to_char (char_to_uint c) = c) ∧
    (∀ x, x ≤ 3 → char_to_uint (uint64_to_char x) = x) := by
  refine ⟨fun _ => rfl, rfl, rfl, rfl, rfl, fun c => Nat.and_le_right, ?_, ?_⟩
  · intro c hc
    simp only [List.mem_cons, List.mem_singleton, List.not_mem_nil, or_false] at hc
    rcases hc with rfl | rfl | rfl | rfl <;> rfl
  · intro x hx
    interval_cases x <;> rfl

/-- C16 at the base `G` and at the code 2. -/
theorem C16_char_codec_witness :
    (71 ∈ [65, 67, 71, 84] ∧ uint64_to_char (char_to_uint 71) = 71) ∧
    (2 ≤ 3 ∧ char_to_uint (uint64_to_char 2) = 2) :=
  ⟨⟨by decide, C16_char_codec.2.2.2.2.2.2.1 71 (by decide)⟩,
   ⟨by decide, C16_char_codec.2.2.2.2.2.2.2 2 (by decide)⟩⟩

set_option maxRecDepth 100000 in
/-- What the forward table holds at the index a byte is converted to: a
non-zero value exactly for the bytes `A`, `C`, `G`, `T`; the read is outside
the table exactly for the bytes from 128 on where `char` is signed. -/
theorem forward_map_lookup : ∀ (cs : Bool), ∀ b < 256,
    table_at canonicalize_basepair_forward_map (char_to_int cs b)
      = if cs && decide (128 ≤ b) then none
        else some (if b ∈ [65, 67, 71, 84] then b else 0) := by
  decide

theorem getD_byte (str : List Nat) (hb : ∀ b ∈ str, b < 256) (i : Nat) :
    str.getD i 0 < 256 := by
  rw [List.getD_eq_getElem?_getD]
  cases h : str[i]? with
  | none => exact Nat.succ_pos 255
  | some b => exact hb b (List.getElem?_mem h)

theorem forall_lt_succ_shift (P : Nat → Prop) (n i : Nat) :
    (∀ j < n + 1, P (i + j)) ↔ P i ∧ ∀ j < n, P (i + 1 + j) := by
  constructor
  · intro h
    refine ⟨h 0 (Nat.succ_pos n), fun j hj => ?_⟩
    have := h (j + 1) (by omega)
    rwa [show i + (j + 1) = i + 1 + j by omega] at this
  · rintro ⟨h0, h⟩ j hj
    cases j with
    | zero => exact h0
    | succ j =>
      have := h j (by omega)
      rwa [show i + 1 + j = i + (j + 1) by omega] at this

theorem mem_acgt (b : Nat) : b ∈ [65, 67, 71, 84] ↔ b = 65 ∨ b = 67 ∨ b = 71 ∨ b = 84 := by
  simp

/-- One iteration of the loop of `is_valid`. -/
theorem is_valid_loop_succ (cs : Bool) (str : List Nat) (hb : ∀ b ∈ str, b < 256)
    (n i : Nat) :
    is_valid_loop cs str (n + 1) i
      = if (cs && decide (128 ≤ str.getD i 0)) = true then none
        else if str.getD i 0 ∈ [65, 67, 71, 84] then is_valid_loop cs str n (i + 1)
        else some false := by
  rw [is_valid_loop, forward_map_lookup cs _ (getD_byte str hb i)]
  generalize str.getD i 0 = b
  by_cases h1 : (cs && decide (128 ≤ b)) = true
  · rw [if_pos h1, if_pos h1]
  · rw [if_neg h1, if_neg h1]
    by_cases h2 : b ∈ [65, 67, 71, 84]
    · have hne : b ≠ 0 := by
        rw [mem_acgt] at h2
        omega
      simp only [if_pos h2, if_neg hne]
    · simp only [if_neg h2, if_true]

/-- The loop of `is_valid` returns true exactly when all the bytes it visits
are among `A`, `C`, `G`, `T`, whether `char` is signed or not. -/
theorem is_valid_loop_true_iff (cs : Bool) (str : List Nat) (hb : ∀ b ∈ str, b < 256) :
    ∀ (n i : Nat), is_valid_loop cs str n i = some true
      ↔ ∀ j < n, str.getD (i + j) 0 ∈ [65, 67, 71, 84] := by
  intro n
  induction n with
  | zero =>
    intro i
    exact ⟨fun _ j hj => absurd hj (Nat.not_lt_zero j), fun _ => rfl⟩
  | succ n ih =>
    intro i
    rw [forall_lt_succ_shift (fun t => str.getD t 0 ∈ [65, 67, 71, 84]) n i, ← ih (i + 1),
      is_valid_loop_succ cs str hb]
    generalize str.getD i 0 = b
    by_cases h1 : (cs && decide (128 ≤ b)) = true
    · rw [if_pos h1]
      have h128 : 128 ≤ b := by
        rw [Bool.and_eq_true] at h1
        exact of_decide_eq_true h1.2
      constructor
      · intro h; cases h
      · rintro ⟨h, _⟩
        rw [mem_acgt] at h
        omega
    · rw [if_neg h1]
      by_cases h2 : b ∈ [65, 67, 71, 84]
      · rw [if_pos h2]
        exact ⟨fun h => ⟨h2, h⟩, fun h => h.2⟩
      · rw [if_neg h2]
        constructor
        · intro h; cases h
        · rintro ⟨h, _⟩
          exact absurd h h2

/-- Where no read falls outside the table (`char` unsigned, or all visited
bytes below 128) the loop of `is_valid` returns whether all the bytes it visits
are among `A`, `C`, `G`, `T`. -/
theorem is_valid_loop_in_table (cs : Bool) (str : List Nat) (hb : ∀ b ∈ str, b < 256) :
    ∀ (n i : Nat), (cs = false ∨ ∀ j < n, str.getD (i + j) 0 < 128) →
      is_valid_loop cs str n i
        = some (decide (∀ j < n, str.getD (i + j) 0 ∈ [65, 67, 71, 84])) := by
  intro n
  induction n with
  | zero =>
    intro i _
    rw [is_valid_loop]
    exact congrArg some (decide_eq_true (fun j hj => absurd hj (Nat.not_lt_zero j))).symm
  | succ n ih =>
    intro i h
    have h1 : ¬ ((cs && decide (128 ≤ str.getD i 0)) = true) := by
      rw [Bool.and_eq_true]
      rintro ⟨hc, h128⟩
      have h128 := of_decide_eq_true h128
      rcases h with h | h
      · rw [h] at hc; cases hc
      · have := h 0 (Nat.succ_pos n)
        rw [Nat.add_zero] at this
        omega
    have h' : cs = false ∨ ∀ j < n, str.getD (i + 1 + j) 0 < 128 := by
      rcases h with h | h
      · exact Or.inl h
      · right
        intro j hj
        have := h (j + 1) (by omega)
        rwa [show i + (j + 1) = i + 1 + j by omega] at this
    rw [is_valid_loop_succ cs str hb, if_neg h1]
    by_cases h2 : str.getD i 0 ∈ [65, 67, 71, 84]
    · rw [if_pos h2, ih (i + 1) h']
      congr 1
      apply Bool.eq_iff_iff.2
      rw [decide_eq_true_iff, decide_eq_true_iff,
        forall_lt_succ_shift (fun t => str.getD t 0 ∈ [65, 67, 71, 84]) n i]
      exact ⟨fun h => ⟨h2, h⟩, fun h => h.2⟩
    · rw [if_neg h2]
      congr 1
      symm
      apply decide_eq_false
      intro h
      exact h2 (h 0 (Nat.succ_pos n))

/-- Where no read falls outside the table, `is_valid(str, size)` returns whether
each of the first `size` bytes is one of `A`, `C`, `G`, `T`. -/
theorem is_valid_in_table (cs : Bool) (str : List Nat) (hb : ∀ b ∈ str, b < 256) (size : Nat)
    (h : cs = false ∨ ∀ j < size, str.getD j 0 < 128) :
    is_valid cs str size = some (decide (∀ j < size, str.getD j 0 ∈ [65, 67, 71, 84])) := by
  have := is_valid_loop_in_table cs str hb size 0 (by simp only [Nat.zero_add]; exact h)
  simp only [Nat.zero_add] at this
  exact this

/-- `is_valid(str, size)` returns true exactly when each of the first `size`
bytes is one of `A`, `C`, `G`, `T`. -/
theorem is_valid_true_iff (cs : Bool) (str : List Nat) (hb : ∀ b ∈ str, b < 256) (size : Nat) :
    is_valid cs str size = some true ↔ ∀ j < size, str.getD j 0 ∈ [65, 67, 71, 84] := by
  have := is_valid_loop_true_iff cs str hb size 0
  simp only [Nat.zero_add] at this
  exact this

/-- C19 fails where `char` is signed. `is_valid` converts each byte with
`int c = str[i]` and reads `canonicalize_basepair_forward_map[c]`: for the
byte 200 the index is `-56`, outside the table of 256 entries, so what the
function returns is not defined, whereas the claim has it return false. Where
`char` is unsigned the read is inside the table and the result is false. -/
theorem C19_is_valid_signed_char :
    char_to_int true 200 = -56 ∧
    table_at canonicalize_basepair_forward_map (char_to_int true 200) = none ∧
    is_valid true [200] 1 = none ∧
    is_valid false [200] 1 = some false :=
  ⟨by decide, by decide, by decide, by decide⟩

/-- C20 fails for the bases `G` and `T`: the string `G` is lexicographically
smaller than the string `T`, but `char_to_uint` gives `G` the code 3 and `T`
the code 2, so `string_to_uint_kmer` maps `G` to 3 and `T` to 2. -/
theorem C20_order_not_preserved :
    [71] < [84] ∧ string_to_uint_kmer [71] 1 = 3 ∧ string_to_uint_kmer [84] 1 = 2 ∧
    ¬ (string_to_uint_kmer [71] 1 < string_to_uint_kmer [84] 1) :=
  ⟨by decide, by decide, by decide, by decide⟩

/-! ## The two packings of a k-mer -/

theorem char_to_uint_lt (c : Nat) : char_to_uint c < 2 ^ 2 :=
  Nat.lt_succ_of_le (Nat.and_le_right)

theorem char_to_uint_testBit_high (c j : Nat) (hj : 2 ≤ j) :
    (char_to_uint c).testBit j = false :=
  Nat.testBit_lt_two_pow
    (Nat.lt_of_lt_of_le (char_to_uint_lt c) (Nat.pow_le_pow_right (by norm_num) hj))

theorem string_to_uint_kmer_no_reverse_succ (s : List Nat) (k : Nat) :
    string_to_uint_kmer_no_reverse s (k + 1)
      = (string_to_uint_kmer_no_reverse s k
          + (char_to_uint (s.getD k 0) <<< (2 * k)) % two128) % two128 := by
  unfold string_to_uint_kmer_no_reverse
  rw [List.range_succ, List.foldl_append]
  rfl

/-- The bits of `string_to_uint_kmer_no_reverse(s, k)` for `k ≤ 64`: the code
of `s[i]` sits at the bits `2i` and `2i + 1`, and nothing is set from bit `2k` on. -/
theorem string_to_uint_kmer_no_reverse_bits (s : List Nat) :
    ∀ k ≤ 64, string_to_uint_kmer_no_reverse s k < 2 ^ (2 * k) ∧
      ∀ j, (string_to_uint_kmer_no_reverse s k).testBit j
        = (decide (j / 2 < k) && (char_to_uint (s.getD (j / 2) 0)).testBit (j % 2)) := by
  intro k
  induction k with
  | zero =>
    intro _
    have h0 : string_to_uint_kmer_no_reverse s 0 = 0 := rfl
    refine ⟨by rw [h0]; exact Nat.one_pos, fun j => ?_⟩
    rw [h0, Nat.zero_testBit]
    simp
  | succ k ih =>
    intro hk
    obtain ⟨hlt, hbits⟩ := ih (by omega)
    have hc := char_to_uint_lt (s.getD k 0)
    have hp : (2 : Nat) ^ (2 * k + 2) ≤ 2 ^ 128 := Nat.pow_le_pow_right (by norm_num) (by omega)
    have hpow : (2 : Nat) ^ (2 * k + 2) = 2 ^ (2 * k) * 4 := by rw [Nat.pow_add]
    have hsum : 2 ^ (2 * k) * char_to_uint (s.getD k 0) + string_to_uint_kmer_no_reverse s k
        < 2 ^ (2 * k + 2) := by
      rw [hpow]
      have : 2 ^ (2 * k) * char_to_uint (s.getD k 0) ≤ 2 ^ (2 * k) * 3 :=
        Nat.mul_le_mul_left _ (by omega)
      omega
    have hval : string_to_uint_kmer_no_reverse s (k + 1)
        = 2 ^ (2 * k) * char_to_uint (s.getD k 0) + string_to_uint_kmer_no_reverse s k := by
      rw [string_to_uint_kmer_no_reverse_succ, Nat.shiftLeft_eq, Nat.mul_comm _ (2 ^ (2 * k))]
      unfold two128
      rw [Nat.mod_eq_of_lt (by omega), Nat.add_comm, Nat.mod_eq_of_lt (by omega)]
    refine ⟨by rw [hval, show 2 * (k + 1) = 2 * k + 2 by omega]; exact hsum, fun j => ?_⟩
    rw [hval, Nat.testBit_mul_pow_two_add _ hlt]
    by_cases hj : j < 2 * k
    · rw [if_pos hj, hbits]
      have h1 : decide (j / 2 < k) = true := decide_eq_true (by omega)
      have h2 : decide (j / 2 < k + 1) = true := decide_eq_true (by omega)
      rw [h1, h2]
    · rw [if_neg hj]
      by_cases hj2 : j / 2 = k
      · have h2 : decide (j / 2 < k + 1) = true := decide_eq_true (by omega)
        rw [h2, hj2, show j - 2 * k = j % 2 by omega]
        rfl
      · have h2 : decide (j / 2 < k + 1) = false := decide_eq_false (by omega)
        rw [h2, char_to_uint_testBit_high _ _ (by omega)]
        rfl

theorem getD_take_drop (s : List Nat) (i m j : Nat) (hj : j < m) :
    ((s.drop i).take m).getD j 0 = s.getD (i + j) 0 := by
  rw [List.getD_eq_getElem?_getD, List.getD_eq_getElem?_getD, List.getElem?_take_of_lt hj,
    List.getElem?_drop]

/-- C17: for a string `s` of length `k ≤ 63`, the packed k-mer
`x = string_to_uint_kmer_no_reverse(s, k)` holds the code of `s[i]` in its bits
`[2i, 2i + 2)` for every `i < k`, is below `4^k`, and for `m ≤ k` and
`i ≤ k - m` the value `(x >> 2i) & (4^m - 1)` is `string_to_uint_kmer_no_reverse`
of the m-mer `s[i, i + m)`. (Every byte has a code, so the bytes of `s` need not
be restricted to the alphabet.) -/
theorem C17_no_reverse_layout (s : List Nat) (k : Nat) (hlen : s.length = k) (hk : k ≤ 63) :
    (∀ i (hi : i < k), (string_to_uint_kmer_no_reverse s k >>> (2 * i)) &&& 3
        = char_to_uint (s.get ⟨i, by omega⟩)) ∧
    string_to_uint_kmer_no_reverse s k < 4 ^ k ∧
    (∀ m i, m ≤ k → i ≤ k - m →
      (string_to_uint_kmer_no_reverse s k >>> (2 * i)) &&& (4 ^ m - 1)
        = string_to_uint_kmer_no_reverse ((s.drop i).take m) m) := by
  obtain ⟨hlt, hbits⟩ := string_to_uint_kmer_no_reverse_bits s k (by omega)
  refine ⟨fun i hi => ?_, by rw [four_pow]; exact hlt, fun m i hm hi => ?_⟩
  · have hget : s.get ⟨i, by omega⟩ = s.getD i 0 := by
      rw [List.getD_eq_getElem s 0 (by omega)]
      rfl
    rw [hget]
    apply Nat.eq_of_testBit_eq
    intro j
    have h3 : (3 : Nat) = 2 ^ 2 - 1 := rfl
    rw [Nat.testBit_and, Nat.testBit_shiftRight, hbits, h3, Nat.testBit_two_pow_sub_one]
    by_cases hj : j < 2
    · have e1 : (2 * i + j) / 2 = i := by omega
      have e2 : (2 * i + j) % 2 = j := by omega
      rw [e1, e2, decide_eq_true hi, decide_eq_true hj, Bool.true_and, Bool.and_true]
    · rw [decide_eq_false hj, Bool.and_false, char_to_uint_testBit_high _ _ (by omega)]
  · obtain ⟨_, hbits'⟩ := string_to_uint_kmer_no_reverse_bits ((s.drop i).take m) m (by omega)
    apply Nat.eq_of_testBit_eq
    intro j
    rw [Nat.testBit_and, Nat.testBit_shiftRight, hbits, hbits', four_pow,
      Nat.testBit_two_pow_sub_one]
    by_cases hj : j < 2 * m
    · have e1 : (2 * i + j) / 2 = i + j / 2 := by omega
      have e2 : (2 * i + j) % 2 = j % 2 := by omega
      have h1 : i + j / 2 < k := by omega
      have h2 : j / 2 < m := by omega
      rw [e1, e2, decide_eq_true h1, decide_eq_true hj, decide_eq_true h2,
        getD_take_drop s i m (j / 2) h2, Bool.true_and, Bool.and_true]
    · have h2 : ¬ j / 2 < m := by omega
      rw [decide_eq_false hj, decide_eq_false h2, Bool.and_false, Bool.false_and]

/-- C17 on the 5-mer `ACGTA` and its 3-mer `CGT` at index 1. -/
theorem C17_no_reverse_layout_witness :
    ([65, 67, 71, 84, 65] : List Nat).length = 5 ∧ 5 ≤ 63 ∧ 3 ≤ 5 ∧ 1 ≤ 5 - 3 ∧
    (string_to_uint_kmer_no_reverse [65, 67, 71, 84, 65] 5 >>> (2 * 1)) &&& (4 ^ 3 - 1)
      = string_to_uint_kmer_no_reverse [67, 71, 84] 3 :=
  ⟨rfl, by decide, by decide, by decide,
    (C17_no_reverse_layout [65, 67, 71, 84, 65] 5 rfl (by decide)).2.2 3 1
      (by decide) (by decide)⟩

/-! ## The reverse complement of a string and of its packing -/

theorem string_to_uint_kmer_succ (s : List Nat) (k : Nat) :
    string_to_uint_kmer s (k + 1)
      = ((string_to_uint_kmer s k <<< 2) % two128 + char_to_uint (s.getD k 0)) % two128 := by
  unfold string_to_uint_kmer
  rw [List.range_succ, List.foldl_append]
  rfl

/-- The bits of `string_to_uint_kmer(s, k)` for `k ≤ 64`: the code of `s[i]`
sits at the bits `2(k - 1 - i)` and `2(k - 1 - i) + 1`, and nothing is set from
bit `2k` on. -/
theorem string_to_uint_kmer_bits (s : List Nat) :
    ∀ k ≤ 64, string_to_uint_kmer s k < 2 ^ (2 * k) ∧
      ∀ j, (string_to_uint_kmer s k).testBit j
        = (decide (j / 2 < k) && (char_to_uint (s.getD (k - 1 - j / 2) 0)).testBit (j % 2)) := by
  intro k
  induction k with
  | zero =>
    intro _
    have h0 : string_to_uint_kmer s 0 = 0 := rfl
    refine ⟨by rw [h0]; exact Nat.one_pos, fun j => ?_⟩
    rw [h0, Nat.zero_testBit]
    simp
  | succ k ih =>
    intro hk
    obtain ⟨hlt, hbits⟩ := ih (by omega)
    have hc := char_to_uint_lt (s.getD k 0)
    have hp : (2 : Nat) ^ (2 * k + 2) ≤ 2 ^ 128 := Nat.pow_le_pow_right (by norm_num) (by omega)
    have hpow : (2 : Nat) ^ (2 * k + 2) = 2 ^ (2 * k) * 4 := by rw [Nat.pow_add]
    have hval : string_to_uint_kmer s (k + 1)
        = 2 ^ 2 * string_to_uint_kmer s k + char_to_uint (s.getD k 0) := by
      rw [string_to_uint_kmer_succ, Nat.shiftLeft_eq, Nat.mul_comm _ (2 ^ 2)]
      unfold two128
      rw [Nat.mod_eq_of_lt (by omega), Nat.mod_eq_of_lt (by omega)]
    refine ⟨by rw [hval, show 2 * (k + 1) = 2 * k + 2 by omega]; omega, fun j => ?_⟩
    rw [hval, Nat.testBit_mul_pow_two_add _ hc]
    by_cases hj : j < 2
    · rw [if_pos hj]
      have e1 : j / 2 = 0 := by omega
      have e2 : j % 2 = j := by omega
      rw [e1, e2, decide_eq_true (Nat.succ_pos k), Bool.true_and]
      rfl
    · rw [if_neg hj, hbits]
      have e2 : (j - 2) % 2 = j % 2 := by omega
      rw [e2]
      by_cases hjk : j / 2 < k + 1
      · have h1 : (j - 2) / 2 < k := by omega
        have e3 : k - 1 - (j - 2) / 2 = k + 1 - 1 - j / 2 := by omega
        rw [decide_eq_true hjk, decide_eq_true h1, e3]
      · have h1 : ¬ (j - 2) / 2 < k := by omega
        rw [decide_eq_false hjk, decide_eq_false h1, Bool.false_and, Bool.false_and]

/-- What the reverse table holds at the index a base is converted to. -/
theorem reverse_map_lookup (cs : Bool) (b : Nat) (hb : b ∈ [65, 67, 71, 84]) :
    table_at canonicalize_basepair_reverse_map (char_to_int cs b) = some (complement_base b) := by
  rw [mem_acgt] at hb
  rcases hb with rfl | rfl | rfl | rfl <;> cases cs <;> decide

/-- The code of the complement of a base is the code of the base with its
high bit flipped. -/
theorem char_to_uint_complement (b t : Nat) (hb : b ∈ [65, 67, 71, 84]) :
    (char_to_uint (complement_base b)).testBit t
      = ((char_to_uint b).testBit t != decide (t = 1)) := by
  rw [mem_acgt] at hb
  by_cases ht : t < 2
  · interval_cases t <;> rcases hb with rfl | rfl | rfl | rfl <;> decide
  · rw [char_to_uint_testBit_high _ _ (by omega), char_to_uint_testBit_high _ _ (by omega),
      decide_eq_false (by omega)]
    rfl

/-- The first `n` iterations of the loop of the character-level
`compute_reverse_complement`: the last `n` bytes of the buffer hold the
complements of the first `n` bases, in reverse order. -/
theorem compute_reverse_complement_str_loop (cs : Bool) (s out : List Nat) (size : Nat)
    (hout : out.length = size) (hs : ∀ j < size, s.getD j 0 ∈ [65, 67, 71, 84]) :
    ∀ n ≤ size, ∃ o,
      (List.range n).foldl
        (fun out i =>
          match out, table_at canonicalize_basepair_reverse_map
              (char_to_int cs (s.getD i 0)) with
          | some o, some v => some (o.set (size - i - 1) v)
          | _, _ => none)
        (some out) = some o ∧
      o.length = size ∧
      ∀ j, size - n ≤ j → j < size → o.getD j 0 = complement_base (s.getD (size - 1 - j) 0) := by
  intro n
  induction n with
  | zero =>
    intro _
    exact ⟨out, rfl, hout, fun j h1 h2 => by omega⟩
  | succ n ih =>
    intro hn
    obtain ⟨o, ho, hlen, hget⟩ := ih (by omega)
    refine ⟨o.set (size - n - 1) (complement_base (s.getD n 0)), ?_, ?_, ?_⟩
    · rw [List.range_succ, List.foldl_append, ho, List.foldl_cons, List.foldl_nil,
        reverse_map_lookup cs _ (hs n (by omega))]
    · rw [List.length_set, hlen]
    · intro j h1 h2
      by_cases hj : j = size - n - 1
      · subst hj
        rw [List.getD_eq_getElem?_getD, List.getElem?_set_self (by omega),
          show size - 1 - (size - n - 1) = n by omega]
        rfl
      · rw [List.getD_eq_getElem?_getD, List.getElem?_set_ne (fun h => hj h.symm),
          ← List.getD_eq_getElem?_getD]
        exact hget j (by omega) h2

/-- The character-level `compute_reverse_complement` on a string of bases:
the output is the input reversed, each base replaced by its complement. -/
theorem compute_reverse_complement_str_spec (cs : Bool) (s out : List Nat) (size : Nat)
    (hout : out.length = size) (hs : ∀ j < size, s.getD j 0 ∈ [65, 67, 71, 84]) :
    ∃ r, compute_reverse_complement_str cs s out size = some r ∧ r.length = size ∧
      ∀ j < size, r.getD j 0 = complement_base (s.getD (size - 1 - j) 0) := by
  obtain ⟨o, ho, hlen, hget⟩ :=
    compute_reverse_complement_str_loop cs s out size hout hs size (Nat.le_refl size)
  exact ⟨o, ho, hlen, fun j hj => hget j (by omega) hj⟩

/-- C18: for a string `s` of `size` bases, `1 ≤ size ≤ 32`, the character-level
`compute_reverse_complement` returns the string `r` of the complements of the
bases of `s` in reverse order, and the integer-level `compute_reverse_complement`
of `string_to_uint_kmer(s, size)` is `string_to_uint_kmer(r, size)`; `ACTCACG`
(`00011001000111`) gives `CGTGAGT` (`01111011001110`). -/
theorem C18_reverse_complement_refines (cs : Bool) (s out : List Nat) (size : Nat)
    (h1 : 1 ≤ size) (h32 : size ≤ 32) (hlen : s.length = size) (hout : out.length = size)
    (hs : ∀ c ∈ s, c ∈ [65, 67, 71, 84]) :
    (∃ r, compute_reverse_complement_str cs s out size = some r ∧ r.length = size ∧
      (∀ j < size, r.getD j 0 = complement_base (s.getD (size - 1 - j) 0)) ∧
      compute_reverse_complement (string_to_uint_kmer s size) size
        = string_to_uint_kmer r size) ∧
    string_to_uint_kmer [65, 67, 84, 67, 65, 67, 71] 7 = 0b00011001000111 ∧
    compute_reverse_complement 0b00011001000111 7 = 0b01111011001110 ∧
    compute_reverse_complement_str cs [65, 67, 84, 67, 65, 67, 71] (List.replicate 7 0) 7
      = some [67, 71, 84, 71, 65, 71, 84] ∧
    string_to_uint_kmer [67, 71, 84, 71, 65, 71, 84] 7 = 0b01111011001110 := by
  have hs' : ∀ j < size, s.getD j 0 ∈ [65, 67, 71, 84] := by
    intro j hj
    rw [List.getD_eq_getElem s 0 (by omega)]
    exact hs _ (List.getElem_mem _)
  refine ⟨?_, by decide, by decide, by cases cs <;> decide, by decide⟩
  obtain ⟨r, hr, hrlen, hrget⟩ := compute_reverse_complement_str_spec cs s out size hout hs'
  refine ⟨r, hr, hrlen, hrget, ?_⟩
  obtain ⟨hxlt, hxbits⟩ := string_to_uint_kmer_bits s size (by omega)
  obtain ⟨_, hybits⟩ := string_to_uint_kmer_bits r size (by omega)
  have hx64 : string_to_uint_kmer s size < 2 ^ 64 :=
    Nat.lt_of_lt_of_le hxlt (Nat.pow_le_pow_right (by norm_num) (by omega))
  apply Nat.eq_of_testBit_eq
  intro i
  rw [compute_reverse_complement_testBit _ size h32, Nat.mod_eq_of_lt hx64, hxbits, hybits]
  by_cases hi : i < 2 * size
  · have e1 : (2 * (size - 1 - i / 2) + i % 2) / 2 = size - 1 - i / 2 := by omega
    have e2 : (2 * (size - 1 - i / 2) + i % 2) % 2 = i % 2 := by omega
    have e3 : size - 1 - (size - 1 - i / 2) = i / 2 := by omega
    have h2 : i / 2 < size := by omega
    have h3 : size - 1 - i / 2 < size := by omega
    rw [e1, e2, e3, decide_eq_true hi, decide_eq_true h2, decide_eq_true h3,
      hrget _ h3, e3, char_to_uint_complement _ _ (hs' _ h2), Bool.true_and, Bool.true_and,
      Bool.true_and]
  · have h2 : ¬ i / 2 < size := by omega
    rw [decide_eq_false hi, decide_eq_false h2, Bool.false_and, Bool.false_and]

/-- C18 on the string `ACTCACG` of the comment in the source. -/
theorem C18_reverse_complement_refines_witness :
    1 ≤ 7 ∧ 7 ≤ 32 ∧
    ∃ r, compute_reverse_complement_str true [65, 67, 84, 67, 65, 67, 71]
        (List.replicate 7 0) 7 = some r ∧
      compute_reverse_complement (string_to_uint_kmer [65, 67, 84, 67, 65, 67, 71] 7) 7
        = string_to_uint_kmer r 7 := by
  obtain ⟨r, hr, _, _, h⟩ := (C18_reverse_complement_refines true [65, 67, 84, 67, 65, 67, 71]
    (List.replicate 7 0) 7 (by decide) (by decide) rfl rfl (by decide)).1
  exact ⟨by decide, by decide, r, hr, h⟩

/-! ## The errors of the parser -/

/-- `parse_header` on a non-empty header line that passes the checks. -/
theorem parse_header_accepted (cfg : build_configuration) (st : parse_state)
    (hne : st.sequence ≠ []) (h : header_accepted st.sequence) :
    parse_header cfg st
      = .ok (weights_loop
          ((strtoull (st.sequence.drop (find_first_of st.sequence 32 0 + 1 + 5))
            + two64 - cfg.k % two64 + 1) % two64)
          { st with seq_len :=
              strtoull (st.sequence.drop (find_first_of st.sequence 32 0 + 1 + 5)) }
          (find_first_of st.sequence 32 (find_first_of st.sequence 32 0 + 1 + 5) + 1 + 5)) := by
  obtain ⟨h0, h1, h2, h3, h4, h5, h6, h7, h8, h9, h10, h11, h12⟩ := h
  have hemp : st.sequence.isEmpty = false := by
    cases hs : st.sequence with
    | nil => exact absurd hs hne
    | cons a b => rfl
  unfold parse_header
  simp only [hemp, Bool.false_eq_true, if_false, h0, h1, h2, h3, h4, h5, h6, h7, h8, h9, h10,
    h11, h12, expect_self, bind, Except.bind, pure, Except.pure]

/-- `parse_header` on a non-empty header line that fails a check. -/
theorem parse_header_rejected (cfg : build_configuration) (st : parse_state)
    (hne : st.sequence ≠ []) (h : ¬ header_accepted st.sequence) :
    parse_header cfg st = .error .parse_runtime_error := by
  have hemp : st.sequence.isEmpty = false := by
    cases hs : st.sequence with
    | nil => exact absurd hs hne
    | cons a b => rfl
  unfold parse_header
  simp only [hemp, Bool.false_eq_true, if_false, bind, Except.bind, expect, pure, Except.pure,
    throw, throwThe, MonadExceptOf.throw]
  by_cases c0 : st.sequence.getD 0 0 = 62
  swap
  · simp only [c0, if_false]
  simp only [c0, if_true]
  by_cases c1 : find_first_of st.sequence 32 0 = npos
  · simp only [c1, if_true]
  simp only [c1, if_false]
  by_cases c2 : st.sequence.getD (find_first_of st.sequence 32 0 + 1 + 0) 0 = 76
  swap
  · simp only [c2, if_false]
  simp only [c2, if_true]
  by_cases c3 : st.sequence.getD (find_first_of st.sequence 32 0 + 1 + 1) 0 = 78
  swap
  · simp only [c3, if_false]
  simp only [c3, if_true]
  by_cases c4 : st.sequence.getD (find_first_of st.sequence 32 0 + 1 + 2) 0 = 58
  swap
  · simp only [c4, if_false]
  simp only [c4, if_true]
  by_cases c5 : st.sequence.getD (find_first_of st.sequence 32 0 + 1 + 3) 0 = 105
  swap
  · simp only [c5, if_false]
  simp only [c5, if_true]
  by_cases c6 : st.sequence.getD (find_first_of st.sequence 32 0 + 1 + 4) 0 = 58
  swap
  · simp only [c6, if_false]
  simp only [c6, if_true]
  by_cases c7 : find_first_of st.sequence 32 (find_first_of st.sequence 32 0 + 1 + 5) = npos
  · simp only [c7, if_true]
  simp only [c7, if_false]
  by_cases c8 : st.sequence.getD (find_first_of st.sequence 32 (find_first_of st.sequence 32 0 + 1 + 5) + 1 + 0) 0 = 97
  swap
  · simp only [c8, if_false]
  simp only [c8, if_true]
  by_cases c9 : st.sequence.getD (find_first_of st.sequence 32 (find_first_of st.sequence 32 0 + 1 + 5) + 1 + 1) 0 = 98
  swap
  · simp only [c9, if_false]
  simp only [c9, if_true]
  by_cases c10 : st.sequence.getD (find_first_of st.sequence 32 (find_first_of st.sequence 32 0 + 1 + 5) + 1 + 2) 0 = 58
  swap
  · simp only [c10, if_false]
  simp only [c10, if_true]
  by_cases c11 : st.sequence.getD (find_first_of st.sequence 32 (find_first_of st.sequence 32 0 + 1 + 5) + 1 + 3) 0 = 90
  swap
  · simp only [c11, if_false]
  simp only [c11, if_true]
  by_cases c12 : st.sequence.getD (find_first_of st.sequence 32 (find_first_of st.sequence 32 0 + 1 + 5) + 1 + 4) 0 = 58
  swap
  · simp only [c12, if_false]
  simp only [c12, if_true]
  exact absurd ⟨c0, c1, c2, c3, c4, c5, c6, c7, c8, c9, c10, c11, c12⟩ h

/-- The state `parse_header` is left with on a header line that fails a check:
nothing but the declared length may have changed. -/
theorem parse_header_state_rejected (cfg : build_configuration) (st : parse_state)
    (hne : st.sequence ≠ []) (h : ¬ header_accepted st.sequence) :
    parse_header_state cfg st = st ∨
    parse_header_state cfg st
      = { st with
          seq_len := strtoull (st.sequence.drop (find_first_of st.sequence 32 0 + 1 + 5)) } := by
  have hemp : st.sequence.isEmpty = false := by
    cases hs : st.sequence with
    | nil => exact absurd hs hne
    | cons a b => rfl
  unfold parse_header_state
  simp only [hemp, Bool.false_eq_true, if_false, ne_eq]
  by_cases c0 : st.sequence.getD 0 0 = 62
  swap
  · simp only [c0, not_false_eq_true, if_true, true_or, or_true]
  simp only [c0, not_true_eq_false, if_false]
  by_cases c1 : find_first_of st.sequence 32 0 = npos
  · simp only [c1, if_true, true_or, or_true]
  simp only [c1, if_false]
  by_cases c2 : st.sequence.getD (find_first_of st.sequence 32 0 + 1 + 0) 0 = 76
  swap
  · simp only [c2, not_false_eq_true, if_true, true_or, or_true]
  simp only [c2, not_true_eq_false, if_false]
  by_cases c3 : st.sequence.getD (find_first_of st.sequence 32 0 + 1 + 1) 0 = 78
  swap
  · simp only [c3, not_false_eq_true, if_true, true_or, or_true]
  simp only [c3, not_true_eq_false, if_false]
  by_cases c4 : st.sequence.getD (find_first_of st.sequence 32 0 + 1 + 2) 0 = 58
  swap
  · simp only [c4, not_false_eq_true, if_true, true_or, or_true]
  simp only [c4, not_true_eq_false, if_false]
  by_cases c5 : st.sequence.getD (find_first_of st.sequence 32 0 + 1 + 3) 0 = 105
  swap
  · simp only [c5, not_false_eq_true, if_true, true_or, or_true]
  simp only [c5, not_true_eq_false, if_false]
  by_cases c6 : st.sequence.getD (find_first_of st.sequence 32 0 + 1 + 4) 0 = 58
  swap
  · simp only [c6, not_false_eq_true, if_true, true_or, or_true]
  simp only [c6, not_true_eq_false, if_false]
  by_cases c7 : find_first_of st.sequence 32 (find_first_of st.sequence 32 0 + 1 + 5) = npos
  · simp only [c7, if_true, true_or, or_true]
  simp only [c7, if_false]
  by_cases c8 : st.sequence.getD (find_first_of st.sequence 32 (find_first_of st.sequence 32 0 + 1 + 5) + 1 + 0) 0 = 97
  swap
  · simp only [c8, not_false_eq_true, if_true, true_or, or_true]
  simp only [c8, not_true_eq_false, if_false]
  by_cases c9 : st.sequence.getD (find_first_of st.sequence 32 (find_first_of st.sequence 32 0 + 1 + 5) + 1 + 1) 0 = 98
  swap
  · simp only [c9, not_false_eq_true, if_true, true_or, or_true]
  simp only [c9, not_true_eq_false, if_false]
  by_cases c10 : st.sequence.getD (find_first_of st.sequence 32 (find_first_of st.sequence 32 0 + 1 + 5) + 1 + 2) 0 = 58
  swap
  · simp only [c10, not_false_eq_true, if_true, true_or, or_true]
  simp only [c10, not_true_eq_false, if_false]
  by_cases c11 : st.sequence.getD (find_first_of st.sequence 32 (find_first_of st.sequence 32 0 + 1 + 5) + 1 + 3) 0 = 90
  swap
  · simp only [c11, not_false_eq_true, if_true, true_or, or_true]
  simp only [c11, not_true_eq_false, if_false]
  by_cases c12 : st.sequence.getD (find_first_of st.sequence 32 (find_first_of st.sequence 32 0 + 1 + 5) + 1 + 4) 0 = 58
  swap
  · simp only [c12, not_false_eq_true, if_true, true_or, or_true]
  simp only [c12, not_true_eq_false, if_false]
  exact absurd ⟨c0, c1, c2, c3, c4, c5, c6, c7, c8, c9, c10, c11, c12⟩ h

/-- The state `parse_header` is left with on a header line that passes the
checks is the state it returns. -/
theorem parse_header_state_accepted (cfg : build_configuration) (st : parse_state)
    (hne : st.sequence ≠ []) (h : header_accepted st.sequence) :
    parse_header cfg st = .ok (parse_header_state cfg st) := by
  rw [parse_header_accepted cfg st hne h]
  obtain ⟨h0, h1, h2, h3, h4, h5, h6, h7, h8, h9, h10, h11, h12⟩ := h
  have hemp : st.sequence.isEmpty = false := by
    cases hs : st.sequence with
    | nil => exact absurd hs hne
    | cons a b => rfl
  unfold parse_header_state
  simp only [hemp, Bool.false_eq_true, if_false, ne_eq, h0, h1, h2, h3, h4, h5, h6, h7, h8, h9,
    h10, h11, h12, not_true_eq_false, not_false_eq_true]

/-- Whenever `parse_header` returns, it returns the state it is left with. -/
theorem parse_header_state_ok (cfg : build_configuration) (st st' : parse_state)
    (h : parse_header cfg st = .ok st') : parse_header_state cfg st = st' := by
  by_cases hne : st.sequence = []
  · rw [parse_header_empty cfg st hne] at h
    injection h with h
    rw [← h]
    unfold parse_header_state
    rw [hne]
    rfl
  · by_cases ha : header_accepted st.sequence
    · rw [parse_header_state_accepted cfg st hne ha] at h
      injection h
    · rw [parse_header_rejected cfg st hne ha] at h
      cases h

/-- The only exception `parse_header` throws is the parse error. -/
theorem parse_header_error (cfg : build_configuration) (st : parse_state) (e : parse_error)
    (h : parse_header cfg st = .error e) : e = .parse_runtime_error := by
  by_cases hne : st.sequence = []
  · rw [parse_header_empty cfg st hne] at h
    cases h
  · by_cases ha : header_accepted st.sequence
    · rw [parse_header_accepted cfg st hne ha] at h
      cases h
    · rw [parse_header_rejected cfg st hne ha] at h
      injection h with h
      exact h.symm

/-- The only exception the processing of a sequence line throws is the one
for a declared length that differs from the length of the line, and it is
thrown only in weighted mode for a line of at least `k` bases. -/
theorem parse_sequence_error (hash : Nat → Nat → Nat) (cfg : build_configuration)
    (nbytes : Nat) (st : parse_state) (e : parse_error)
    (h : parse_sequence hash cfg nbytes st = .error e) :
    e = .file_is_malformed ∧ cfg.weighted = true ∧ cfg.k ≤ st.sequence.length ∧
      st.seq_len ≠ st.sequence.length := by
  by_cases hk : cfg.k ≤ st.sequence.length
  · rw [parse_sequence_long hash cfg nbytes st hk] at h
    split at h
    · rename_i hc
      injection h with h
      exact ⟨h.symm, hc.1, hk, hc.2⟩
    · cases h
  · rw [parse_sequence_short hash cfg nbytes st (by omega)] at h
    cases h

/-- The main loop ends with the parse error, with the error for a wrong
declared length, or (in the model) out of fuel. -/
theorem parse_loop_error (hash : Nat → Nat → Nat) (cfg : build_configuration) (nbytes : Nat) :
    ∀ (fuel : Nat) (is : istream) (st : parse_state) (e : parse_error),
      parse_loop hash cfg nbytes fuel is st = .error e →
      e = .parse_runtime_error ∨ e = .file_is_malformed ∨ e = .fuel_exhausted := by
  intro fuel
  induction fuel with
  | zero =>
    intro is st e h
    rw [parse_loop] at h
    split at h
    · cases h
    · injection h with h
      exact Or.inr (Or.inr h.symm)
  | succ fuel ih =>
    intro is st e h
    rw [parse_loop] at h
    split at h
    · cases h
    · simp only at h
      split at h
      · rename_i e1 he1
        injection h with h
        subst h
        split at he1
        · exact Or.inl (parse_header_error cfg _ _ he1)
        · cases he1
      · split at h
        · rename_i e2 he2
          injection h with h
          subst h
          exact Or.inr (Or.inl (parse_sequence_error hash cfg nbytes _ _ he2).1)
        · exact ih _ _ _ h

/-- `parse_file` throws the configuration error exactly when the test of its
first statement fails, whatever the input. -/
theorem parse_file_does_not_fit_iff (murmur : Nat → Nat → Nat) (nbytes : Nat)
    (lines : List (List Nat)) (cfg : build_configuration) :
    parse_file murmur nbytes lines cfg = .error .does_not_fit
      ↔ (1 <<< (nbytes * 8)) % two64 ≤ (cfg.k + two64 - cfg.m % two64 + 1) % two64 := by
  unfold parse_file
  simp only
  constructor
  · intro h
    split at h
    · assumption
    · exfalso
      split at h
      · rename_i e he
        injection h with h
        subst h
        rcases parse_loop_error _ cfg nbytes _ _ _ _ he with h | h | h <;> cases h
      · split at h <;> cases h
  · intro h
    rw [if_pos h]

/-! ## Claim on the configuration -/

/-- C15 fails for three of its four conditions: with a count field of one
byte `parse_file` returns without error for `k = 65 > max_k`, for `m = 33 > 31`
and for `m = 6 > k = 5` (where `k - m + 1` is 0 and all 13 k-mers of the input
are counted). -/
theorem C15_configuration_check_counterexample :
    (∃ st, parse_file example_murmur 1 (input_lines example_records true)
      { k := 65, m := 31, seed := 1, canonical_parsing := false, weighted := false }
        = .ok st) ∧
    (∃ st, parse_file example_murmur 1 (input_lines example_records true)
      { k := 40, m := 33, seed := 1, canonical_parsing := false, weighted := false }
        = .ok st) ∧
    (∃ st, parse_file example_murmur 1 (input_lines example_records true)
      { k := 5, m := 6, seed := 1, canonical_parsing := false, weighted := false }
        = .ok st ∧ st.num_kmers = 13) :=
  ⟨⟨_, rfl⟩, ⟨_, rfl⟩, ⟨_, rfl, rfl⟩⟩

/-- C15, amended: the one configuration test of `parse_file` is its first
statement, `k - m + 1 >= 2^(8 * sizeof(count field))` with `k - m + 1` computed
in `uint64_t`. For every input, `parse_file` throws the configuration error
exactly when `m ≤ k` and `k - m + 1` does not fit the count field, or when
`m > k + 1` and the wrapped `k - m + 1` does not fit it; the exception is thrown
before the pool builder is created and before `data` is used, so no tuple, pool
or weight state is modified. `k > max_k`, `m > 31` and `m = k + 1` are not tested. -/
theorem C15_count_field_check (murmur : Nat → Nat → Nat) (nbytes : Nat)
    (lines : List (List Nat)) (cfg : build_configuration)
    (hk : cfg.k < 2 ^ 64) (hm : cfg.m < 2 ^ 64) (hn : nbytes ≤ 7) :
    parse_file murmur nbytes lines cfg = .error .does_not_fit ↔
      (cfg.m ≤ cfg.k ∧ cfg.k - cfg.m + 1 < 2 ^ 64 ∧ 2 ^ (8 * nbytes) ≤ cfg.k - cfg.m + 1) ∨
      (cfg.k + 1 < cfg.m ∧ 2 ^ (8 * nbytes) + (cfg.m - cfg.k - 1) ≤ 2 ^ 64) := by
  rw [parse_file_does_not_fit_iff]
  have hp1 : 1 ≤ 2 ^ (8 * nbytes) := Nat.one_le_two_pow
  have hp2 : 2 ^ (8 * nbytes) ≤ 2 ^ 56 := Nat.pow_le_pow_right (by norm_num) (by omega)
  have hsh : (1 <<< (nbytes * 8)) % two64 = 2 ^ (8 * nbytes) := by
    rw [Nat.shiftLeft_eq, Nat.one_mul, Nat.mul_comm nbytes 8]
    unfold two64
    exact Nat.mod_eq_of_lt (by omega)
  rw [hsh]
  unfold two64
  generalize 2 ^ (8 * nbytes) = P at hp1 hp2 ⊢
  rw [Nat.mod_eq_of_lt hm]
  omega

/-- C15 (amended) on `k = 300`, `m = 3` and a count field of one byte. -/
theorem C15_count_field_check_witness :
    parse_file example_murmur 1 (input_lines example_records true)
      { k := 300, m := 3, seed := 1, canonical_parsing := false, weighted := false }
      = .error .does_not_fit :=
  (C15_count_field_check example_murmur 1 (input_lines example_records true)
    { k := 300, m := 3, seed := 1, canonical_parsing := false, weighted := false }
    (by decide) (by decide) (by decide)).2 (Or.inl ⟨by decide, by decide, by decide⟩)

/-! ## Malformed headers -/

theorem find_first_of_found (s : List Nat) (c i : Nat) (h : find_first_of s c i ≠ npos) :
    find_first_of s c i = i + (s.drop i).indexOf c ∧ c ∈ s.drop i := by
  unfold find_first_of at h ⊢
  by_cases hc : (s.drop i).indexOf c < (s.drop i).length
  · rw [if_pos hc]
    exact ⟨rfl, List.indexOf_lt_length.1 hc⟩
  · rw [if_neg hc] at h
    exact absurd rfl h

/-- A text whose bytes from index `n` on are those of a pattern without a 0
byte starts with the pattern at `n`. -/
theorem prefix_of_getD (pat : List Nat) (h0 : 0 ∉ pat) :
    ∀ (s : List Nat) (n : Nat), (∀ t < pat.length, s.getD (n + t) 0 = pat.getD t 0) →
      pat <+: s.drop n := by
  induction pat with
  | nil => intro s n _; exact List.nil_prefix
  | cons a pat ih =>
    intro s n h
    have ha : s.getD n 0 = a := h 0 (Nat.succ_pos _)
    have hne : a ≠ 0 := fun e => h0 (e ▸ List.mem_cons_self _ _)
    have hn : n < s.length := by
      by_contra hge
      rw [List.getD_eq_default s 0 (by omega)] at ha
      exact hne ha.symm
    rw [List.getD_eq_getElem s 0 hn] at ha
    rw [List.drop_eq_getElem_cons hn, ha, List.cons_prefix_cons]
    refine ⟨rfl, ih (fun e => h0 (List.mem_cons_of_mem _ e)) s (n + 1) (fun t ht => ?_)⟩
    have := h (t + 1) (Nat.succ_lt_succ ht)
    rwa [show n + (t + 1) = n + 1 + t by omega] at this

/-- A header line that passes the checks of `parse_header` has none of the
deviations. -/
theorem header_accepted_not_malformed (s : List Nat) (h : header_accepted s) :
    ¬ header_malformed s := by
  obtain ⟨h0, h1, h2, h3, h4, h5, h6, h7, h8, h9, h10, h11, h12⟩ := h
  obtain ⟨e1, m1⟩ := find_first_of_found s 32 0 h1
  rw [List.drop_zero] at e1 m1
  rw [Nat.zero_add] at e1
  rw [e1] at h2 h3 h4 h5 h6 h7 h8 h9 h10 h11 h12
  obtain ⟨e2, m2⟩ := find_first_of_found s 32 _ h7
  rw [e2] at h8 h9 h10 h11 h12
  unfold header_malformed
  rintro (hA | hB | hC | hD | hE)
  · exact hA h0
  · exact hB m1
  · apply hC
    apply prefix_of_getD _ (by decide)
    intro t ht
    have ht5 : t < 5 := ht
    interval_cases t
    · exact h2
    · exact h3
    · exact h4
    · exact h5
    · exact h6
  · exact hD m2
  · apply hE
    apply prefix_of_getD _ (by decide)
    intro t ht
    have ht5 : t < 5 := ht
    interval_cases t
    · exact h8
    · exact h9
    · exact h10
    · exact h11
    · exact h12

/-- C13: in weighted mode, on a non-empty header line whose first byte is not
`>`, or that holds no blank, or whose text behind the first blank does not
start with `LN:i:`, or that has no blank behind the length, or whose text
behind that blank does not start with `ab:Z:`, `parse_header` throws the parse
error, and the weight builder and the pending run are as before the call: no
weight of the header has been fed. -/
theorem C13_malformed_header_rejected (cfg : build_configuration) (st : parse_state)
    (hne : st.sequence ≠ []) (h : header_malformed st.sequence) :
    parse_header cfg st = .error .parse_runtime_error ∧
    (parse_header_state cfg st).weights_builder = st.weights_builder ∧
    (parse_header_state cfg st).weight_value = st.weight_value ∧
    (parse_header_state cfg st).weight_length = st.weight_length ∧
    (parse_header_state cfg st).sum_of_weights = st.sum_of_weights := by
  have hna : ¬ header_accepted st.sequence :=
    fun ha => header_accepted_not_malformed _ ha h
  refine ⟨parse_header_rejected cfg st hne hna, ?_⟩
  rcases parse_header_state_rejected cfg st hne hna with e | e <;> rw [e] <;>
    exact ⟨rfl, rfl, rfl, rfl⟩

/-- C13 on the header `>1 LN:i:6`, which has no blank behind the length. -/
theorem C13_malformed_header_rejected_witness :
    parse_header example_weighted_cfg
      { parse_state.init example_weighted_cfg with
        sequence := [62, 49, 32, 76, 78, 58, 105, 58, 54] }
      = .error .parse_runtime_error :=
  (C13_malformed_header_rejected example_weighted_cfg
    { parse_state.init example_weighted_cfg with
      sequence := [62, 49, 32, 76, 78, 58, 105, 58, 54] }
    (by decide) (Or.inr (Or.inr (Or.inr (Or.inl (by decide)))))).1

/-! ## The declared length of a weighted record -/

/-- `strtoull` reads a number that is followed by nothing or by a non-digit,
and yields `ULLONG_MAX` when the number does not fit. -/
theorem strtoull_number_sat (ds rest : List Nat) (hn : is_number ds)
    (hrest : rest = [] ∨ ∃ c t, rest = c :: t ∧ isdigit c = false) :
    strtoull (ds ++ rest)
      = if 2 ^ 64 ≤ decimal_value ds then 2 ^ 64 - 1 else decimal_value ds := by
  obtain ⟨hne, hd⟩ := hn
  obtain ⟨d, ds', rfl⟩ := List.exists_cons_of_ne_nil hne
  have hd0 := isdigit_not_space d (hd d (List.mem_cons_self _ _))
  have htw := takeWhile_append_stop isdigit (d :: ds') rest hd hrest
  unfold strtoull
  simp only [List.cons_append, List.dropWhile_cons, hd0.1, Bool.false_eq_true, if_false,
    List.head?_cons]
  have h1 : (some d == some 45) = false := by simp [hd0.2.1]
  have h2 : (some d == some 43) = false := by simp [hd0.2.2.1]
  simp only [h1, h2, Bool.or_false, Bool.false_eq_true, if_false]
  rw [← List.cons_append, htw]
  rfl

/-- The errors of one iteration of the main loop. -/
theorem parse_record_error (hash : Nat → Nat → Nat) (cfg : build_configuration) (nbytes : Nat)
    (r : List Nat × List Nat) (st : parse_state) (e : parse_error)
    (h : parse_record hash cfg nbytes r st = .error e) :
    e = .parse_runtime_error ∨ e = .file_is_malformed := by
  unfold parse_record at h
  split at h
  · rename_i e1 he1
    injection h with h
    subst h
    split at he1
    · exact Or.inl (parse_header_error cfg _ _ he1)
    · cases he1
  · exact Or.inr (parse_sequence_error hash cfg nbytes _ _ h).1

/-- The main loop on an input in which some record makes `parse_record` fail
from every state: the loop fails, and not for lack of fuel. -/
theorem parse_loop_failing_record (hash : Nat → Nat → Nat) (cfg : build_configuration)
    (nbytes : Nat) (r : List Nat × List Nat) (post : List (List Nat × List Nat))
    (tl : List (List Nat))
    (hr : ∀ st, ∃ e, parse_record hash cfg nbytes r st = .error e) :
    ∀ (pre : List (List Nat × List Nat)) (fuel : Nat) (st : parse_state),
      pre.length + 1 ≤ fuel →
      ∃ e, parse_loop hash cfg nbytes fuel
          { lines := lines_of_records (pre ++ r :: post) ++ tl, eof := false } st = .error e ∧
        e ≠ .fuel_exhausted := by
  intro pre
  induction pre with
  | nil =>
    intro fuel st hf
    obtain ⟨f, rfl⟩ : ∃ f, fuel = f + 1 := ⟨fuel - 1, by simp at hf; omega⟩
    obtain ⟨e, he⟩ := hr st
    refine ⟨e, ?_, ?_⟩
    · have hl : lines_of_records ([] ++ r :: post) ++ tl
          = r.1 :: r.2 :: (lines_of_records post ++ tl) := rfl
      rw [hl, parse_loop_step, he]
    · rcases parse_record_error hash cfg nbytes r st e he with h | h <;> rw [h] <;> decide
  | cons p pre ih =>
    intro fuel st hf
    obtain ⟨f, rfl⟩ : ∃ f, fuel = f + 1 := ⟨fuel - 1, by simp at hf; omega⟩
    have hf' : pre.length + 1 ≤ f := by simp at hf; omega
    have hl : lines_of_records ((p :: pre) ++ r :: post) ++ tl
        = p.1 :: p.2 :: (lines_of_records (pre ++ r :: post) ++ tl) := rfl
    rw [hl, parse_loop_step]
    cases hp : parse_record hash cfg nbytes (p.1, p.2) st with
    | error e =>
      refine ⟨e, rfl, ?_⟩
      rcases parse_record_error hash cfg nbytes _ st e hp with h | h <;> rw [h] <;> decide
    | ok st' =>
      simp only
      have hne : lines_of_records (pre ++ r :: post) ++ tl ≠ [] := by
        cases pre <;> simp [lines_of_records]
      rw [if_neg hne]
      exact ih f st' hf'

/-- In weighted mode the iteration of the main loop on a record whose header
declares, behind `LN:i:`, a length that is not the length of its sequence line
fails when the sequence line has at least `k` bases: with the parse error when
the header fails a check, with the error for a wrong length otherwise. -/
theorem parse_record_length_mismatch (hash : Nat → Nat → Nat) (cfg : build_configuration)
    (nbytes : Nat) (id digits tail seq : List Nat) (st : parse_state)
    (hw : cfg.weighted = true) (hid : 32 ∉ id) (hnum : is_number digits)
    (htail : tail = [] ∨ ∃ c t, tail = c :: t ∧ isdigit c = false)
    (hneq : decimal_value digits ≠ seq.length)
    (hk : cfg.k ≤ seq.length) (hlen : seq.length < 2 ^ 64 - 1) :
    ∃ e, parse_record hash cfg nbytes
      (62 :: id ++ 32 :: ([76, 78, 58, 105, 58] ++ (digits ++ tail)), seq) st = .error e := by
  generalize hh : 62 :: id ++ 32 :: ([76, 78, 58, 105, 58] ++ (digits ++ tail)) = h
  have hne : h ≠ [] := by rw [← hh]; exact List.cons_ne_nil _ _
  have hf1 : find_first_of h 32 0 = id.length + 1 := by
    have := find_first_of_drop h (62 :: id) ([76, 78, 58, 105, 58] ++ (digits ++ tail)) 32 0
      (by rw [List.drop_zero, ← hh])
      (by
        simp only [List.mem_cons]
        rintro (h | h)
        · omega
        · exact hid h)
    rw [this]
    simp only [List.length_cons]
    omega
  have hd : h.drop (id.length + 1 + 1 + 5) = digits ++ tail := by
    have e : h = (62 :: id ++ [32] ++ [76, 78, 58, 105, 58]) ++ (digits ++ tail) := by
      rw [← hh]; simp
    rw [e]
    exact drop_append_at _ _ _ (by simp)
  unfold parse_record
  simp only [hw, if_true]
  by_cases ha : header_accepted h
  · rw [parse_header_accepted cfg { st with sequence := h } hne ha]
    simp only
    rw [hf1, hd, strtoull_number_sat digits tail hnum htail]
    obtain ⟨wb, sw, wv, wl, e⟩ := weights_loop_frame
      (((if 2 ^ 64 ≤ decimal_value digits then 2 ^ 64 - 1 else decimal_value digits)
        + two64 - cfg.k % two64 + 1) % two64)
      { ({ st with sequence := h } : parse_state) with
        seq_len := if 2 ^ 64 ≤ decimal_value digits then 2 ^ 64 - 1 else decimal_value digits }
      (find_first_of h 32 (id.length + 1 + 1 + 5) + 1 + 5)
    rw [e, parse_sequence_long hash cfg nbytes _ hk]
    refine ⟨.file_is_malformed, if_pos ⟨hw, ?_⟩⟩
    show (if 2 ^ 64 ≤ decimal_value digits then 2 ^ 64 - 1 else decimal_value digits)
      ≠ seq.length
    split <;> omega
  · rw [parse_header_rejected cfg { st with sequence := h } hne ha]
    exact ⟨_, rfl⟩

/-! ## Claim on the declared length -/

/-- C11 fails for a sequence line shorter than `k`: in weighted mode with
`k = 3` the record `>1 LN:i:2 ab:Z:` / `A` declares the length 2 for a sequence
of length 1, and `parse_file` returns without error, the sequence being skipped
before the declared length is compared. -/
theorem C11_length_mismatch_counterexample :
    short_weighted_cfg.weighted = true ∧
    decimal_value mismatch_short_record.length_digits = 2 ∧
    mismatch_short_record.sequence.length = 1 ∧
    ∃ st, parse_file example_murmur 1 (input_lines [mismatch_short_record.lines] true)
      short_weighted_cfg = .ok st :=
  ⟨rfl, rfl, rfl, _, rfl⟩

/-- C11, amended: in weighted mode, for every input with a record whose
sequence line has at least `k` bases and whose header declares, as
`>[id] LN:i:[L]` followed by anything but a digit, a length `L` that is not the
length of the sequence line, `parse_file` fails with an error (the configuration
error, the parse error of a header, or the error for a wrong length). -/
theorem C11_length_mismatch (murmur : Nat → Nat → Nat) (nbytes : Nat)
    (pre post : List (List Nat × List Nat)) (nl : Bool) (cfg : build_configuration)
    (id digits tail seq : List Nat)
    (hw : cfg.weighted = true) (hid : 32 ∉ id) (hnum : is_number digits)
    (htail : tail = [] ∨ ∃ c t, tail = c :: t ∧ isdigit c = false)
    (hneq : decimal_value digits ≠ seq.length)
    (hk : cfg.k ≤ seq.length) (hlen : seq.length < 2 ^ 64 - 1) :
    ∃ e, parse_file murmur nbytes
        (input_lines
          (pre ++ (62 :: id ++ 32 :: ([76, 78, 58, 105, 58] ++ (digits ++ tail)), seq) :: post)
          nl) cfg = .error e ∧
      e ≠ .fuel_exhausted := by
  unfold parse_file
  simp only
  split
  · exact ⟨_, rfl, by decide⟩
  · obtain ⟨e, he, hne⟩ := parse_loop_failing_record (murmurhash2_64_hash murmur) cfg nbytes
      (62 :: id ++ 32 :: ([76, 78, 58, 105, 58] ++ (digits ++ tail)), seq) post
      (if nl then [[]] else [])
      (fun st => parse_record_length_mismatch _ cfg nbytes id digits tail seq st hw hid hnum
        htail hneq hk hlen)
      pre
      ((input_lines
        (pre ++ (62 :: id ++ 32 :: ([76, 78, 58, 105, 58] ++ (digits ++ tail)), seq) :: post)
        nl).length + 1)
      (parse_state.init cfg)
      (by simp [input_lines, lines_of_records_length]; omega)
    refine ⟨e, ?_, hne⟩
    unfold input_lines at he ⊢
    rw [he]

/-- C11 (amended) on the record `>1 LN:i:7 ab:Z:2 2 2 3 3` / `ACGTAC` with `k = 2`. -/
theorem C11_length_mismatch_witness :
    ∃ e, parse_file example_murmur 1
        (input_lines
          [([62, 49, 32, 76, 78, 58, 105, 58, 55, 32, 97, 98, 58, 90, 58,
              50, 32, 50, 32, 50, 32, 51, 32, 51],
            [65, 67, 71, 84, 65, 67])] true)
        example_weighted_cfg = .error e ∧
      e ≠ .fuel_exhausted :=
  C11_length_mismatch example_murmur 1 [] [] true example_weighted_cfg [49] [55]
    [32, 97, 98, 58, 90, 58, 50, 32, 50, 32, 50, 32, 51, 32, 51] [65, 67, 71, 84, 65, 67]
    rfl (by decide) (by unfold is_number; decide) (Or.inr ⟨32, _, rfl, by decide⟩)
    (by decide) (by decide) (by decide)

/-! ## The number of weights of a header -/

/-- The weight loop on a text that starts with the weights `ds`, whatever
follows them: each weight is read and handled in turn. -/
theorem weights_loop_prefix :
    ∀ (ds extra : List (List Nat)) (st : parse_state) (i : Nat),
      st.sequence.drop i = join_blank (ds ++ extra) →
      (∀ d ∈ ds, is_number d ∧ decimal_value d < 2 ^ 64) →
      st.sequence.length < 2 ^ 64 - 1 →
      weights_loop ds.length st i = (ds.map decimal_value).foldl eat_weight st := by
  intro ds
  induction ds with
  | nil => intro extra st i _ _ _; rfl
  | cons d ds ih =>
    intro extra st i hdrop hnum hlen
    have hd := hnum d (List.mem_cons_self _ _)
    rw [List.cons_append] at hdrop
    cases hde : ds ++ extra with
    | nil =>
      have hds : ds = [] := (List.append_eq_nil.1 hde).1
      subst hds
      rw [hde] at hdrop
      simp only [join_blank] at hdrop
      simp only [List.length_singleton, weights_loop, weights_step, List.map_cons, List.map_nil,
        List.foldl_cons, List.foldl_nil]
      rw [hdrop]
      have := strtoull_number d [] hd.1 hd.2 (Or.inl rfl)
      rw [List.append_nil] at this
      rw [this]
    | cons d' rest =>
      rw [hde] at hdrop
      simp only [join_blank] at hdrop
      have hw : strtoull (st.sequence.drop i) = decimal_value d := by
        rw [hdrop]
        exact strtoull_number d _ hd.1 hd.2 (Or.inr ⟨32, _, rfl, by decide⟩)
      have hf : find_first_of st.sequence 32 i = i + d.length :=
        find_first_of_drop st.sequence d _ 32 i hdrop (is_number_no_blank d hd.1)
      have hil : i + d.length < st.sequence.length := by
        have := congrArg List.length hdrop
        simp only [List.length_drop, List.length_append, List.length_cons] at this
        omega
      have hmod : (i + d.length + 1) % two64 = i + d.length + 1 := by
        unfold two64; exact Nat.mod_eq_of_lt (by omega)
      rw [List.length_cons, weights_loop]
      simp only [weights_step, hw, hf, hmod, List.map_cons, List.foldl_cons]
      have hdrop' : (eat_weight st (decimal_value d)).sequence.drop (i + d.length + 1)
          = join_blank (ds ++ extra) := by
        rw [eat_weight_sequence, hde]
        have e : i + d.length + 1 = i + (d.length + 1) := by omega
        rw [e, ← List.drop_drop, hdrop]
        simp
      exact ih extra (eat_weight st (decimal_value d)) (i + d.length + 1) hdrop'
        (fun x hx => hnum x (List.mem_cons_of_mem _ hx)) (by rw [eat_weight_sequence]; exact hlen)

/-- Handling a weight does not depend on the line held in `sequence`. -/
theorem eat_weight_set_sequence (st : parse_state) (s : List Nat) (w : Nat) :
    eat_weight { st with sequence := s } w = { eat_weight st w with sequence := s } := by
  unfold eat_weight
  simp only
  split
  · rfl
  · split <;> rfl

theorem foldl_eat_weight_set_sequence (ws : List Nat) (st : parse_state) (s : List Nat) :
    ws.foldl eat_weight { st with sequence := s }
      = { ws.foldl eat_weight st with sequence := s } := by
  induction ws generalizing st with
  | nil => rfl
  | cons w ws ih => rw [List.foldl_cons, eat_weight_set_sequence, ih, List.foldl_cons]

/-- `parse_header` on a header whose `ab:Z:` field starts with `seq_len - k + 1`
weights: these are handled in turn, and what follows them is not read. -/
theorem parse_header_truncated (cfg : build_configuration) (w : weighted_record)
    (st : parse_state) (hwf : (w.truncated cfg.k).well_formed cfg.k)
    (hhl : w.header.length < 2 ^ 64 - 1) (hk : cfg.k < 2 ^ 64) (hs : st.sequence = w.header) :
    parse_header cfg st
      = .ok ((w.truncated cfg.k).weights.foldl eat_weight
          { st with seq_len := w.sequence.length }) := by
  obtain ⟨hid, hLn, hLv, hws, hcnt, _, hslen⟩ := hwf
  have hLv' : decimal_value w.length_digits = w.sequence.length := hLv
  have hcnt' : (w.weight_digits.take (w.sequence.length + 1 - cfg.k)).length + cfg.k
      = w.sequence.length + 1 := hcnt
  have hslen' : w.sequence.length < 2 ^ 64 - 1 := hslen
  obtain ⟨hp, hd3⟩ := parse_header_format cfg w st hid hLn (by omega) hhl hs
  have hn : (w.sequence.length + two64 - cfg.k % two64 + 1) % two64
      = (w.weight_digits.take (w.sequence.length + 1 - cfg.k)).length := by
    unfold two64
    rw [Nat.mod_eq_of_lt hk]
    have e : w.sequence.length + 2 ^ 64 - cfg.k + 1
        = (w.weight_digits.take (w.sequence.length + 1 - cfg.k)).length + 2 ^ 64 := by omega
    rw [e, Nat.add_mod_right, Nat.mod_eq_of_lt (by omega)]
  have hloop := weights_loop_prefix (w.weight_digits.take (w.sequence.length + 1 - cfg.k))
    (w.weight_digits.drop (w.sequence.length + 1 - cfg.k))
    { st with seq_len := w.sequence.length }
    (w.id.length + 1 + 1 + 5 + w.length_digits.length + 1 + 5)
    (by rw [List.take_append_drop, ← hd3, hs])
    (fun d hd => ⟨(hws d hd).1, by have := (hws d hd).2; omega⟩) (by rw [hs]; exact hhl)
  rw [hp, hLv', hn, hloop]
  rfl

section
variable (hash : Nat → Nat → Nat) (cfg : build_configuration) (nbytes : Nat)

/-- The main loop treats a record whose `ab:Z:` field starts with
`seq_len - k + 1` weights like the record cut down to these weights. -/
theorem parse_record_truncated (w : weighted_record) (st : parse_state)
    (hw : cfg.weighted = true) (hk : cfg.k < 2 ^ 64)
    (hwf : (w.truncated cfg.k).well_formed cfg.k) (hhl : w.header.length < 2 ^ 64 - 1) :
    parse_record hash cfg nbytes w.lines st
      = parse_record hash cfg nbytes (w.truncated cfg.k).lines st := by
  have h1 := parse_header_truncated cfg w { st with sequence := w.header } hwf hhl hk rfl
  have h2 := parse_header_well_formed cfg (w.truncated cfg.k)
    { st with sequence := (w.truncated cfg.k).header } hwf hk rfl
  have e1 := foldl_eat_weight_set_sequence (w.truncated cfg.k).weights
    { st with seq_len := w.sequence.length } w.header
  have e2 := foldl_eat_weight_set_sequence (w.truncated cfg.k).weights
    { st with seq_len := w.sequence.length } (w.truncated cfg.k).header
  unfold parse_record
  simp only [hw, if_true, weighted_record.lines]
  rw [h1, h2]
  simp only
  have e3 : ({ st with sequence := w.header, seq_len := w.sequence.length } : parse_state)
      = { ({ st with seq_len := w.sequence.length } : parse_state) with
          sequence := w.header } := rfl
  have e4 : ({ st with sequence := (w.truncated cfg.k).header,
                       seq_len := (w.truncated cfg.k).sequence.length } : parse_state)
      = { ({ st with seq_len := w.sequence.length } : parse_state) with
          sequence := (w.truncated cfg.k).header } := rfl
  rw [e3, e4, e1, e2]
  rfl

theorem parse_records_truncated (hw : cfg.weighted = true) (hk : cfg.k < 2 ^ 64) :
    ∀ (wrs : List weighted_record) (st : parse_state),
      (∀ w ∈ wrs, (w.truncated cfg.k).well_formed cfg.k ∧ w.header.length < 2 ^ 64 - 1) →
      parse_records hash cfg nbytes (wrs.map weighted_record.lines) st
        = parse_records hash cfg nbytes
            ((wrs.map (weighted_record.truncated cfg.k)).map weighted_record.lines) st := by
  intro wrs
  induction wrs with
  | nil => intro st _; rfl
  | cons w wrs ih =>
    intro st h
    have hw1 := h w (List.mem_cons_self _ _)
    simp only [List.map_cons, parse_records]
    rw [parse_record_truncated hash cfg nbytes w st hw hk hw1.1 hw1.2]
    cases parse_record hash cfg nbytes (w.truncated cfg.k).lines st with
    | error e => rfl
    | ok st' => exact ih st' (fun x hx => h x (List.mem_cons_of_mem _ hx))

end

/-- The result of `parse_file` is that of the main loop on the records: two
inputs with as many records on which the loop ends alike give the same result. -/
theorem parse_file_congr (murmur : Nat → Nat → Nat) (nbytes : Nat)
    (rs rs' : List (List Nat × List Nat)) (nl : Bool) (cfg : build_configuration)
    (hk : 1 ≤ cfg.k) (hl : rs.length = rs'.length)
    (hr : parse_records (murmurhash2_64_hash murmur) cfg nbytes rs (parse_state.init cfg)
      = parse_records (murmurhash2_64_hash murmur) cfg nbytes rs' (parse_state.init cfg)) :
    parse_file murmur nbytes (input_lines rs nl) cfg
      = parse_file murmur nbytes (input_lines rs' nl) cfg := by
  have hfuel : ∀ l : List (List Nat × List Nat), l.length + 1 ≤ (input_lines l nl).length + 1 := by
    intro l
    simp [input_lines, lines_of_records_length]; omega
  have hemp : rs.isEmpty = rs'.isEmpty := by
    cases rs <;> cases rs' <;> simp_all
  unfold parse_file
  simp only
  rw [parse_loop_records _ cfg nbytes hk nl rs _ _ (hfuel rs),
    parse_loop_records _ cfg nbytes hk nl rs' _ _ (hfuel rs'), hr, hemp]

/-- `parse_file` on a well-formed weighted input: it returns, the weights fed
to the weight builder are those of the headers in order, the intervals pushed
expand to them, and their lengths sum to `num_kmers`. -/
theorem parse_file_well_formed (murmur : Nat → Nat → Nat) (nbytes : Nat)
    (wrs : List weighted_record) (nl : Bool) (cfg : build_configuration)
    (hw : cfg.weighted = true)
    (hm : 1 ≤ cfg.m) (hmk : cfg.m ≤ cfg.k) (hk : cfg.k ≤ 63)
    (hn1 : 1 ≤ nbytes) (hn7 : nbytes ≤ 7)
    (hwf : ∀ w ∈ wrs, w.well_formed cfg.k) :
    ∃ st, parse_file murmur nbytes (input_lines (wrs.map weighted_record.lines) nl) cfg
        = .ok st ∧
      st.weights_builder.eaten = (wrs.map weighted_record.weights).flatten ∧
      expand_intervals st.weights_builder.intervals
        = (wrs.map weighted_record.weights).flatten ∧
      (st.weights_builder.intervals.map (fun p => p.2)).sum = st.num_kmers := by
  obtain ⟨st1, hp, e1, e2⟩ := parse_records_well_formed (murmurhash2_64_hash murmur) cfg nbytes
    hw (by omega) wrs (parse_state.init cfg) hwf rfl (fun _ => rfl)
  obtain ⟨st, hst⟩ := parse_file_returns murmur nbytes (wrs.map weighted_record.lines) nl cfg
    (by omega) (check_of_fit cfg nbytes hm hmk hk hn1 hn7) st1 hp
  obtain ⟨_, st1', seq, hp', hst'⟩ := parse_file_ok murmur nbytes _ nl cfg (by omega) st hst
  rw [hp] at hp'
  injection hp' with hp'
  subst hp'
  rw [if_pos hw] at hst'
  have e2' : st1.weights_builder.eaten = (wrs.map weighted_record.weights).flatten := by
    simpa [parse_state.init, weights_builder.init] using e2
  have hnk := parse_records_num_kmers _ cfg nbytes _ _ st1 hp
  have hlen : st1.num_kmers = (wrs.map weighted_record.weights).flatten.length := by
    rw [hnk]
    simp only [parse_state.init, Nat.zero_add, List.map_map, List.length_flatten]
    congr 1
    apply List.map_congr_left
    intro w hwm
    exact well_formed_num_kmers w cfg.k (hwf w hwm)
  have hexp : expand_intervals (st1.weights_builder.intervals
      ++ [(st1.weight_value, st1.weight_length)])
      = (wrs.map weighted_record.weights).flatten := by
    rw [expand_intervals_snoc, e1, e2']
  refine ⟨st, hst, ?_, ?_, ?_⟩
  · rw [hst']; exact e2'
  · rw [hst']; exact hexp
  · rw [hst']
    simp only [weights_builder.finalize, weights_builder.push_weight_interval]
    rw [← expand_intervals_length, hexp, hlen]

/-! ## Claim on the number of weights -/

/-- C12 fails: with `k = 2` the header `>1 LN:i:6 ab:Z:2 2 2 3 3 7` holds six
integers where `L - k + 1 = 5`, and `parse_file` returns without error, having
fed the first five to the weight builder; the header `>1 LN:i:6 ab:Z:2 2`
holds two, and `parse_file` returns without error as well. -/
theorem C12_weight_count_counterexample :
    (extra_weight_record.weight_digits.length = 6 ∧
      ∃ st, parse_file example_murmur 1 (input_lines [extra_weight_record.lines] true)
          example_weighted_cfg = .ok st ∧
        st.weights_builder.eaten = [2, 2, 2, 3, 3]) ∧
    (missing_weight_record.weight_digits.length = 2 ∧
      ∃ st, parse_file example_murmur 1 (input_lines [missing_weight_record.lines] true)
          example_weighted_cfg = .ok st) :=
  ⟨⟨rfl, _, rfl, rfl⟩, ⟨rfl, _, rfl⟩⟩

/-- C12, amended: in weighted mode `parse_header` reads `L - k + 1` weights
from the `ab:Z:` field and does not count what the field holds. For every input
whose records are well formed except that the field may hold more behind its
first `L - k + 1` integers, `parse_file` returns without error, the weights fed
to the weight builder are the first `L - k + 1` integers of each header, in
order, and the lengths of the intervals sum to `num_kmers`. -/
theorem C12_weights_not_counted (murmur : Nat → Nat → Nat) (nbytes : Nat)
    (wrs : List weighted_record) (nl : Bool) (cfg : build_configuration)
    (hw : cfg.weighted = true)
    (hm : 1 ≤ cfg.m) (hmk : cfg.m ≤ cfg.k) (hk : cfg.k ≤ 63)
    (hn1 : 1 ≤ nbytes) (hn7 : nbytes ≤ 7)
    (hwf : ∀ w ∈ wrs, (w.truncated cfg.k).well_formed cfg.k ∧ w.header.length < 2 ^ 64 - 1) :
    ∃ st, parse_file murmur nbytes (input_lines (wrs.map weighted_record.lines) nl) cfg
        = .ok st ∧
      st.weights_builder.eaten
        = (wrs.map (fun w => (w.weight_digits.take (w.sequence.length + 1 - cfg.k)).map
            decimal_value)).flatten ∧
      (st.weights_builder.intervals.map (fun p => p.2)).sum = st.num_kmers := by
  have hrec := parse_records_truncated (murmurhash2_64_hash murmur) cfg nbytes hw (by omega)
    wrs (parse_state.init cfg) hwf
  have hcongr := parse_file_congr murmur nbytes (wrs.map weighted_record.lines)
    ((wrs.map (weighted_record.truncated cfg.k)).map weighted_record.lines) nl cfg (by omega)
    (by simp) hrec
  obtain ⟨st, hst, e1, _, e3⟩ := parse_file_well_formed murmur nbytes
    (wrs.map (weighted_record.truncated cfg.k)) nl cfg hw hm hmk hk hn1 hn7
    (fun w hwm => by
      obtain ⟨w0, hw0, rfl⟩ := List.mem_map.1 hwm
      exact (hwf w0 hw0).1)
  refine ⟨st, hcongr.trans hst, ?_, e3⟩
  rw [e1, List.map_map]
  rfl

/-- C12 (amended) on the record `>1 LN:i:6 ab:Z:2 2 2 3 3 7` / `ACGTAC` with `k = 2`. -/
theorem C12_weights_not_counted_witness :
    ∃ st, parse_file example_murmur 1 (input_lines [extra_weight_record.lines] true)
        example_weighted_cfg = .ok st ∧
      st.weights_builder.eaten = [2, 2, 2, 3, 3] ∧
      (st.weights_builder.intervals.map (fun p => p.2)).sum = st.num_kmers :=
  C12_weights_not_counted example_murmur 1 [extra_weight_record] true example_weighted_cfg
    rfl (by decide) (by decide) (by decide) (by decide) (by decide)
    (by
      intro w hwm
      rw [List.mem_singleton] at hwm
      subst hwm
      unfold weighted_record.well_formed is_number
      decide)

/-! ## Bytes outside the alphabet -/

theorem getD_drop_add (s : List Nat) (e j : Nat) : (s.drop e).getD j 0 = s.getD (e + j) 0 := by
  rw [List.getD_eq_getElem?_getD, List.getD_eq_getElem?_getD, List.getElem?_drop]

/-- A line of at least `k` bytes that holds a byte outside the alphabet has a
k-mer on which `is_valid` does not return true. -/
theorem invalid_kmer_exists (cs : Bool) (s : List Nat) (k : Nat)
    (hb : ∀ b ∈ s, b < 256) (hk1 : 1 ≤ k) (hk : k ≤ s.length)
    (hbad : ∃ b ∈ s, b ∉ [65, 67, 71, 84]) :
    ∃ e, e + k ≤ s.length ∧ is_valid cs (s.drop e) k ≠ some true := by
  obtain ⟨b, hbm, hbn⟩ := hbad
  obtain ⟨p, hp, hpe⟩ := List.getElem_of_mem hbm
  refine ⟨min p (s.length - k), by omega, fun hv => ?_⟩
  have hall := (is_valid_true_iff cs (s.drop (min p (s.length - k)))
    (fun x hx => hb x (List.mem_of_mem_drop hx)) k).1 hv
  have := hall (p - min p (s.length - k)) (by omega)
  rw [getD_drop_add, show min p (s.length - k) + (p - min p (s.length - k)) = p by omega,
    List.getD_eq_getElem s 0 hp, hpe] at this
  exact hbn this

/-! ## The minimizer without its position -/

theorem minimizer_pos_loop_fst (hash : Nat → Nat → Nat) (seed mask : Nat) :
    ∀ (n i kmer min_hash minimizer pos : Nat),
      (minimizer_pos_loop hash seed mask n i kmer min_hash minimizer pos).1
        = minimizer_loop hash seed mask n kmer min_hash minimizer := by
  intro n
  induction n with
  | zero => intro i kmer min_hash minimizer pos; rfl
  | succ n ih =>
    intro i kmer min_hash minimizer pos
    rw [minimizer_pos_loop, minimizer_loop]
    split
    · exact ih _ _ _ _ _
    · exact ih _ _ _ _ _

/-- C24: for every hasher, seed, packed k-mer and lengths `m` and `k`,
`compute_minimizer(kmer, k, m, seed)` is the first component of
`compute_minimizer_pos(kmer, k, m, seed)`. -/
theorem C24_compute_minimizer_refines (hash : Nat → Nat → Nat) (kmer k m seed : Nat) :
    compute_minimizer hash kmer k m seed = (compute_minimizer_pos hash kmer k m seed).1 := by
  unfold compute_minimizer compute_minimizer_pos
  simp only
  rw [minimizer_pos_loop_fst]

/-! ## Unpacking a packed k-mer -/

theorem uint64_to_char_char_to_uint (c : Nat) (hc : c ∈ [65, 67, 71, 84]) :
    uint64_to_char (char_to_uint c) = c := by
  rw [mem_acgt] at hc
  rcases hc with rfl | rfl | rfl | rfl <;> rfl

/-- The 2-bit digit of `string_to_uint_kmer_no_reverse(s, k)` at index `i`. -/
theorem string_to_uint_kmer_no_reverse_digit (s : List Nat) (k i : Nat) (hk : k ≤ 64)
    (hi : i < k) :
    (string_to_uint_kmer_no_reverse s k >>> (2 * i)) &&& 3 = char_to_uint (s.getD i 0) := by
  obtain ⟨_, hbits⟩ := string_to_uint_kmer_no_reverse_bits s k hk
  apply Nat.eq_of_testBit_eq
  intro j
  have h3 : (3 : Nat) = 2 ^ 2 - 1 := rfl
  rw [Nat.testBit_and, Nat.testBit_shiftRight, hbits, h3, Nat.testBit_two_pow_sub_one]
  by_cases hj : j < 2
  · have e1 : (2 * i + j) / 2 = i := by omega
    have e2 : (2 * i + j) % 2 = j := by omega
    rw [e1, e2, decide_eq_true hi, decide_eq_true hj, Bool.true_and, Bool.and_true]
  · rw [decide_eq_false hj, Bool.and_false, char_to_uint_testBit_high _ _ (by omega)]

/-- The 2-bit digit of `string_to_uint_kmer(s, k)` at index `j` from the low end. -/
theorem string_to_uint_kmer_digit (s : List Nat) (k j : Nat) (hk : k ≤ 64) (hj : j < k) :
    (string_to_uint_kmer s k >>> (2 * j)) &&& 3 = char_to_uint (s.getD (k - 1 - j) 0) := by
  obtain ⟨_, hbits⟩ := string_to_uint_kmer_bits s k hk
  apply Nat.eq_of_testBit_eq
  intro t
  have h3 : (3 : Nat) = 2 ^ 2 - 1 := rfl
  rw [Nat.testBit_and, Nat.testBit_shiftRight, hbits, h3, Nat.testBit_two_pow_sub_one]
  by_cases ht : t < 2
  · have e1 : (2 * j + t) / 2 = j := by omega
    have e2 : (2 * j + t) % 2 = t := by omega
    rw [e1, e2, decide_eq_true hj, decide_eq_true ht, Bool.true_and, Bool.and_true]
  · rw [decide_eq_false ht, Bool.and_false, char_to_uint_testBit_high _ _ (by omega)]

/-- The loop of the unpacking functions, writing the `j`-th digit of `x` to the
index `f j` of the buffer: after `n` iterations the first `n` digits are in place. -/
theorem unpack_loop (x k : Nat) (f : Nat → Nat)
    (hf : ∀ i j, i < j → j < k → f i ≠ f j) (hfk : ∀ j < k, f j < k) :
    ∀ n ≤ k, ∀ str : List Nat, str.length = k →
      ((List.range n).foldl
        (fun (p : List Nat × Nat) j => (p.1.set (f j) (uint64_to_char (p.2 &&& 3)), p.2 >>> 2))
        (str, x)).2 = x >>> (2 * n) ∧
      ((List.range n).foldl
        (fun (p : List Nat × Nat) j => (p.1.set (f j) (uint64_to_char (p.2 &&& 3)), p.2 >>> 2))
        (str, x)).1.length = k ∧
      ∀ j < n, ((List.range n).foldl
        (fun (p : List Nat × Nat) j => (p.1.set (f j) (uint64_to_char (p.2 &&& 3)), p.2 >>> 2))
        (str, x)).1.getD (f j) 0 = uint64_to_char ((x >>> (2 * j)) &&& 3) := by
  intro n
  induction n with
  | zero =>
    intro _ str hstr
    exact ⟨rfl, hstr, fun j hj => absurd hj (Nat.not_lt_zero j)⟩
  | succ n ih =>
    intro hn str hstr
    obtain ⟨h1, h2, h3⟩ := ih (by omega) str hstr
    rw [List.range_succ, List.foldl_append, List.foldl_cons, List.foldl_nil]
    generalize (List.range n).foldl
      (fun (p : List Nat × Nat) j => (p.1.set (f j) (uint64_to_char (p.2 &&& 3)), p.2 >>> 2))
      (str, x) = p at h1 h2 h3
    refine ⟨?_, ?_, ?_⟩
    · show p.2 >>> 2 = x >>> (2 * (n + 1))
      rw [h1, ← Nat.shiftRight_add, show 2 * n + 2 = 2 * (n + 1) by omega]
    · show (p.1.set (f n) (uint64_to_char (p.2 &&& 3))).length = k
      rw [List.length_set, h2]
    · intro j hj
      show (p.1.set (f n) (uint64_to_char (p.2 &&& 3))).getD (f j) 0 = _
      by_cases hjn : j = n
      · subst hjn
        rw [List.getD_eq_getElem?_getD, List.getElem?_set_self (by rw [h2]; exact hfk j (by omega)),
          h1]
        rfl
      · rw [List.getD_eq_getElem?_getD,
          List.getElem?_set_ne (fun e => hf j n (by omega) (by omega) e.symm),
          ← List.getD_eq_getElem?_getD]
        exact h3 j (by omega)

theorem list_eq_of_getD (r s : List Nat) (h : r.length = s.length)
    (hg : ∀ i < s.length, r.getD i 0 = s.getD i 0) : r = s := by
  apply List.ext_getElem h
  intro i h1 h2
  have := hg i h2
  rwa [List.getD_eq_getElem r 0 h1, List.getD_eq_getElem s 0 h2] at this

/-- C25: for every string `s` over `{A, C, G, T}` of length `k ≤ 63`,
`uint_kmer_to_string_no_reverse(string_to_uint_kmer_no_reverse(s, k), k) = s`
and `uint_kmer_to_string(string_to_uint_kmer(s, k), k) = s`. -/
theorem C25_unpack_pack (s : List Nat) (k : Nat) (hlen : s.length = k) (hk : k ≤ 63)
    (hs : ∀ c ∈ s, c ∈ [65, 67, 71, 84]) :
    uint_kmer_to_string_no_reverse (string_to_uint_kmer_no_reverse s k) k = s ∧
    uint_kmer_to_string (string_to_uint_kmer s k) k = s := by
  have hs' : ∀ i < k, s.getD i 0 ∈ [65, 67, 71, 84] := by
    intro i hi
    rw [List.getD_eq_getElem s 0 (by omega)]
    exact hs _ (List.getElem_mem _)
  constructor
  · obtain ⟨_, h2, h3⟩ := unpack_loop (string_to_uint_kmer_no_reverse s k) k (fun i => i)
      (fun i j hij _ => by show i ≠ j; omega) (fun j hj => hj) k (Nat.le_refl k) (List.replicate k 0)
      (List.length_replicate k 0)
    apply list_eq_of_getD _ _ (by rw [hlen]; exact h2)
    intro i hi
    rw [hlen] at hi
    have := h3 i hi
    rw [string_to_uint_kmer_no_reverse_digit s k i (by omega) hi,
      uint64_to_char_char_to_uint _ (hs' i hi)] at this
    exact this
  · obtain ⟨_, h2, h3⟩ := unpack_loop (string_to_uint_kmer s k) k (fun j => k - 1 - j)
      (fun i j hij hj => by show k - 1 - i ≠ k - 1 - j; omega)
      (fun j hj => by show k - 1 - j < k; omega) k (Nat.le_refl k) (List.replicate k 0)
      (List.length_replicate k 0)
    apply list_eq_of_getD _ _ (by rw [hlen]; exact h2)
    intro i hi
    rw [hlen] at hi
    have := h3 (k - 1 - i) (by omega)
    simp only [show k - 1 - (k - 1 - i) = i by omega] at this
    rw [string_to_uint_kmer_digit s k (k - 1 - i) (by omega) (by omega),
      show k - 1 - (k - 1 - i) = i by omega,
      uint64_to_char_char_to_uint _ (hs' i hi)] at this
    exact this

/-- C25 on the 5-mer `ACGTT`. -/
theorem C25_unpack_pack_witness :
    ([65, 67, 71, 84, 84] : List Nat).length = 5 ∧ 5 ≤ 63 ∧
    uint_kmer_to_string_no_reverse (string_to_uint_kmer_no_reverse [65, 67, 71, 84, 84] 5) 5
      = [65, 67, 71, 84, 84] ∧
    uint_kmer_to_string (string_to_uint_kmer [65, 67, 71, 84, 84] 5) 5 = [65, 67, 71, 84, 84] :=
  ⟨rfl, by decide, C25_unpack_pack [65, 67, 71, 84, 84] 5 rfl (by decide) (by decide)⟩

/-! ## The reverse complement passed to the selector -/

/-- The result of `compute_reverse_complement` is a `uint64_t`. -/
theorem compute_reverse_complement_lt_two64 (x size : Nat) :
    compute_reverse_complement x size < 2 ^ 64 := by
  unfold compute_reverse_complement
  simp only
  unfold two64
  rw [Nat.shiftRight_eq_div_pow]
  refine Nat.lt_of_le_of_lt (Nat.div_le_self _ _) ?_
  apply Nat.lt_pow_two_of_testBit
  intro i hi
  exact swap2_testBit_high _ i hi

/-- For at most 32 bases the integer-level `compute_reverse_complement` maps
the no-reverse packing of a string of bases to the no-reverse packing of its
reverse complement. -/
theorem compute_reverse_complement_no_reverse (cs : Bool) (s out : List Nat) (size : Nat)
    (h32 : size ≤ 32) (hlen : s.length = size) (hout : out.length = size)
    (hs : ∀ c ∈ s, c ∈ [65, 67, 71, 84]) :
    ∃ r, compute_reverse_complement_str cs s out size = some r ∧ r.length = size ∧
      compute_reverse_complement (string_to_uint_kmer_no_reverse s size) size
        = string_to_uint_kmer_no_reverse r size := by
  have hs' : ∀ j < size, s.getD j 0 ∈ [65, 67, 71, 84] := by
    intro j hj
    rw [List.getD_eq_getElem s 0 (by omega)]
    exact hs _ (List.getElem_mem _)
  obtain ⟨r, hr, hrlen, hrget⟩ := compute_reverse_complement_str_spec cs s out size hout hs'
  refine ⟨r, hr, hrlen, ?_⟩
  obtain ⟨hxlt, hxbits⟩ := string_to_uint_kmer_no_reverse_bits s size (by omega)
  obtain ⟨_, hybits⟩ := string_to_uint_kmer_no_reverse_bits r size (by omega)
  have hx64 : string_to_uint_kmer_no_reverse s size < 2 ^ 64 :=
    Nat.lt_of_lt_of_le hxlt (Nat.pow_le_pow_right (by norm_num) (by omega))
  apply Nat.eq_of_testBit_eq
  intro i
  rw [compute_reverse_complement_testBit _ size h32, Nat.mod_eq_of_lt hx64, hxbits, hybits]
  by_cases hi : i < 2 * size
  · have e1 : (2 * (size - 1 - i / 2) + i % 2) / 2 = size - 1 - i / 2 := by omega
    have e2 : (2 * (size - 1 - i / 2) + i % 2) % 2 = i % 2 := by omega
    have h2 : i / 2 < size := by omega
    have h3 : size - 1 - i / 2 < size := by omega
    rw [e1, e2, decide_eq_true hi, decide_eq_true h2, decide_eq_true h3,
      hrget _ h2, char_to_uint_complement _ _ (hs' _ h3), Bool.true_and, Bool.true_and,
      Bool.true_and]
  · have h2 : ¬ i / 2 < size := by omega
    rw [decide_eq_false hi, decide_eq_false h2, Bool.false_and, Bool.false_and]

set_option maxRecDepth 100000 in
/-- The 33-mer of 33 `A` is packed as 0, its reverse complement is the 33-mer
of 33 `T`, and the no-reverse packing of that does not fit 64 bits. -/
theorem poly_a_33 :
    string_to_uint_kmer_no_reverse (List.replicate 33 65) 33 = 0 ∧
    compute_reverse_complement_str false (List.replicate 33 65) (List.replicate 33 0) 33
      = some (List.replicate 33 84) ∧
    2 ^ 64 ≤ string_to_uint_kmer_no_reverse (List.replicate 33 84) 33 := by
  decide

/-- C21 fails for `k = 33`: `parse_file` passes the 128-bit `uint_kmer` to
`compute_reverse_complement(uint64_t, uint64_t)`, which asserts `size <= 32`
and returns a `uint64_t`. For the k-mer of 33 `A` (packed as 0) the value
`uint_kmer_rc` is below `2^64`, whereas the no-reverse packing of the reverse
complement, 33 `T`, is not. -/
theorem C21_reverse_complement_truncated :
    string_to_uint_kmer_no_reverse (List.replicate 33 65) 33 = 0 ∧
    compute_reverse_complement_str false (List.replicate 33 65) (List.replicate 33 0) 33
      = some (List.replicate 33 84) ∧
    compute_reverse_complement (string_to_uint_kmer_no_reverse (List.replicate 33 65) 33) 33
      < 2 ^ 64 ∧
    2 ^ 64 ≤ string_to_uint_kmer_no_reverse (List.replicate 33 84) 33 ∧
    compute_reverse_complement (string_to_uint_kmer_no_reverse (List.replicate 33 65) 33) 33
      ≠ string_to_uint_kmer_no_reverse (List.replicate 33 84) 33 := by
  have h := compute_reverse_complement_lt_two64
    (string_to_uint_kmer_no_reverse (List.replicate 33 65) 33) 33
  refine ⟨poly_a_33.1, poly_a_33.2.1, h, poly_a_33.2.2, ?_⟩
  have h2 := poly_a_33.2.2
  omega

/-! ## The selection step in canonical mode -/

theorem pool_after_snoc (b : pool_builder) (l : List (minimizer_tuple × (List Nat × Bool)))
    (p : minimizer_tuple × (List Nat × Bool)) :
    pool_after b (l ++ [p]) = (pool_after b l).append p.2.1 p.2.1.length p.2.2 := by
  simp [pool_after, List.foldl_append]

theorem pool_after_k (l : List (minimizer_tuple × (List Nat × Bool))) :
    ∀ b : pool_builder, (pool_after b l).k = b.k := by
  induction l with
  | nil => intro b; rfl
  | cons p ps ih =>
    intro b
    have : pool_after b (p :: ps) = pool_after (b.append p.2.1 p.2.1.length p.2.2) ps := rfl
    rw [this, ih]
    rfl

theorem offsets_sound_snoc (k : Nat) (p : minimizer_tuple × (List Nat × Bool)) :
    ∀ (l : List (minimizer_tuple × (List Nat × Bool))) (b : pool_builder),
      offsets_sound k b l →
      (if p.2.2 then k - 1 < (pool_after b l).offset ∧
          p.1.offset = (pool_after b l).offset - (k - 1)
        else p.1.offset = (pool_after b l).offset) →
      offsets_sound k b (l ++ [p]) := by
  intro l
  induction l with
  | nil =>
    intro b _ hp
    simp only [List.nil_append, offsets_sound, and_true]
    exact hp
  | cons q qs ih =>
    intro b h hp
    simp only [offsets_sound] at h
    simp only [List.cons_append, offsets_sound]
    exact ⟨h.1, ih _ h.2 hp⟩

theorem append_super_kmer_idle (cfg : build_configuration) (nbytes : Nat) (st : parse_state)
    (hp : st.prev_minimizer = invalid_uint64) : append_super_kmer cfg nbytes st = st := by
  unfold append_super_kmer
  rw [if_pos (Or.inr (Or.inl hp))]

section
variable (hash : Nat → Nat → Nat) (cfg : build_configuration) (nbytes : Nat)

/-- The invariant of the k-mer loop after `e` iterations on the sequence `s`,
for any hasher: the runs emitted so far lead from k-mer 0 to `begin`, the
builder and the tuples are those of their emissions, `glue` is set exactly when
a run was emitted, and `prev_minimizer` is the minimizer of the last k-mer. -/
theorem kmers_loop_emits (s : List Nat) (st0 : parse_state)
    (hs : st0.sequence = s) (hne : s ≠ [])
    (he0 : st0.end_ = 0) (hb0 : st0.begin_ = 0) (hg0 : st0.glue = false)
    (hp0 : st0.prev_minimizer = invalid_uint64) (e : Nat) :
    ∃ runs b, runs_chain 0 runs b ∧
      ((kmer_step hash cfg nbytes)^[e] st0).begin_ = b ∧
      ((kmer_step hash cfg nbytes)^[e] st0).glue = decide (b ≠ 0) ∧
      (((kmer_step hash cfg nbytes)^[e] st0).builder,
        ((kmer_step hash cfg nbytes)^[e] st0).minimizers)
        = emit_runs hash cfg nbytes s (st0.builder, st0.minimizers) runs ∧
      (e = 0 → ((kmer_step hash cfg nbytes)^[e] st0).prev_minimizer = invalid_uint64 ∧ b = 0) ∧
      (0 < e → b < e ∧
        ((kmer_step hash cfg nbytes)^[e] st0).prev_minimizer = (sel_at hash cfg s (e - 1)).1) := by
  induction e with
  | zero =>
    refine ⟨[], 0, rfl, by simpa using hb0, by simpa using hg0, by simp [emit_runs],
      fun _ => ⟨by simpa using hp0, rfl⟩, fun h => absurd h (Nat.lt_irrefl 0)⟩
  | succ e ih =>
    obtain ⟨runs, b, hch, hb, hg, hem, hz, hpos⟩ := ih
    rw [Function.iterate_succ_apply']
    generalize hst : (kmer_step hash cfg nbytes)^[e] st0 = st at *
    have hseq : st.sequence = s := by rw [← hst]; simp [hs]
    have hend : st.end_ = e := by rw [← hst]; simp [he0]
    have hble : b < e + 1 := by
      rcases Nat.eq_zero_or_pos e with h0 | h0
      · have := (hz h0).2; omega
      · have := (hpos h0).1; omega
    by_cases hp : st.prev_minimizer = invalid_uint64
    · -- no minimizer yet: the k-mer joins the open run
      rw [kmer_step_first hash cfg nbytes st hp]
      refine ⟨runs, b, hch, hb, hg, hem, fun h => absurd h (by omega), fun _ => ⟨hble, ?_⟩⟩
      simp only [hseq, hend, Nat.add_sub_cancel]
    · have h0 : 0 < e := by
        rcases Nat.eq_zero_or_pos e with h0 | h0
        · exact absurd (hz h0).1 hp
        · exact h0
      obtain ⟨hbe, hpm⟩ := hpos h0
      by_cases hc : (sel_at hash cfg st.sequence st.end_).1 ≠ st.prev_minimizer ∨
          ((sel_at hash cfg st.sequence st.end_).2 + 1) % two64 ≠ st.prev_pos
      · -- the open run is closed and emitted
        rw [kmer_step_break hash cfg nbytes st hp hc,
          append_super_kmer_active cfg nbytes st (by rw [hseq]; exact hne) hp
            (by rw [hb, hend]; omega)]
        refine ⟨runs ++ [(b, e)], e, runs_chain_snoc 0 b e runs hch hbe, by simp [hend],
          by simp; omega, ?_, fun h => absurd h (by omega), fun _ => ⟨by omega, ?_⟩⟩
        · rw [emit_runs_snoc, ← hem]
          simp only [emit_run, hseq, hend, hb, hg, hpm]
          by_cases hbz : b = 0
          · simp [hbz]
          · simp [hbz]
        · simp only [hseq, hend, Nat.add_sub_cancel]
      · -- the open run goes on
        have hc1 : (sel_at hash cfg st.sequence st.end_).1 = st.prev_minimizer := by
          by_contra hcon; exact hc (Or.inl hcon)
        have hc2 : ((sel_at hash cfg st.sequence st.end_).2 + 1) % two64 = st.prev_pos := by
          by_contra hcon; exact hc (Or.inr hcon)
        rw [kmer_step_continue hash cfg nbytes st hp hc1 hc2]
        refine ⟨runs, b, hch, hb, hg, hem, fun h => absurd h (by omega), fun _ => ⟨hble, ?_⟩⟩
        simp only [Nat.add_sub_cancel]
        rw [← hc1, hseq, hend]

/-- The emissions of a sequence line, for any hasher: runs of k-mers that lead
from k-mer 0 to some k-mer `b`, each inside the line. -/
theorem parse_sequence_emits (st st' : parse_state) (hk1 : 1 ≤ cfg.k)
    (h : parse_sequence hash cfg nbytes st = .ok st') :
    ∃ runs b, runs_chain 0 runs b ∧ (∀ r ∈ runs, r.2 + cfg.k - 1 ≤ st.sequence.length) ∧
      (st'.builder, st'.minimizers)
        = emit_runs hash cfg nbytes st.sequence (st.builder, st.minimizers) runs := by
  by_cases hk : cfg.k ≤ st.sequence.length
  · rw [parse_sequence_long hash cfg nbytes st hk] at h
    split at h
    · cases h
    · injection h with h
      have hne : st.sequence ≠ [] := by
        intro he; rw [he] at hk; simp at hk; omega
      obtain ⟨runs, b, hch, hb, hg, hem, _, hpos⟩ :=
        kmers_loop_emits hash cfg nbytes st.sequence (start_sequence st) rfl hne rfl rfl rfl rfl
          (st.sequence.length - cfg.k + 1)
      obtain ⟨hbe, hpm⟩ := hpos (by omega)
      generalize hst : (kmer_step hash cfg nbytes)^[st.sequence.length - cfg.k + 1]
        (start_sequence st) = st1 at *
      have hseq : st1.sequence = st.sequence := by rw [← hst]; simp [start_sequence]
      have hend : st1.end_ = st.sequence.length - cfg.k + 1 := by
        rw [← hst]; simp [start_sequence]; omega
      have e : (start_sequence st).builder = st.builder := rfl
      have e' : (start_sequence st).minimizers = st.minimizers := rfl
      rw [e, e'] at hem
      have hbound : ∀ (rr : List (Nat × Nat)) (c : Nat), runs_chain 0 rr c →
          c ≤ st.sequence.length - cfg.k + 1 →
          ∀ r ∈ rr, r.2 + cfg.k - 1 ≤ st.sequence.length := by
        intro rr c hc hcn r hr
        have := ((runs_chain_bounds rr 0 c hc).2 r hr).2.2
        omega
      by_cases hp : st1.prev_minimizer = invalid_uint64
      · rw [append_super_kmer_idle cfg nbytes st1 hp] at h
        refine ⟨runs, b, hch, hbound runs b hch (by omega), ?_⟩
        rw [← h, hem]
      · rw [append_super_kmer_active cfg nbytes st1 (by rw [hseq]; exact hne) hp
          (by rw [hb, hend]; omega)] at h
        refine ⟨runs ++ [(b, st.sequence.length - cfg.k + 1)], _,
          runs_chain_snoc 0 b _ runs hch hbe, ?_, ?_⟩
        · exact hbound _ _ (runs_chain_snoc 0 b _ runs hch hbe) (Nat.le_refl _)
        · rw [emit_runs_snoc, ← hem, ← h]
          simp only [emit_run, hseq, hend, hb, hg, hpm]
          by_cases hbz : b = 0
          · simp [hbz]
          · simp [hbz]
  · rw [parse_sequence_short hash cfg nbytes st (by omega)] at h
    injection h with h
    subst h
    exact ⟨[], 0, rfl, by simp, by simp [emit_runs]⟩

theorem parse_record_emits (r : List Nat × List Nat) (st st' : parse_state) (hk1 : 1 ≤ cfg.k)
    (h : parse_record hash cfg nbytes r st = .ok st') :
    ∃ runs b, runs_chain 0 runs b ∧ (∀ x ∈ runs, x.2 + cfg.k - 1 ≤ r.2.length) ∧
      (st'.builder, st'.minimizers)
        = emit_runs hash cfg nbytes r.2 (st.builder, st.minimizers) runs := by
  unfold parse_record at h
  split at h
  · cases h
  · rename_i st1 hh
    have := parse_sequence_emits hash cfg nbytes _ _ hk1 h
    simp only at this
    have hfr : st1.builder = st.builder ∧ st1.minimizers = st.minimizers := by
      split at hh
      · obtain ⟨wb, sw, wv, wl, sl, e⟩ := parse_header_frame cfg _ _ hh
        rw [e]; exact ⟨rfl, rfl⟩
      · injection hh with hh
        rw [← hh]; exact ⟨rfl, rfl⟩
    rw [hfr.1, hfr.2] at this
    exact this

end

/-! ## Claim on the tuple offsets -/

section
variable (hash : Nat → Nat → Nat) (cfg : build_configuration) (nbytes : Nat)

/-- One emission keeps the tuple offsets sound: the builder and the tuples are
in step with the replay of the recorded appends, and the offsets recorded so
far are sound as long as the pool has fewer than `2^64` bases. -/
theorem emit_run_sound (s : List Nat) (acc : pool_builder × List minimizer_tuple)
    (r : Nat × Nat) (hk1 : 1 ≤ cfg.k) (hk : cfg.k < 2 ^ 64)
    (hr : r.1 < r.2) (hrl : r.2 + cfg.k - 1 ≤ s.length)
    (hglue : r.1 ≠ 0 → cfg.k ≤ acc.1.offset)
    (h1 : acc.2.length = acc.1.appended.length) (h2 : acc.1.k = cfg.k)
    (h3 : (pool_after (pool_builder.init cfg.k) (acc.2.zip acc.1.appended)).offset
      = acc.1.offset)
    (h4 : acc.1.offset < 2 ^ 64 →
      offsets_sound cfg.k (pool_builder.init cfg.k) (acc.2.zip acc.1.appended)) :
    (emit_run hash cfg nbytes s acc r).2.length
        = (emit_run hash cfg nbytes s acc r).1.appended.length ∧
    (emit_run hash cfg nbytes s acc r).1.k = cfg.k ∧
    (pool_after (pool_builder.init cfg.k)
      ((emit_run hash cfg nbytes s acc r).2.zip (emit_run hash cfg nbytes s acc r).1.appended)).offset
      = (emit_run hash cfg nbytes s acc r).1.offset ∧
    ((emit_run hash cfg nbytes s acc r).1.offset < 2 ^ 64 →
      offsets_sound cfg.k (pool_builder.init cfg.k)
        ((emit_run hash cfg nbytes s acc r).2.zip
          (emit_run hash cfg nbytes s acc r).1.appended)) ∧
    cfg.k ≤ (emit_run hash cfg nbytes s acc r).1.offset ∧
    ∃ t, (emit_run hash cfg nbytes s acc r).2.zip (emit_run hash cfg nbytes s acc r).1.appended
      = acc.2.zip acc.1.appended ++
        [(t, ((s.drop r.1).take (r.2 - r.1 + cfg.k - 1), decide (r.1 ≠ 0)))] := by
  have hlen : ((s.drop r.1).take (r.2 - r.1 + cfg.k - 1)).length = r.2 - r.1 + cfg.k - 1 := by
    simp only [List.length_take, List.length_drop]; omega
  have hz : (emit_run hash cfg nbytes s acc r).2.zip (emit_run hash cfg nbytes s acc r).1.appended
      = acc.2.zip acc.1.appended ++
        [(({ minimizer := (sel_at hash cfg s (r.2 - 1)).1
             offset := if r.1 = 0 then acc.1.offset
                       else (acc.1.offset + two64 - (cfg.k - 1) % two64) % two64
             num_kmers_in_super_kmer := (r.2 - r.1) % 2 ^ (nbytes * 8) } : minimizer_tuple),
          ((s.drop r.1).take (r.2 - r.1 + cfg.k - 1), decide (r.1 ≠ 0)))] := by
    simp only [emit_run, pool_builder.append]
    rw [List.zip_append h1]
    simp only [List.zip_cons_cons, List.zip_nil_right]
  have hoff : (emit_run hash cfg nbytes s acc r).1.offset
      = acc.1.offset + (r.2 - r.1 + cfg.k - 1 - if r.1 ≠ 0 then cfg.k - 1 else 0) := by
    simp only [emit_run, pool_builder.append, h2]
    by_cases hz0 : r.1 = 0
    · simp [hz0]
    · simp [hz0]
  have hpk := pool_after_k (acc.2.zip acc.1.appended) (pool_builder.init cfg.k)
  have hik : (pool_builder.init cfg.k).k = cfg.k := rfl
  refine ⟨?_, ?_, ?_, ?_, ?_, _, hz⟩
  · simp only [emit_run, pool_builder.append, List.length_append, List.length_singleton, h1]
  · simp only [emit_run, pool_builder.append, h2]
  · rw [hz, pool_after_snoc, hoff]
    simp only [pool_builder.append, hlen, h3, hpk, hik]
    by_cases hz0 : r.1 = 0
    · simp [hz0]
    · simp [hz0]
  · intro hlt
    rw [hz]
    have hacc : acc.1.offset < 2 ^ 64 := by omega
    apply offsets_sound_snoc cfg.k _ _ _ (h4 hacc)
    simp only [h3]
    by_cases hz0 : r.1 = 0
    · simp [hz0]
    · have hge := hglue hz0
      simp only [hz0, ne_eq, not_false_eq_true, decide_True, if_true, if_false]
      refine ⟨by omega, ?_⟩
      exact sub64_eq _ _ (by omega) hacc
  · rw [hoff]
    by_cases hz0 : r.1 = 0
    · simp only [hz0, ne_eq, not_true_eq_false, if_false]; omega
    · have := hglue hz0
      omega

/-- The emissions of a chain of runs keep the tuple offsets sound, and the
pairs they add are the appends of the sequence from the first k-mer of the
chain on. -/
theorem emit_runs_sound (s : List Nat) (hk1 : 1 ≤ cfg.k) (hk : cfg.k < 2 ^ 64) :
    ∀ (runs : List (Nat × Nat)) (a b : Nat) (acc : pool_builder × List minimizer_tuple),
      runs_chain a runs b → (∀ r ∈ runs, r.2 + cfg.k - 1 ≤ s.length) →
      (a ≠ 0 → cfg.k ≤ acc.1.offset) →
      acc.2.length = acc.1.appended.length → acc.1.k = cfg.k →
      (pool_after (pool_builder.init cfg.k) (acc.2.zip acc.1.appended)).offset = acc.1.offset →
      (acc.1.offset < 2 ^ 64 →
        offsets_sound cfg.k (pool_builder.init cfg.k) (acc.2.zip acc.1.appended)) →
      ((emit_runs hash cfg nbytes s acc runs).2.length
          = (emit_runs hash cfg nbytes s acc runs).1.appended.length ∧
        (emit_runs hash cfg nbytes s acc runs).1.k = cfg.k ∧
        (pool_after (pool_builder.init cfg.k)
          ((emit_runs hash cfg nbytes s acc runs).2.zip
            (emit_runs hash cfg nbytes s acc runs).1.appended)).offset
          = (emit_runs hash cfg nbytes s acc runs).1.offset ∧
        ((emit_runs hash cfg nbytes s acc runs).1.offset < 2 ^ 64 →
          offsets_sound cfg.k (pool_builder.init cfg.k)
            ((emit_runs hash cfg nbytes s acc runs).2.zip
              (emit_runs hash cfg nbytes s acc runs).1.appended))) ∧
      ∃ g, (emit_runs hash cfg nbytes s acc runs).2.zip
            (emit_runs hash cfg nbytes s acc runs).1.appended
          = acc.2.zip acc.1.appended ++ g ∧
        appends_of_sequence cfg.k s a g := by
  intro runs
  induction runs with
  | nil =>
    intro a b acc _ _ _ h1 h2 h3 h4
    exact ⟨⟨h1, h2, h3, h4⟩, [], by simp [emit_runs], trivial⟩
  | cons r rs ih =>
    intro a b acc hch hin hglue h1 h2 h3 h4
    simp only [runs_chain] at hch
    obtain ⟨hra, hlt, hch'⟩ := hch
    have hrl := hin r (List.mem_cons_self _ _)
    obtain ⟨e1, e2, e3, e4, e5, t, hz⟩ := emit_run_sound hash cfg nbytes s acc r hk1 hk
      (by omega) hrl (by rw [hra]; exact hglue) h1 h2 h3 h4
    obtain ⟨hP, g, hg1, hg2⟩ := ih r.2 b (emit_run hash cfg nbytes s acc r) hch'
      (fun x hx => hin x (List.mem_cons_of_mem _ hx)) (fun _ => e5) e1 e2 e3 e4
    rw [emit_runs_cons]
    refine ⟨hP, (t, ((s.drop r.1).take (r.2 - r.1 + cfg.k - 1), decide (r.1 ≠ 0))) :: g, ?_, ?_⟩
    · rw [hg1, hz, List.append_assoc]
      rfl
    · simp only [appends_of_sequence]
      exact ⟨r.2, by omega, hrl, by rw [hra], by rw [hra], hg2⟩

/-- What a record adds to the tuples and to the pool, for any hasher. -/
theorem parse_record_sound (r : List Nat × List Nat) (st st' : parse_state)
    (hk1 : 1 ≤ cfg.k) (hk : cfg.k < 2 ^ 64)
    (hJ : st.minimizers.length = st.builder.appended.length ∧ st.builder.k = cfg.k ∧
      (pool_after (pool_builder.init cfg.k) (st.minimizers.zip st.builder.appended)).offset
        = st.builder.offset ∧
      (st.builder.offset < 2 ^ 64 →
        offsets_sound cfg.k (pool_builder.init cfg.k) (st.minimizers.zip st.builder.appended)))
    (h : parse_record hash cfg nbytes r st = .ok st') :
    (st'.minimizers.length = st'.builder.appended.length ∧ st'.builder.k = cfg.k ∧
      (pool_after (pool_builder.init cfg.k) (st'.minimizers.zip st'.builder.appended)).offset
        = st'.builder.offset ∧
      (st'.builder.offset < 2 ^ 64 →
        offsets_sound cfg.k (pool_builder.init cfg.k)
          (st'.minimizers.zip st'.builder.appended))) ∧
    ∃ g, st'.minimizers.zip st'.builder.appended
        = st.minimizers.zip st.builder.appended ++ g ∧
      appends_of_sequence cfg.k r.2 0 g := by
  obtain ⟨runs, b, hch, hin, hem⟩ := parse_record_emits hash cfg nbytes r st st' hk1 h
  have hb : st'.builder = (emit_runs hash cfg nbytes r.2 (st.builder, st.minimizers) runs).1 := by
    rw [← hem]
  have hm : st'.minimizers
      = (emit_runs hash cfg nbytes r.2 (st.builder, st.minimizers) runs).2 := by
    rw [← hem]
  rw [hb, hm]
  exact emit_runs_sound hash cfg nbytes r.2 hk1 hk runs 0 b (st.builder, st.minimizers) hch hin
    (fun h => absurd rfl h) hJ.1 hJ.2.1 hJ.2.2.1 hJ.2.2.2

end

/-- C23: for every input of header/sequence records (any hasher), with
`1 ≤ k` and a pool that stays below `2^64` bases: every tuple goes with one
pool append; the appends of a sequence line hold the bases of consecutive runs
of its k-mers that start at k-mer 0, the first of them is not glued and all
others are; the tuple of an append that is not glued records the base offset
the pool has before the append; and at every glued append that offset is
greater than `k - 1` (the assertion of `append_super_kmer` holds) and the tuple
records the offset minus `k - 1`. The offsets before the appends are those of
the pool builder to which the recorded appends are replayed, and the replay
ends at the offset of the builder that `parse_file` leaves. -/
theorem C23_tuple_offsets (murmur : Nat → Nat → Nat) (nbytes : Nat)
    (rs : List (List Nat × List Nat)) (nl : Bool) (cfg : build_configuration)
    (st : parse_state) (hk1 : 1 ≤ cfg.k) (hk : cfg.k < 2 ^ 64)
    (h : parse_file murmur nbytes (input_lines rs nl) cfg = .ok st)
    (hoff : st.builder.offset < 2 ^ 64) :
    st.minimizers.length = st.builder.appended.length ∧
    (∃ groups : List (List (minimizer_tuple × (List Nat × Bool))),
      st.minimizers.zip st.builder.appended = groups.flatten ∧
      List.Forall₂ (fun r g => appends_of_sequence cfg.k r.2 0 g) rs groups) ∧
    offsets_sound cfg.k (pool_builder.init cfg.k) (st.minimizers.zip st.builder.appended) ∧
    (pool_after (pool_builder.init cfg.k) (st.minimizers.zip st.builder.appended)).offset
      = st.builder.offset := by
  obtain ⟨_, st1, seq, hp, hst⟩ := parse_file_ok murmur nbytes rs nl cfg hk1 st h
  obtain ⟨hJ, groups, hg1, hg2⟩ := parse_records_lift (murmurhash2_64_hash murmur) cfg nbytes
    (fun s => s.minimizers.zip s.builder.appended)
    (fun r g => appends_of_sequence cfg.k r.2 0 g)
    (fun s => s.minimizers.length = s.builder.appended.length ∧ s.builder.k = cfg.k ∧
      (pool_after (pool_builder.init cfg.k) (s.minimizers.zip s.builder.appended)).offset
        = s.builder.offset ∧
      (s.builder.offset < 2 ^ 64 →
        offsets_sound cfg.k (pool_builder.init cfg.k) (s.minimizers.zip s.builder.appended))) rs
    (fun r _ s s' hs hr =>
      parse_record_sound (murmurhash2_64_hash murmur) cfg nbytes r s s' hk1 hk hs hr)
    (parse_state.init cfg) st1
    ⟨rfl, rfl, rfl, fun _ => by simp [parse_state.init, pool_builder.init, offsets_sound]⟩ hp
  rw [hst] at hoff ⊢
  have hz : st1.minimizers.zip st1.builder.appended = groups.flatten := by
    simpa [parse_state.init, pool_builder.init] using hg1
  have hoff1 : st1.builder.offset < 2 ^ 64 := by
    simpa [pool_builder.finalize] using hoff
  refine ⟨by simpa [pool_builder.finalize] using hJ.1, ⟨groups, ?_, hg2⟩, ?_, ?_⟩
  · simpa [pool_builder.finalize] using hz
  · simpa [pool_builder.finalize] using hJ.2.2.2 hoff1
  · simpa [pool_builder.finalize] using hJ.2.2.1

/-- C23 on the sequence `ACA` with `k = 2`, `m = 1`, `seed = 1` and the stand-in
hasher: the tuple of the append of `AC` records offset 0, and at the glued
append of `CA` the offset 2 of the pool is greater than `k - 1 = 1` and the
tuple records `2 - 1 = 1`. -/
theorem C23_tuple_offsets_witness :
    ∃ st, parse_file example_murmur 1 (input_lines aca_records false)
        { k := 2, m := 1, seed := 1, canonical_parsing := false, weighted := false } = .ok st ∧
      st.builder.offset < 2 ^ 64 ∧
      st.minimizers = [⟨0, 0, 1⟩, ⟨0, 1, 1⟩] ∧
      st.builder.appended = [([65, 67], false), ([67, 65], true)] ∧
      offsets_sound 2 (pool_builder.init 2) (st.minimizers.zip st.builder.appended) :=
  ⟨_, rfl, by decide, rfl, rfl, (C23_tuple_offsets example_murmur 1 aca_records false
    { k := 2, m := 1, seed := 1, canonical_parsing := false, weighted := false } _
    (by decide) (by decide) rfl (by decide)).2.2.1⟩

/-! ## The scenario of the spec, and inputs that meet the reserved value -/

/-- The scenario `>s1 / ACGTACGT` of §8 (`k = 5`, `m = 3`, `seed = 1`) with the
hasher of the spec: 4 k-mers, three super-k-mers, one piece boundary at 0 and a
pool of 8 bases, as the scenario expects. -/
theorem scenario_acgtacgt :
    ∃ st, parse_file MurmurHash2_64 1 (input_lines scenario_records true) example_cfg = .ok st ∧
      st.num_kmers = 4 ∧
      st.minimizers = [⟨45, 0, 2⟩, ⟨11, 2, 1⟩, ⟨45, 3, 1⟩] ∧
      st.builder.strings = [0, 1, 3, 2, 0, 1, 3, 2] ∧
      st.builder.pieces = [0, 8] :=
  ⟨_, rfl, rfl, rfl, rfl, rfl⟩

/-- The scenario with the two sequences `ACGTACGTACGT` and `TTTTTACGT` of §8,
with the short line `ACG` between them (`k = 5`, `m = 3`, `seed = 1`) and the
hasher of the spec: 8 + 5 k-mers, the tuples of the first sequence before those
of the second, three piece boundaries, and a pool of 12 + 9 bases. -/
theorem scenario_two_sequences :
    ∃ st, parse_file MurmurHash2_64 1 (input_lines example_records true) example_cfg = .ok st ∧
      st.num_kmers = 13 ∧
      st.minimizers = [⟨45, 0, 2⟩, ⟨11, 2, 1⟩, ⟨45, 3, 3⟩, ⟨11, 6, 1⟩, ⟨45, 7, 1⟩,
        ⟨42, 12, 1⟩, ⟨42, 13, 1⟩, ⟨42, 14, 1⟩, ⟨52, 15, 1⟩, ⟨45, 16, 1⟩] ∧
      st.builder.pieces = [0, 12, 21] ∧
      st.builder.strings.length = 21 :=
  ⟨_, rfl, rfl, rfl, rfl, rfl⟩

/-- C2 fails on the line `ATAGGCCCCAGTGGCCATCCTACTCGCCCCA` with `k = m = 31`
and `seed = 2`: the hash of this valid 31-mer is `2^64 - 1`, so no minimizer is
selected for it, and `parse_file` counts its k-mer (`num_kmers = 1`) but emits
no tuple: the k-mer is counted by no tuple and the counts sum to 0. -/
theorem C2_reserved_kmer_in_no_tuple :
    (∀ c ∈ reserved_31mer, c ∈ [65, 67, 71, 84]) ∧ reserved_31mer.length = 31 ∧
    murmurhash2_64_hash MurmurHash2_64 (string_to_uint_kmer_no_reverse reserved_31mer 31) 2
      = 2 ^ 64 - 1 ∧
    ∃ st, parse_file MurmurHash2_64 1 (input_lines reserved_records true) reserved_cfg = .ok st ∧
      st.num_kmers = 1 ∧ st.minimizers = [] :=
  ⟨by decide, rfl, by decide, _, rfl, rfl, rfl⟩

/-- C3 fails on the line `ATAGGCCCCAGTGGCCATCCTACTCGCCCCAA` with `k = m = 31`
and `seed = 2`: the first k-mer has no minimizer (its hash is `2^64 - 1`), the
second k-mer takes it into its run, and the one tuple emitted has count 2,
above `k - m + 1 = 1`. -/
theorem C3_count_exceeds_bound :
    ∃ st, parse_file MurmurHash2_64 1 (input_lines reserved_a_records true) reserved_cfg
        = .ok st ∧
      st.minimizers = [⟨96656512820991474, 0, 2⟩] ∧
      ∃ t ∈ st.minimizers, reserved_cfg.k - reserved_cfg.m + 1 < t.num_kmers_in_super_kmer :=
  ⟨_, rfl, rfl, _, List.mem_singleton.2 rfl, by decide⟩

/-- C4 fails on the line `ATAGGCCCCAGTGGCCATCCTACTCGCCCCAA` with `k = m = 31`
and `seed = 2`: the one tuple covers the k-mers 0 and 1, the selection step
yields `(2^64 - 1, 0)` for k-mer 0 and `(96656512820991474, 0)` for k-mer 1, so
the minimizer of k-mer 0 is not the minimizer of the tuple and the positions do
not decrease by one. -/
theorem C4_run_of_two_minimizers :
    ∃ st, parse_file MurmurHash2_64 1 (input_lines reserved_a_records true) reserved_cfg
        = .ok st ∧
      st.num_kmers = 2 ∧
      st.minimizers = [⟨96656512820991474, 0, 2⟩] ∧
      sel_at (murmurhash2_64_hash MurmurHash2_64) reserved_cfg (reserved_31mer ++ [65]) 0
        = (2 ^ 64 - 1, 0) ∧
      sel_at (murmurhash2_64_hash MurmurHash2_64) reserved_cfg (reserved_31mer ++ [65]) 1
        = (96656512820991474, 0) :=
  ⟨_, rfl, rfl, rfl, by decide, by decide⟩

/-- C5 fails with `k = m = 31` and `seed = 2`. On the line
`ATAGGCCCCAGTGGCCATCCTACTCGCCCCA` (31 bases) the only k-mer has no minimizer
(its hash is `2^64 - 1`): no tuple is emitted, nothing is appended and the pool
stays empty, so the tuples do not reconstruct this sequence of length `k`. On
the line `CATAGGCCCCAGTGGCCATCCTACTCGCCCCA` (32 bases) the second k-mer is the
one without minimizer and is never emitted: the only tuple and the only append
hold the first 31 bases, and the last base of the sequence is not in the pool. -/
theorem C5_sequence_not_in_pool :
    (reserved_31mer.length = 31 ∧
      ∃ st, parse_file MurmurHash2_64 1 (input_lines reserved_records true) reserved_cfg
          = .ok st ∧
        st.minimizers = [] ∧ st.builder.appended = [] ∧ st.builder.strings = []) ∧
    ((67 :: reserved_31mer).length = 32 ∧
      ∃ st, parse_file MurmurHash2_64 1 (input_lines c_reserved_records true) reserved_cfg
          = .ok st ∧
        st.num_kmers = 2 ∧
        st.minimizers = [⟨1546504205135863585, 0, 1⟩] ∧
        st.builder.appended = [((67 :: reserved_31mer).take 31, false)] ∧
        st.builder.strings = ((67 :: reserved_31mer).take 31).map char_to_uint ∧
        st.builder.strings.length = 31) :=
  ⟨⟨rfl, _, rfl, rfl, rfl, rfl⟩, rfl, _, rfl, rfl, rfl, rfl, rfl, rfl⟩

/-- C8 fails on the line `ATAGGCCCCAGTGGCCATCCTACTCGCCCCA` with `k = m = 31` and
`seed = 2`: the line has length `k` and is counted in `num_sequences`, but no
append is made for it, with or without glue, and after `finalize` `pieces` has
one entry, not `num_sequences + 1 = 2`. -/
theorem C8_no_piece_for_reserved_line :
    ∃ st, parse_file MurmurHash2_64 1 (input_lines reserved_records true) reserved_cfg = .ok st ∧
      st.num_sequences = 1 ∧ st.builder.appended = [] ∧ st.builder.pieces = [0] ∧
      st.builder.pieces.length ≠ st.num_sequences + 1 :=
  ⟨_, rfl, rfl, rfl, rfl, by decide⟩

/-- C14 fails on the line `ACGTn` with `k = 5`, `m = 3`, `seed = 1`: the line
holds a lowercase letter, the condition `is_valid(kmer, k)` of the assertion of
the k-mer loop is false on its k-mer, and with the assertion compiled out
`parse_file` returns without error, having counted the k-mer, emitted a tuple
for it and appended it to the pool (the `n` with the code of `G`). -/
theorem C14_invalid_base_accepted :
    110 ∉ [65, 67, 71, 84] ∧
    (∀ cs, is_valid cs [65, 67, 71, 84, 110] 5 = some false) ∧
    ∃ st, parse_file MurmurHash2_64 1 (input_lines lowercase_records true) example_cfg
        = .ok st ∧
      st.num_kmers = 1 ∧
      st.minimizers = [⟨59, 0, 1⟩] ∧
      st.builder.strings = [0, 1, 3, 2, 3] :=
  ⟨by decide, by decide, _, rfl, rfl, rfl, rfl⟩

/-! ## The selection step in canonical mode, continued -/

end sshash
